import Mathlib

/-!
# User dictionary manager (`src/lever/user_dict_manager.cc`)

A shallow embedding of `rime::UserDictManager` (Restore / Export / Import) and of the
helpers it calls, followed by theorems about the merge, the text interchange and the
failure paths.

Modelling conventions
* `std::string` is a list of characters (`Str`); every character the code inspects
  (tab, space, `#`, `=`, line feed, the `\x01/` prefix) is ASCII.
* A `UserDb` is an association list from keys to values, iterated in list order;
  `Fetch` reads the binding of a key and `Update` rebinds it or adds it.  Whether the
  storage engine accepts an update is decided by a parameter `ok`, as the code
  branches on the result of `Update`.
* `double` is a parameter: a type `W` with the operations the code uses
  (`DoubleModel`), among them the decay `algo::formula_d`, which is not part of the
  sources at hand.  Where a theorem needs more than the operations it says so by a
  hypothesis (`DoubleModel.FmtNoSpace`, `DoubleModel.Lawful`); a linear order on `W`
  leaves out NaN.  `int` is `Int` within the 32 bit range and `TickCount` is `Nat`
  below `2 ^ 64`; both are checked where a string is parsed.
* `UserDictionary::UnpackValues` is not part of the sources at hand either and is
  modelled from the spec (`UnpackValues`).
* Opening a store and loading a snapshot are inputs: a store that does not open is
  `none`, and `Restore` works on a map from dictionary names to stores (`Disk`).
-/

namespace rime

/-- A `std::string`. -/
abbrev Str := List Char

/-! ## Decimal rendering and parsing (`boost::lexical_cast`, `boost::format`) -/

/-- Rendering of an unsigned integer, `lexical_cast<std::string>` and `%N%`. -/
def showNat (n : Nat) : Str := Nat.toDigits 10 n

/-- Rendering of an `int`. -/
def showInt : Int → Str
  | Int.ofNat n => showNat n
  | Int.negSucc n => '-' :: showNat (n + 1)

/-- Value of a string of decimal digits, most significant digit first. -/
def digitsVal (s : Str) : Nat := s.foldl (fun a c => 10 * a + (c.toNat - 48)) 0

/-- A non-empty string of decimal digits is read as its value. -/
def parseDigits (s : Str) : Option Nat :=
  if s ≠ [] ∧ s.all Char.isDigit = true then some (digitsVal s) else none

/-- The call `lexical_cast<TickCount>`: an unsigned 64 bit decimal, `none` when the
cast throws. -/
def parseTick (s : Str) : Option Nat :=
  match parseDigits s with
  | some n => if n < 2 ^ 64 then some n else none
  | none => none

/-- The call `lexical_cast<int>`: an optional sign and decimal digits within the 32 bit
range, `none` when the cast throws. -/
def parseInt (s : Str) : Option Int :=
  match s with
  | '-' :: r =>
    match parseDigits r with
    | some n => if n ≤ 2 ^ 31 then some (-(n : Int)) else none
    | none => none
  | '+' :: r =>
    match parseDigits r with
    | some n => if n < 2 ^ 31 then some (n : Int) else none
    | none => none
  | _ =>
    match parseDigits s with
    | some n => if n < 2 ^ 31 then some (n : Int) else none
    | none => none

/-- The range of a C++ `int`. -/
def InIntRange (c : Int) : Prop := -(2 ^ 31 : Int) ≤ c ∧ c < 2 ^ 31

/-! ## The `double` operations used by the code -/

/-- The operations on `double` that the manager uses.  `formula_d` is
`algo::formula_d` of `rime/algo/dynamics.h`, which is not part of the sources at hand;
`fmt` is the rendering by `boost::format` and `parse` is `lexical_cast<double>`. -/
structure DoubleModel (W : Type) where
  /-- The literal `0.0`. -/
  zero : W
  /-- The conversion `(double)tick`. -/
  ofTick : Nat → W
  /-- The comparison `a < b`. -/
  lt : W → W → Bool
  /-- The decay `algo::formula_d(d, t, da, ta)`. -/
  formula_d : W → W → W → W → W
  /-- Rendering of a `double` by `boost::format`. -/
  fmt : W → Str
  /-- Parsing of a `double`, `none` when the cast throws. -/
  parse : Str → Option W

/-- The call `(std::max)(a, b)` on `double`: `a < b ? b : a`. -/
def DoubleModel.max {W : Type} (M : DoubleModel W) (a b : W) : W :=
  if M.lt a b = true then b else a

/-! ## Splitting and trimming (`boost::algorithm`) -/

/-- Puts a character in front of the first token of a token list. -/
def consHead (c : Char) : List Str → List Str
  | [] => [[c]]
  | h :: t => (c :: h) :: t

/-- The call `boost::algorithm::split(result, s, is_any_of(sep))` without token
compression: the tokens between separators, empty tokens included. -/
def split (sep : Char) : Str → List Str
  | [] => [[]]
  | c :: cs => if c = sep then [] :: split sep cs else consHead c (split sep cs)

/-- The position of the first occurrence of a character, `std::string::find`. -/
def findChar (c : Char) : Str → Option Nat
  | [] => none
  | x :: xs => if x = c then some 0 else (findChar c xs).map (· + 1)

/-- The call `boost::starts_with`. -/
def startsWith (s pre : Str) : Bool := pre.isPrefixOf s

/-! ## The store -/

/-- The content of a `UserDb`: its key/value bindings in iteration order. -/
abbrev Store := List (Str × Str)

/-- The call `db.Fetch(key, &value)`. -/
def Fetch : Store → Str → Option Str
  | [], _ => none
  | (k, v) :: rest, key => if k = key then some v else Fetch rest key

/-- The effect of a successful `db.Update(key, value)`: the binding of `key` is
replaced, or added when the key is new. -/
def Store.put : Store → Str → Str → Store
  | [], key, value => [(key, value)]
  | (k, v) :: rest, key, value =>
    if k = key then (k, value) :: rest else (k, v) :: Store.put rest key value

/-- The call `db.Update(key, value)`: the result flag and the store afterwards.  The
parameter `ok` tells whether the storage engine accepts the update. -/
def Update (ok : Store → Str → Str → Bool) (db : Store) (key value : Str) : Bool × Store :=
  if ok db key value = true then (true, db.put key value) else (false, db)

/-! ## Record values -/

/-- Splits a token `k=v` at its first `=`. -/
def splitEq : Str → Option (Str × Str)
  | [] => none
  | c :: cs =>
    if c = '=' then some ([], cs)
    else match splitEq cs with
      | some (k, v) => some (c :: k, v)
      | none => none

/-- One `k=v` token of a record value assigned to the triple read so far. -/
def assignField {W : Type} (M : DoubleModel W) (acc : Int × W × Nat) (tok : Str) :
    Int × W × Nat :=
  match splitEq tok with
  | none => acc
  | some (k, v) =>
    if k = ['c'] then
      match parseInt v with
      | some c => (c, acc.2.1, acc.2.2)
      | none => acc
    else if k = ['d'] then
      match M.parse v with
      | some d => (acc.1, d, acc.2.2)
      | none => acc
    else if k = ['t'] then
      match parseTick v with
      | some t => (acc.1, acc.2.1, t)
      | none => acc
    else acc

/-- Modelled from the spec: `UserDictionary::UnpackValues` (`rime/dict/user_dictionary`),
called by the manager but not part of the sources at hand.  It reads the textual form
`c=<int> d=<float> t=<int>`; a field that is missing or malformed resolves to zero,
which is also the value the callers initialise the three results with. -/
def UnpackValues {W : Type} (M : DoubleModel W) (value : Str) : Int × W × Nat :=
  (split ' ' value).foldl (assignField M) (0, M.zero, 0)

/-- The value written by `boost::format("c=%1% d=%2% t=%3%") % c % d % t`. -/
def formatValue {W : Type} (M : DoubleModel W) (c : Int) (d : W) (t : Nat) : Str :=
  ['c', '='] ++ showInt c ++ [' ', 'd', '='] ++ M.fmt d ++ [' ', 't', '='] ++ showNat t

/-! ## Metadata -/

/-- The prefix `"\x01/"` of every metadata key. -/
def metaPrefix : Str := ['\x01', '/']

/-- The key `"\x01/db_type"`. -/
def dbTypeKey : Str := metaPrefix ++ "db_type".toList

/-- The key `"\x01/db_name"`. -/
def dbNameKey : Str := metaPrefix ++ "db_name".toList

/-- The key `"\x01/user_id"`. -/
def userIdKey : Str := metaPrefix ++ "user_id".toList

/-- The key `"\x01/tick"`. -/
def tickKey : Str := metaPrefix ++ "tick".toList

/-- The position of the last occurrence of `search` in `input`. -/
def findLast (search : Str) : Str → Option Nat
  | [] => if search = [] then some 0 else none
  | c :: cs =>
    match findLast search cs with
    | some i => some (i + 1)
    | none => if search.isPrefixOf (c :: cs) = true then some 0 else none

/-- The call `boost::erase_last(input, search)`: the last occurrence of `search`, if
there is one, is removed from `input`. -/
def eraseLast (input search : Str) : Str :=
  match findLast search input with
  | some i => input.take i ++ input.drop (i + search.length)
  | none => input

/-- The function `IsUserDb` (lines 26 to 29): the store carries `db_type = userdb`. -/
def IsUserDb (db : Store) : Bool :=
  match Fetch db dbTypeKey with
  | some db_type => decide (db_type = "userdb".toList)
  | none => false

/-- The function `GetDbName` (lines 31 to 38): the stored `db_name` without the storage
suffixes, empty when there is none. -/
def GetDbName (db : Store) : Str :=
  match Fetch db dbNameKey with
  | none => []
  | some name => eraseLast (eraseLast name ".kct".toList) ".userdb".toList

/-- The function `GetUserId` (lines 40 to 44). -/
def GetUserId (db : Store) : Str :=
  match Fetch db userIdKey with
  | some user_id => user_id
  | none => "unknown".toList

/-- The function `GetTickCount` (lines 46 to 56): the stored tick, 1 when it is missing
or does not parse. -/
def GetTickCount (db : Store) : Nat :=
  match Fetch db tickKey with
  | some tick =>
    match parseTick tick with
    | some n => n
    | none => 1
  | none => 1

/-! ## Restore: the merge of a snapshot into the destination -/

/-- The repair of line 138: a space is inserted before the tab at `tab_pos` unless one
is there. -/
def repairKey (key : Str) (tab_pos : Nat) : Str :=
  if key.get? (tab_pos - 1) ≠ some ' ' then key.take tab_pos ++ ' ' :: key.drop tab_pos
  else key

/-- The key under which a source record is merged, `none` when the loop skips the
record (lines 132 to 139). -/
def mergeKey (key : Str) : Option Str :=
  if startsWith key metaPrefix = true then none
  else
    match findChar '\t' key with
    | none => none
    | some tab_pos => if tab_pos = 0 then none else some (repairKey key tab_pos)

/-- The weight `d` of a record stamped `t`, decayed to `tick` when `t < tick`. -/
def decayTo {W : Type} (M : DoubleModel W) (tick : Nat) (d : W) (t : Nat) : W :=
  if t < tick then M.formula_d M.zero (M.ofTick tick) d (M.ofTick t) else d

/-- The value written for a source value `right` (lines 140 to 157), given what
`dest.Fetch(key, &left)` returned. -/
def mergeValue {W : Type} (M : DoubleModel W) (tick_left tick_right tick_max : Nat)
    (right : Str) (left : Option Str) : Str :=
  let (c, d, t) := UnpackValues M right
  let d := decayTo M tick_right d t
  match left with
  | some left =>
    let (c0, d0, t0) := UnpackValues M left
    let d0 := decayTo M tick_left d0 t0
    formatValue M (max c c0) (M.max d d0) tick_max
  | none => formatValue M c d tick_max

/-- One iteration of the loop of `Restore` (lines 131 to 160) on the destination and
the entry counter. -/
def mergeStep {W : Type} (M : DoubleModel W) (ok : Store → Str → Str → Bool)
    (tick_left tick_right tick_max : Nat) (st : Store × Nat) (rec : Str × Str) :
    Store × Nat :=
  match mergeKey rec.1 with
  | none => st
  | some key =>
    let right := mergeValue M tick_left tick_right tick_max rec.2 (Fetch st.1 key)
    let r := Update ok st.1 key right
    if r.1 = true then (r.2, st.2 + 1) else (r.2, st.2)

/-- The merge of `Restore` (lines 125 to 169): the loop over the records of the working
store and the metadata update.  Returns the destination afterwards and `num_entries`. -/
def merge {W : Type} (M : DoubleModel W) (ok : Store → Str → Str → Bool) (user_id : Str)
    (temp dest : Store) : Store × Nat :=
  let tick_left := GetTickCount dest
  let tick_right := GetTickCount temp
  let tick_max := max tick_left tick_right
  let st := temp.foldl (mergeStep M ok tick_left tick_right tick_max) (dest, 0)
  if st.2 > 0 then
    let dest1 := (Update ok st.1 tickKey (showNat tick_max)).2
    let dest2 := (Update ok dest1 userIdKey user_id).2
    (dest2, st.2)
  else st

/-- The user dictionaries of the user data directory: `disk name` is the content that
`UserDb(name).Open()` gives access to, `none` when the open fails. -/
abbrev Disk := Str → Option Store

/-- The method `UserDictManager::Restore` (lines 97 to 173).  `tempOpens` tells whether
the working store `.temp` opens and `snapshot` is its content after
`temp.Restore(snapshot_file)`, `none` when that call fails; the working store is not
one of the dictionaries of `disk`.  Returns the result and the dictionaries
afterwards. -/
def UserDictManager.Restore {W : Type} (M : DoubleModel W)
    (ok : Store → Str → Str → Bool) (user_id : Str) (tempOpens : Bool)
    (snapshot : Option Store) (disk : Disk) : Bool × Disk :=
  if tempOpens = false then (false, disk)
  else
    match snapshot with
    | none => (false, disk)
    | some temp =>
      if IsUserDb temp = false then (false, disk)
      else
        let db_name := GetDbName temp
        if db_name = [] then (false, disk)
        else
          match disk db_name with
          | none => (false, disk)
          | some dest =>
            (true, Function.update disk db_name (some (merge M ok user_id temp dest).1))

/-! ## Export and Import: the text interchange -/

/-- The characters that `boost::algorithm::trim` removes (`std::isspace` in the
classic locale). -/
def isSpace (c : Char) : Bool :=
  c = ' ' || c = '\t' || c = '\n' || c = '\x0b' || c = '\x0c' || c = '\r'

/-- The call `boost::algorithm::trim`. -/
def trim (s : Str) : Str := ((s.dropWhile isSpace).reverse.dropWhile isSpace).reverse

/-- The call `boost::algorithm::split` with `token_compress_on`: a run of adjacent
separators counts as one separator. -/
def splitCompress (sep : Char) : Str → List Str
  | [] => [[]]
  | c :: cs =>
    if c = sep then
      if cs.head? = some sep then splitCompress sep cs else [] :: splitCompress sep cs
    else consHead c (splitCompress sep cs)

/-- The call `boost::algorithm::join`. -/
def join (tokens : List Str) (sep : Str) : Str := sep.intercalate tokens

/-- The lines that successive calls of `getline` return for a file content. -/
def getlines : Str → List Str
  | [] => []
  | c :: cs => if c = '\n' then [] :: getlines cs else consHead c (getlines cs)

/-- The comment header that `Export` writes (lines 187 to 191). -/
def exportHeader (db : Store) : Str :=
  "# Rime user dictionary export".toList ++ ['\n'] ++
  "# db_name: ".toList ++ GetDbName db ++ ['\n'] ++
  "# user_id: ".toList ++ GetUserId db ++ ['\n'] ++
  "# commits: ".toList ++ showNat (GetTickCount db) ++ ['\n'] ++
  ['\n']

/-- The row that one iteration of the loop of `Export` writes (lines 197 to 211),
`none` when the iteration ends in `continue`. -/
def exportRow {W : Type} (M : DoubleModel W) (rec : Str × Str) : Option Str :=
  if startsWith rec.1 metaPrefix = true then none
  else
    match split '\t' rec.1 with
    | [row0, row1] =>
      if row0 = [] ∨ row1 = [] then none
      else
        let row0 := trim row0
        let c := (UnpackValues M rec.2).1
        if c < 0 then none
        else some (row1 ++ ['\t'] ++ row0 ++ ['\t'] ++ showInt c ++ ['\n'])
    | _ => none

/-- One iteration of the loop of `Export` on the output written so far and the entry
counter. -/
def exportStep {W : Type} (M : DoubleModel W) (st : Str × Nat) (rec : Str × Str) :
    Str × Nat :=
  match exportRow M rec with
  | none => st
  | some row => (st.1 ++ row, st.2 + 1)

/-- The method `UserDictManager::Export` (lines 175 to 216).  `db` is the content of the
dictionary, `none` when `OpenReadOnly` fails.  Returns the result and the content
written to `text_file`, `none` when the file is not written. -/
def UserDictManager.Export {W : Type} (M : DoubleModel W) (db : Option Store) :
    Int × Option Str :=
  match db with
  | none => (-1, none)
  | some db =>
    if IsUserDb db = false then (-1, none)
    else
      let st := db.foldl (exportStep M) (exportHeader db, 0)
      ((st.2 : Int), some st.1)

/-- The key that a line of the text file addresses and its commit count (lines 234 to
260), `none` when the line is skipped. -/
def importEntry (line : Str) : Option (Str × Int) :=
  if line = [] ∨ line.head? = some '#' then none
  else
    match split '\t' line with
    | row0 :: row1 :: rest =>
      if row0 = [] ∨ row1 = [] then none
      else
        let row1 := trim row1
        let row1 := if row1 ≠ [] then join (splitCompress ' ' row1) [' '] else row1
        let key := row1 ++ [' ', '\t'] ++ row0
        let commits : Int :=
          match rest with
          | row2 :: _ =>
            if row2 ≠ [] then
              match parseInt row2 with
              | some n => n
              | none => 0
            else 0
          | [] => 0
        some (key, commits)
    | _ => none

/-- The record that `Import` starts from (lines 261 to 265), given what
`db.Fetch(key, &value)` returned: the unpacked binding, or zeros when the key has
none. -/
def readRecord {W : Type} (M : DoubleModel W) (value : Option Str) : Int × W × Nat :=
  match value with
  | some value => UnpackValues M value
  | none => (0, M.zero, 0)

/-- The value that `Import` writes for a commit count `commits` (lines 261 to 271),
given what `db.Fetch(key, &value)` returned. -/
def importValue {W : Type} (M : DoubleModel W) (commits : Int) (value : Option Str) :
    Str :=
  let (c, d, t) := readRecord M value
  let c := if commits > 0 then max commits c else if commits < 0 then commits else c
  formatValue M c d t

/-- One iteration of the loop of `Import` (lines 232 to 274). -/
def importStep {W : Type} (M : DoubleModel W) (ok : Store → Str → Str → Bool)
    (st : Store × Nat) (line : Str) : Store × Nat :=
  match importEntry line with
  | none => st
  | some (key, commits) =>
    let value := importValue M commits (Fetch st.1 key)
    let r := Update ok st.1 key value
    if r.1 = true then (r.2, st.2 + 1) else (r.2, st.2)

/-- The method `UserDictManager::Import` (lines 218 to 277).  `db` is the content of the
dictionary, `none` when `Open` fails; `text` is the content of `text_file`.  Returns
the result and the dictionary afterwards. -/
def UserDictManager.Import {W : Type} (M : DoubleModel W)
    (ok : Store → Str → Str → Bool) (db : Option Store) (text : Str) :
    Int × Option Store :=
  match db with
  | none => (-1, none)
  | some db =>
    if IsUserDb db = false then (-1, some db)
    else
      let st := (getlines text).foldl (importStep M ok) (db, 0)
      ((st.2 : Int), some st.1)

/-! ## A concrete model of `double` for evaluating the code -/

/-- Weights restricted to whole numbers: rendered in decimal, compared as numbers,
and decayed by halving once per elapsed tick. -/
def wholeModel : DoubleModel Nat where
  zero := 0
  ofTick := fun t => t
  lt := fun a b => decide (a < b)
  formula_d := fun d t da ta => d + da / 2 ^ (t - ta)
  fmt := showNat
  parse := parseDigits

/-- A storage engine that accepts every update. -/
def okAll : Store → Str → Str → Bool := fun _ _ _ => true

/-- The rendering of a `double` contains no space, so it is a single token of a
record value. -/
def DoubleModel.FmtNoSpace {W : Type} (M : DoubleModel W) : Prop :=
  ∀ d : W, ' ' ∉ M.fmt d

/-- The weight that is read back from the rendering of `d`: the effect of writing a
weight to a record value and unpacking it again. -/
def DoubleModel.reparse {W : Type} (M : DoubleModel W) (d : W) : W :=
  match M.parse (M.fmt d) with
  | some d1 => d1
  | none => M.zero

/-! ## Concrete stores for evaluating the code -/

/-- The user data directory that holds the single dictionary `name` with content `db`. -/
def diskOf (name : Str) (db : Store) : Disk := fun n => if n = name then some db else none

/-- Scenario A of the spec: the snapshot of dictionary `X`, at tick 3, with one record
under a key that lacks the space before its tab. -/
def scenarioA_src : Store :=
  [(dbTypeKey, "userdb".toList), (dbNameKey, "X".toList), (userIdKey, "A".toList),
   (tickKey, "3".toList), ("ni hao\tyou are".toList, "c=5 d=2.0 t=2".toList)]

/-- Scenario A of the spec: the destination, without records, at tick 1. -/
def scenarioA_dest : Store :=
  [(dbTypeKey, "userdb".toList), (dbNameKey, "X".toList), (userIdKey, "B".toList),
   (tickKey, "1".toList)]

/-! ## The merge seen at one key -/

/-- The binding of key `k` across one iteration of the loop of `Restore`, when the
update succeeds: a record whose merge key is `k` rebinds it, any other leaves it. -/
def mergeAt {W : Type} (M : DoubleModel W) (tick_left tick_right tick_max : Nat) (k : Str)
    (v : Option Str) (rec : Str × Str) : Option Str :=
  if mergeKey rec.1 = some k then some (mergeValue M tick_left tick_right tick_max rec.2 v)
  else v

/-- The commit count of a binding, when there is one. -/
def commitsOf {W : Type} (M : DoubleModel W) (v : Option Str) : Option Int :=
  v.map (fun s => (UnpackValues M s).1)

/-- The commit count that a source record with count `c` leaves, given the count of
the destination record: the larger of the two. -/
def maxCommits (c : Int) : Option Int → Int
  | some c0 => max c c0
  | none => c

/-- The commit count under key `k` across one iteration of the loop of `Restore`. -/
def mergeCommitsAt {W : Type} (M : DoubleModel W) (k : Str) (c : Option Int)
    (rec : Str × Str) : Option Int :=
  if mergeKey rec.1 = some k then some (maxCommits (UnpackValues M rec.2).1 c) else c

/-- A snapshot of dictionary `X` in which the record `ni hao` / `hello` is deleted: its
commit count is negative. -/
def tombstone_src : Store :=
  [(dbTypeKey, "userdb".toList), (dbNameKey, "X".toList), (userIdKey, "A".toList),
   (tickKey, "2".toList), ("ni hao \thello".toList, "c=-1 d=0 t=2".toList)]

/-- A destination that still holds the record `ni hao` / `hello` with a positive commit
count. -/
def tombstone_dest : Store :=
  [(dbTypeKey, "userdb".toList), (dbNameKey, "X".toList), (userIdKey, "B".toList),
   (tickKey, "1".toList), ("ni hao \thello".toList, "c=3 d=0 t=1".toList)]

/-- The number of records of a snapshot that the loop of `Restore` merges: those with
a merge key. -/
def mergeCount (temp : Store) : Nat :=
  (temp.filter (fun rec => (mergeKey rec.1).isSome)).length

/-- A destination at tick 1 that holds one record, stamped with tick 1. -/
def order_dest : Store :=
  [(dbTypeKey, "userdb".toList), (dbNameKey, "X".toList), (userIdKey, "B".toList),
   (tickKey, "1".toList), ("ni hao \thello".toList, "c=1 d=8 t=1".toList)]

/-- A snapshot at tick 1 with the record that `order_dest` holds. -/
def order_A : Store :=
  [(dbTypeKey, "userdb".toList), (dbNameKey, "X".toList), (userIdKey, "A".toList),
   (tickKey, "1".toList), ("ni hao \thello".toList, "c=1 d=0 t=1".toList)]

/-- A snapshot at tick 3 with another record. -/
def order_B : Store :=
  [(dbTypeKey, "userdb".toList), (dbNameKey, "X".toList), (userIdKey, "C".toList),
   (tickKey, "3".toList), ("zai jian \tbye".toList, "c=1 d=0 t=3".toList)]

/-- The laws of `double` that the idempotence of the merge rests on: `<` is the strict
part of a linear order, a rendered weight is one token, and writing a weight and
unpacking it again (`reparse`) is monotone and does not change how the weight is
rendered.  A rendering that rounds to a fixed number of digits fits, as does one that
is exact. -/
structure DoubleModel.Lawful {W : Type} [LinearOrder W] (M : DoubleModel W) : Prop where
  /-- The comparison is the order of `W`. -/
  lt_iff : ∀ a b : W, M.lt a b = true ↔ a < b
  /-- A rendered weight contains no space. -/
  fmt_no_space : M.FmtNoSpace
  /-- Rendering and unpacking is monotone. -/
  reparse_mono : ∀ a b : W, a ≤ b → M.reparse a ≤ M.reparse b
  /-- Rendering and unpacking does not change the rendering. -/
  fmt_reparse : ∀ d : W, M.fmt (M.reparse d) = M.fmt d

/-- The record `rec` is accounted for in the binding `v` written by the merge at tick
`tick_max`: `v` renders a commit count and a weight that are at least those of `rec`,
the weight of `rec` being decayed to the source tick and weights being compared as
they are read back. -/
def Covers {W : Type} [LinearOrder W] (M : DoubleModel W) (tick_right tick_max : Nat)
    (v : Option Str) (rec : Str × Str) : Prop :=
  ∃ (c : Int) (d : W), v = some (formatValue M c d tick_max) ∧ InIntRange c ∧
    (UnpackValues M rec.2).1 ≤ c ∧
    M.reparse (decayTo M tick_right (UnpackValues M rec.2).2.1 (UnpackValues M rec.2).2.2)
      ≤ M.reparse d

/-- Scenario C of the spec: the store before the import, without records. -/
def scenarioC_db : Store := [(dbTypeKey, "userdb".toList)]

/-- Scenario C of the spec: the text file, a deletion of `hello` / `ni hao` followed by
the same entry with 5 commits. -/
def scenarioC_text : Str := "hello\tni hao\t-1\nhello\tni hao\t5\n".toList

/-- Scenario B of the spec: a store with one deleted key (`c=-1`) and one live key
(`c=3`). -/
def scenarioB_db : Store :=
  [(dbTypeKey, "userdb".toList), (dbNameKey, "X".toList), (userIdKey, "A".toList),
   (tickKey, "2".toList), ("ni hao \thello".toList, "c=3 d=1 t=2".toList),
   ("zai jian \tbye".toList, "c=-1 d=1 t=2".toList)]

/-! ## Well-formed keys -/

/-- A syllable of a code: not empty and free of white space. -/
def IsSyllable (s : Str) : Prop := s ≠ [] ∧ ∀ c ∈ s, isSpace c = false

/-- A code in normal form: one or more syllables joined by single spaces. -/
def IsCode (code : Str) : Prop :=
  ∃ syllables : List Str, syllables ≠ [] ∧ (∀ s ∈ syllables, IsSyllable s) ∧
    code = join syllables [' ']

/-- A text that one line of the text file can carry: not empty, without tab and
without line feed. -/
def IsText (text : Str) : Prop := text ≠ [] ∧ '\t' ∉ text ∧ '\n' ∉ text

/-- A well-formed record key: a code in normal form, one space, a tab, a text. -/
def WellFormedKey (key : Str) : Prop :=
  ∃ code text, IsCode code ∧ IsText text ∧ key = code ++ [' ', '\t'] ++ text

/-- The binding of key `k` across one iteration of the loop of `Import`, when the
update succeeds. -/
def importAt {W : Type} (M : DoubleModel W) (k : Str) (v : Option Str) (line : Str) :
    Option Str :=
  match importEntry line with
  | none => v
  | some (key, commits) => if key = k then some (importValue M commits v) else v

/-- A store for the round trip: one record whose text begins with `#`. -/
def roundtrip_db : Store :=
  [(dbTypeKey, "userdb".toList), (dbNameKey, "X".toList), (userIdKey, "A".toList),
   (tickKey, "1".toList), ("ni hao \t#1".toList, "c=2 d=0 t=1".toList)]

/-- A store for the round trip: one record with a plain text. -/
def roundtrip_db1 : Store :=
  [(dbTypeKey, "userdb".toList), (dbNameKey, "X".toList), (userIdKey, "A".toList),
   (tickKey, "1".toList), ("ni hao \thello".toList, "c=2 d=0 t=1".toList)]

/-- A fresh store: metadata only. -/
def fresh_db : Store :=
  [(dbTypeKey, "userdb".toList), (dbNameKey, "Y".toList), (userIdKey, "B".toList),
   (tickKey, "1".toList)]

/-- The metadata of the snapshot of Scenario A. -/
def scenarioA_meta : Store :=
  [(dbTypeKey, "userdb".toList), (dbNameKey, "X".toList), (userIdKey, "A".toList),
   (tickKey, "3".toList)]

/-- Weights restricted to integers, for evaluating the code on weights below zero:
rendered in decimal, compared as numbers, and decayed by halving once per elapsed
tick. -/
def intModel : DoubleModel Int where
  zero := 0
  ofTick := fun t => (t : Int)
  lt := fun a b => decide (a < b)
  formula_d := fun d t da ta => d + da / 2 ^ (t - ta).toNat
  fmt := showInt
  parse := parseInt

/-- A snapshot of dictionary `X` at tick 3 whose only record has the weight -2 and is
stamped with tick 3. -/
def weight_src : Store :=
  [(dbTypeKey, "userdb".toList), (dbNameKey, "X".toList), (userIdKey, "A".toList),
   (tickKey, "3".toList), ("ni hao \thello".toList, "c=1 d=-2 t=3".toList)]

/-- The invariant of a record key as the spec words it: the key contains a tab, its
first tab is not at position 0, the character before that tab is a space and the
character before the space, if there is one, is not. -/
def wellSpaced (k : Str) : Bool :=
  match findChar '\t' k with
  | none => false
  | some pos =>
    pos ≠ 0 && k.get? (pos - 1) == some ' ' && (pos < 2 || k.get? (pos - 2) != some ' ')

/-- A key with two or more spaces right before its first tab. -/
def doubleSpaced (k : Str) : Bool :=
  match findChar '\t' k with
  | none => false
  | some pos => 2 ≤ pos && k.get? (pos - 1) == some ' ' && k.get? (pos - 2) == some ' '

/-- A store whose record keys are all well spaced: every key is a metadata key or
satisfies `wellSpaced`. -/
def RecordKeysOK (db : Store) : Prop :=
  ∀ k : Str, Fetch db k ≠ none → startsWith k metaPrefix = true ∨ wellSpaced k = true

/-- A snapshot of dictionary `X` whose record key has two spaces before its tab. -/
def spaced_src : Store :=
  [(dbTypeKey, "userdb".toList), (dbNameKey, "X".toList), (userIdKey, "A".toList),
   (tickKey, "2".toList), ("ni hao  \thello".toList, "c=1 d=0 t=2".toList)]

/-- The keys that the loop of `Restore` passes over (lines 132 to 136): a metadata key,
a key without tab, a key whose first tab is at position 0. -/
def Skipped (key : Str) : Prop :=
  startsWith key metaPrefix = true ∨ '\t' ∉ key ∨ findChar '\t' key = some 0

/-- A snapshot of dictionary `X` at tick 9 whose records are all passed over: a key
without tab and a key that starts with a tab. -/
def skipped_src : Store :=
  [(dbTypeKey, "userdb".toList), (dbNameKey, "X".toList), (userIdKey, "A".toList),
   (tickKey, "9".toList), ("ni hao".toList, "c=5 d=1 t=9".toList),
   ("\thello".toList, "c=5 d=1 t=9".toList)]

/-! ## Backup and Synchronize -/

/-- The calls of the storage engine in `Backup` (lines 87 to 94), as they act on the
content of the dictionary: `reopen` is the result of `db.Close()` followed by
`db.Open()`, `createMetadata` gives the result of `db.CreateMetadata()` and the content
afterwards, `backup` is the result of `db.Backup()`. -/
structure BackupEngine where
  reopen : Store → Bool
  createMetadata : Store → Bool × Store
  backup : Store → Bool

/-- The method `UserDictManager::Backup` (lines 83 to 95).  `user_id` is
`deployer_->user_id`; `OpenReadOnly` succeeds when `disk dict_name` is a content.
Returns the result and the dictionaries afterwards; the snapshot file that
`db.Backup()` writes is not part of the state. -/
def UserDictManager.Backup (E : BackupEngine) (user_id dict_name : Str) (disk : Disk) :
    Bool × Disk :=
  match disk dict_name with
  | none => (false, disk)
  | some db =>
    if GetUserId db ≠ user_id then
      if E.reopen db = false then (false, disk)
      else
        let r := E.createMetadata db
        if r.1 = false then (false, Function.update disk dict_name (some r.2))
        else (E.backup r.2, Function.update disk dict_name (some r.2))
    else (E.backup db, disk)

/-- An entry of the sync directory, as the loop of `Synchronize` sees it:
`isDirectory` is `fs::is_directory(it->path())`; `file name` is `none` when
`it->path() / name` does not exist, and otherwise what `temp.Restore` loads from that
file (`none` when the load fails); `tempOpens` tells whether `temp.Open()` succeeds
when `Restore` is called on a file of this entry. -/
structure PeerEntry where
  isDirectory : Bool
  file : Str → Option (Option Store)
  tempOpens : Bool

/-- The name `dict_name + ".userdb.kct.snapshot"` of line 313. -/
def snapshotFileName (dict_name : Str) : Str := dict_name ++ ".userdb.kct.snapshot".toList

/-- One iteration of the loop of `Synchronize` (lines 314 to 325) on the flag `success`
and the dictionaries. -/
def syncStep {W : Type} (M : DoubleModel W) (ok : Store → Str → Str → Bool)
    (user_id dict_name : Str) (st : Bool × Disk) (e : PeerEntry) : Bool × Disk :=
  if e.isDirectory = false then st
  else
    match e.file (snapshotFileName dict_name) with
    | none => st
    | some snapshot =>
      let r := UserDictManager.Restore M ok user_id e.tempOpens snapshot st.2
      if r.1 = false then (false, r.2) else (st.1, r.2)

/-- The method `UserDictManager::Synchronize` (lines 300 to 331).  `syncDir` is the
list of the entries of `deployer_->sync_dir`, `none` when the directory does not
exist; `canCreate` is the result of `fs::create_directories`, which leaves an empty
directory.  Returns the result and the dictionaries afterwards. -/
def UserDictManager.Synchronize {W : Type} (M : DoubleModel W)
    (ok : Store → Str → Str → Bool) (E : BackupEngine) (user_id dict_name : Str)
    (syncDir : Option (List PeerEntry)) (canCreate : Bool) (disk : Disk) : Bool × Disk :=
  if syncDir.isNone = true ∧ canCreate = false then (false, disk)
  else
    let entries := syncDir.getD []
    let st := entries.foldl (syncStep M ok user_id dict_name) (true, disk)
    let b := UserDictManager.Backup E user_id dict_name st.2
    if b.1 = false then (false, b.2) else (st.1, b.2)

/-- The snapshots of dictionary `dict_name` that the peers hold: for every entry that
is a directory and contains the snapshot file, in the order of the entries, what
`Restore` is given. -/
def peerSnapshots (dict_name : Str) (entries : List PeerEntry) :
    List (Bool × Option Store) :=
  entries.filterMap (fun e =>
    if e.isDirectory = true then
      (e.file (snapshotFileName dict_name)).map (fun s => (e.tempOpens, s))
    else none)

/-- The effect of `Restore` called on each snapshot of a list in turn, whatever the
earlier calls returned: the results of the calls and the dictionaries afterwards. -/
def restoreEach {W : Type} (M : DoubleModel W) (ok : Store → Str → Str → Bool)
    (user_id : Str) : List (Bool × Option Store) → Disk → List Bool × Disk
  | [], disk => ([], disk)
  | p :: rest, disk =>
    let r := UserDictManager.Restore M ok user_id p.1 p.2 disk
    let rs := restoreEach M ok user_id rest r.2
    (r.1 :: rs.1, rs.2)

/-- A storage engine whose calls in `Backup` all succeed; `CreateMetadata` sets the
user id. -/
def engineAll (user_id : Str) : BackupEngine :=
  ⟨fun _ => true, fun db => (true, db.put userIdKey user_id), fun _ => true⟩

/-- A sync directory with four entries: a plain file, a peer without snapshot of `X`, a
peer whose snapshot of `X` cannot be loaded, and a peer that holds Scenario A. -/
def sync_entries : List PeerEntry :=
  [⟨false, fun _ => some (some scenarioA_src), true⟩,
   ⟨true, fun _ => none, true⟩,
   ⟨true, fun n => if n = "X.userdb.kct.snapshot".toList then some none else none, true⟩,
   ⟨true,
    fun n => if n = "X.userdb.kct.snapshot".toList then some (some scenarioA_src) else none,
    true⟩]

/-! ## Normal forms of a code, in the words of the spec -/

/-- A string with every run of white space replaced by a single space. -/
def collapseWhitespace : Str → Str
  | [] => []
  | c :: cs =>
    if isSpace c = true then
      if cs.head?.map isSpace = some true then collapseWhitespace cs
      else ' ' :: collapseWhitespace cs
    else c :: collapseWhitespace cs

/-- A string with every run of the space character replaced by a single space; other
white space is kept. -/
def collapseSpaces : Str → Str
  | [] => []
  | c :: cs =>
    if c = ' ' ∧ cs.head? = some ' ' then collapseSpaces cs else c :: collapseSpaces cs

/-- A store whose record has a code part that is a single space, as `Import` creates it
for the line `hello<TAB> <TAB>1`. -/
def blank_db : Store :=
  [(dbTypeKey, "userdb".toList), (dbNameKey, "X".toList), (userIdKey, "A".toList),
   (tickKey, "1".toList), (" \thello".toList, "c=1 d=0 t=1".toList)]

/-! ## The import seen at one key -/

/-- The commit count that `Import` writes for a line with count `commits` on a record
with count `c` (lines 266 to 269). -/
def resolveCommits (commits c : Int) : Int :=
  if commits > 0 then max commits c else if commits < 0 then commits else c

/-- The commit counts of the lines that address key `k`, in the order of the lines. -/
def deltasAt (k : Str) (lines : List Str) : List Int :=
  lines.filterMap (fun line =>
    match importEntry line with
    | some (key, commits) => if key = k then some commits else none
    | none => none)

/-- A text file with three lines for one key, with a negative, a positive and a zero
count, and a line for a second key. -/
def repeat_text : Str :=
  "hello\tni hao\t-1\nhello\tni hao\t5\nbye\tzai jian\t2\nhello\tni  hao\t0\n".toList

/-! # Theorems -/

theorem toDigitsCore_append (f : Nat) : ∀ (n : Nat) (ds : List Char),
    Nat.toDigitsCore 10 f n ds = Nat.toDigitsCore 10 f n [] ++ ds := by
  induction f with
  | zero => intro n ds; simp [Nat.toDigitsCore]
  | succ f ih =>
    intro n ds
    simp only [Nat.toDigitsCore]
    by_cases h : n / 10 = 0
    · simp [h]
    · simp only [h, if_false]
      rw [ih (n / 10) (Nat.digitChar (n % 10) :: ds), ih (n / 10) [Nat.digitChar (n % 10)]]
      simp

theorem toDigitsCore_fuel (n : Nat) : ∀ (f g : Nat), n < f → n < g →
    Nat.toDigitsCore 10 f n [] = Nat.toDigitsCore 10 g n [] := by
  induction n using Nat.strong_induction_on with
  | _ n ih =>
    intro f g hf hg
    obtain ⟨f, rfl⟩ : ∃ f', f = f' + 1 := ⟨f - 1, by omega⟩
    obtain ⟨g, rfl⟩ : ∃ g', g = g' + 1 := ⟨g - 1, by omega⟩
    simp only [Nat.toDigitsCore]
    by_cases h : n / 10 = 0
    · simp [h]
    · simp only [h, if_false]
      rw [toDigitsCore_append f, toDigitsCore_append g]
      rw [ih (n / 10) (by omega) f g (by omega) (by omega)]

theorem showNat_lt (n : Nat) (h : n < 10) : showNat n = [Nat.digitChar n] := by
  have h0 : n / 10 = 0 := by omega
  have h1 : n % 10 = n := by omega
  simp [showNat, Nat.toDigits, Nat.toDigitsCore, h0, h1]

theorem showNat_ge (n : Nat) (h : 10 ≤ n) :
    showNat n = showNat (n / 10) ++ [Nat.digitChar (n % 10)] := by
  have h0 : n / 10 ≠ 0 := by omega
  have e : Nat.toDigitsCore 10 (n + 1) n [] =
      (if n / 10 = 0 then [Nat.digitChar (n % 10)]
       else Nat.toDigitsCore 10 n (n / 10) [Nat.digitChar (n % 10)]) := rfl
  unfold showNat Nat.toDigits
  rw [e, if_neg h0, toDigitsCore_append,
    toDigitsCore_fuel (n / 10) n (n / 10 + 1) (by omega) (by omega)]

theorem digitChar_val (k : Nat) (h : k < 10) :
    (Nat.digitChar k).toNat - 48 = k ∧ (Nat.digitChar k).isDigit = true := by
  interval_cases k <;> decide

theorem digitsVal_append (s : Str) (c : Char) :
    digitsVal (s ++ [c]) = 10 * digitsVal s + (c.toNat - 48) := by
  simp [digitsVal, List.foldl_append]

theorem digitsVal_showNat (n : Nat) : digitsVal (showNat n) = n := by
  induction n using Nat.strong_induction_on with
  | _ n ih =>
    by_cases h : n < 10
    · rw [showNat_lt n h]
      simp [digitsVal, (digitChar_val n h).1]
    · rw [showNat_ge n (by omega), digitsVal_append, ih (n / 10) (by omega),
        (digitChar_val (n % 10) (by omega)).1]
      omega

theorem showNat_isDigit (n : Nat) : ∀ c ∈ showNat n, c.isDigit = true := by
  induction n using Nat.strong_induction_on with
  | _ n ih =>
    by_cases h : n < 10
    · rw [showNat_lt n h]
      intro c hc
      simp at hc
      subst hc
      exact (digitChar_val n h).2
    · rw [showNat_ge n (by omega)]
      intro c hc
      rcases List.mem_append.mp hc with hc | hc
      · exact ih (n / 10) (by omega) c hc
      · simp at hc
        subst hc
        exact (digitChar_val (n % 10) (by omega)).2

theorem showNat_ne_nil (n : Nat) : showNat n ≠ [] := by
  by_cases h : n < 10
  · rw [showNat_lt n h]; simp
  · rw [showNat_ge n (by omega)]; simp

theorem parseDigits_showNat (n : Nat) : parseDigits (showNat n) = some n := by
  have h1 := showNat_ne_nil n
  have h2 : (showNat n).all Char.isDigit = true := by
    rw [List.all_eq_true]; exact showNat_isDigit n
  simp [parseDigits, h1, h2, digitsVal_showNat]

theorem parseTick_showNat (n : Nat) (h : n < 2 ^ 64) : parseTick (showNat n) = some n := by
  simp only [parseTick, parseDigits_showNat, h, if_true]

theorem parseInt_showInt (c : Int) (h : InIntRange c) : parseInt (showInt c) = some c := by
  obtain ⟨h1, h2⟩ := h
  cases c with
  | ofNat n =>
    have hn : n < 2 ^ 31 := by
      have : (n : Int) < 2 ^ 31 := h2
      exact_mod_cast this
    have hd := parseDigits_showNat n
    have hne := showNat_ne_nil n
    have hdig := showNat_isDigit n
    simp only [showInt]
    cases hs : showNat n with
    | nil => exact absurd hs hne
    | cons a r =>
      have ha : a.isDigit = true := hdig a (by rw [hs]; simp)
      have ha1 : a ≠ '-' := by rintro rfl; revert ha; decide
      have ha2 : a ≠ '+' := by rintro rfl; revert ha; decide
      rw [hs] at hd
      unfold parseInt
      split
      · rename_i heq; simp at heq; exact absurd heq.1 ha1
      · rename_i heq; simp at heq; exact absurd heq.1 ha2
      · simp only [hd, hn, if_true]
        rfl
  | negSucc n =>
    have hn : n + 1 ≤ 2 ^ 31 := by
      have : -(2 ^ 31 : Int) ≤ Int.negSucc n := h1
      rw [Int.negSucc_eq] at this
      omega
    simp only [showInt, parseInt, parseDigits_showNat, hn, if_true]
    rw [Int.negSucc_eq]
    push_cast
    rfl

theorem split_no_sep (sep : Char) (a : Str) (h : sep ∉ a) : split sep a = [a] := by
  induction a with
  | nil => rfl
  | cons c cs ih =>
    have h1 : c ≠ sep := fun e => h (by simp [e])
    have h2 : sep ∉ cs := fun e => h (by simp [e])
    simp [split, h1, ih h2, consHead]

theorem split_append_sep (sep : Char) (a b : Str) (h : sep ∉ a) :
    split sep (a ++ sep :: b) = a :: split sep b := by
  induction a with
  | nil => simp [split]
  | cons c cs ih =>
    have h1 : c ≠ sep := fun e => h (by simp [e])
    have h2 : sep ∉ cs := fun e => h (by simp [e])
    simp [split, h1, ih h2, consHead]

theorem showNat_no_space (n : Nat) : ' ' ∉ showNat n := by
  intro h
  have := showNat_isDigit n ' ' h
  revert this
  decide

theorem showInt_no_space (c : Int) : ' ' ∉ showInt c := by
  cases c with
  | ofNat n => exact showNat_no_space n
  | negSucc n =>
    intro h
    simp only [showInt, List.mem_cons] at h
    rcases h with h | h
    · revert h; decide
    · exact showNat_no_space _ h

/-- What a record value decodes to after it was rendered: the weight read back. -/
theorem formatValue_split {W : Type} (M : DoubleModel W) (hM : M.FmtNoSpace)
    (c : Int) (d : W) (t : Nat) :
    split ' ' (formatValue M c d t) =
      [['c', '='] ++ showInt c, ['d', '='] ++ M.fmt d, ['t', '='] ++ showNat t] := by
  have e : formatValue M c d t =
      (['c', '='] ++ showInt c) ++ ' ' ::
        ((['d', '='] ++ M.fmt d) ++ ' ' :: (['t', '='] ++ showNat t)) := by
    simp [formatValue]
  have h1 : ' ' ∉ (['c', '='] ++ showInt c) := by
    simp only [List.mem_append, List.mem_cons, not_or]
    exact ⟨by decide, showInt_no_space c⟩
  have h2 : ' ' ∉ (['d', '='] ++ M.fmt d) := by
    simp only [List.mem_append, List.mem_cons, not_or]
    exact ⟨by decide, hM d⟩
  have h3 : ' ' ∉ (['t', '='] ++ showNat t) := by
    simp only [List.mem_append, List.mem_cons, not_or]
    exact ⟨by decide, showNat_no_space t⟩
  rw [e, split_append_sep _ _ _ h1, split_append_sep _ _ _ h2, split_no_sep _ _ h3]

theorem assignField_c {W : Type} (M : DoubleModel W) (acc : Int × W × Nat) (c : Int)
    (hc : InIntRange c) :
    assignField M acc (['c', '='] ++ showInt c) = (c, acc.2.1, acc.2.2) := by
  have e : splitEq (['c', '='] ++ showInt c) = some (['c'], showInt c) := by
    simp [splitEq]
  unfold assignField
  rw [e]
  simp only [if_true]
  rw [parseInt_showInt c hc]

theorem assignField_d {W : Type} (M : DoubleModel W) (acc : Int × W × Nat) (d : W) :
    assignField M acc (['d', '='] ++ M.fmt d) =
      match M.parse (M.fmt d) with
      | some d1 => (acc.1, d1, acc.2.2)
      | none => acc := by
  have e : splitEq (['d', '='] ++ M.fmt d) = some (['d'], M.fmt d) := by
    simp [splitEq]
  unfold assignField
  rw [e]
  simp only [List.cons.injEq, and_true, if_true]
  cases M.parse (M.fmt d) <;> simp

theorem assignField_t {W : Type} (M : DoubleModel W) (acc : Int × W × Nat) (t : Nat)
    (ht : t < 2 ^ 64) :
    assignField M acc (['t', '='] ++ showNat t) = (acc.1, acc.2.1, t) := by
  have e : splitEq (['t', '='] ++ showNat t) = some (['t'], showNat t) := by
    simp [splitEq]
  unfold assignField
  rw [e]
  simp only [parseTick_showNat t ht]
  simp

theorem UnpackValues_formatValue {W : Type} (M : DoubleModel W) (hM : M.FmtNoSpace)
    (c : Int) (d : W) (t : Nat) (hc : InIntRange c) (ht : t < 2 ^ 64) :
    UnpackValues M (formatValue M c d t) = (c, M.reparse d, t) := by
  unfold UnpackValues
  rw [formatValue_split M hM]
  simp only [List.foldl]
  rw [assignField_c M _ c hc, assignField_d, assignField_t M _ t ht]
  unfold DoubleModel.reparse
  cases M.parse (M.fmt d) <;> rfl

theorem parseInt_range (s : Str) (c : Int) (h : parseInt s = some c) : InIntRange c := by
  unfold parseInt at h
  unfold InIntRange
  split at h
  · split at h
    · split at h
      · simp only [Option.some.injEq] at h; omega
      · simp at h
    · simp at h
  · split at h
    · split at h
      · simp only [Option.some.injEq] at h; omega
      · simp at h
    · simp at h
  · split at h
    · split at h
      · simp only [Option.some.injEq] at h; omega
      · simp at h
    · simp at h

theorem parseTick_range (s : Str) (t : Nat) (h : parseTick s = some t) : t < 2 ^ 64 := by
  unfold parseTick at h
  split at h
  · split at h
    · simp only [Option.some.injEq] at h; omega
    · simp at h
  · simp at h

theorem assignField_range {W : Type} (M : DoubleModel W) (acc : Int × W × Nat) (tok : Str)
    (h : InIntRange acc.1 ∧ acc.2.2 < 2 ^ 64) :
    InIntRange (assignField M acc tok).1 ∧ (assignField M acc tok).2.2 < 2 ^ 64 := by
  unfold assignField
  split
  · exact h
  · split
    · split
      · rename_i c hc
        exact ⟨parseInt_range _ _ hc, h.2⟩
      · exact h
    · split
      · split
        · exact h
        · exact h
      · split
        · split
          · rename_i t ht
            exact ⟨h.1, parseTick_range _ _ ht⟩
          · exact h
        · exact h

theorem foldl_assignField_range {W : Type} (M : DoubleModel W) (toks : List Str) :
    ∀ acc : Int × W × Nat, InIntRange acc.1 ∧ acc.2.2 < 2 ^ 64 →
      InIntRange (toks.foldl (assignField M) acc).1 ∧
        (toks.foldl (assignField M) acc).2.2 < 2 ^ 64 := by
  induction toks with
  | nil => intro acc h; exact h
  | cons tok rest ih =>
    intro acc h
    exact ih _ (assignField_range M acc tok h)

theorem UnpackValues_range {W : Type} (M : DoubleModel W) (value : Str) :
    InIntRange (UnpackValues M value).1 ∧ (UnpackValues M value).2.2 < 2 ^ 64 := by
  unfold UnpackValues
  apply foldl_assignField_range
  refine ⟨⟨by norm_num, by norm_num⟩, by norm_num⟩

theorem GetTickCount_range (db : Store) : GetTickCount db < 2 ^ 64 := by
  unfold GetTickCount
  split
  · split
    · rename_i n hn
      exact parseTick_range _ _ hn
    · norm_num
  · norm_num

theorem Fetch_put (db : Store) (k v k' : Str) :
    Fetch (db.put k v) k' = if k = k' then some v else Fetch db k' := by
  induction db with
  | nil => simp [Store.put, Fetch]
  | cons p rest ih =>
    obtain ⟨a, b⟩ := p
    by_cases h : a = k
    · subst h
      by_cases h2 : a = k' <;> simp [Store.put, Fetch, h2]
    · by_cases h2 : a = k'
      · subst h2
        simp [Store.put, Fetch, h, Ne.symm h]
      · simp [Store.put, Fetch, h, h2, ih]

theorem Fetch_Update (ok : Store → Str → Str → Bool) (db : Store) (k v k' : Str) :
    Fetch (Update ok db k v).2 k' =
      if ok db k v = true ∧ k = k' then some v else Fetch db k' := by
  unfold Update
  by_cases h : ok db k v = true
  · simp [h, Fetch_put]
  · simp [h]

theorem findChar_spec (c : Char) (s : Str) (i : Nat) (h : findChar c s = some i) :
    s.drop i = c :: s.drop (i + 1) ∧ c ∉ s.take i := by
  induction s generalizing i with
  | nil => simp [findChar] at h
  | cons x xs ih =>
    unfold findChar at h
    by_cases hx : x = c
    · simp only [hx, if_true, Option.some.injEq] at h
      subst h
      simp [hx]
    · simp only [hx, if_false, Option.map_eq_some'] at h
      obtain ⟨j, hj, rfl⟩ := h
      have := ih j hj
      simp only [List.drop_succ_cons, List.take_succ_cons, List.mem_cons, not_or]
      exact ⟨this.1, Ne.symm hx, this.2⟩

theorem findChar_none (c : Char) (s : Str) (h : findChar c s = none) : c ∉ s := by
  induction s with
  | nil => simp
  | cons x xs ih =>
    unfold findChar at h
    by_cases hx : x = c
    · simp [hx] at h
    · simp only [hx, if_false, Option.map_eq_none'] at h
      simp only [List.mem_cons, not_or]
      exact ⟨Ne.symm hx, ih h⟩

theorem mem_of_drop_eq_cons (c : Char) (s r : Str) (i : Nat) (h : s.drop i = c :: r) :
    c ∈ s := by
  have : c ∈ s.drop i := by rw [h]; simp
  exact List.mem_of_mem_drop this

theorem repairKey_tab (key : Str) (pos : Nat) (h : findChar '\t' key = some pos) :
    '\t' ∈ repairKey key pos := by
  have hd := (findChar_spec _ _ _ h).1
  unfold repairKey
  split
  · rw [hd]; simp
  · exact mem_of_drop_eq_cons _ _ _ _ hd

theorem mergeKey_tab (key k : Str) (h : mergeKey key = some k) : '\t' ∈ k := by
  unfold mergeKey at h
  split at h
  · simp at h
  · split at h
    · simp at h
    · rename_i pos hpos
      split at h
      · simp at h
      · simp only [Option.some.injEq] at h
        subst h
        exact repairKey_tab key pos hpos

theorem mergeKey_ne_tickKey (key k : Str) (h : mergeKey key = some k) : k ≠ tickKey := by
  intro e
  have := mergeKey_tab key k h
  rw [e] at this
  revert this
  decide

theorem mergeKey_ne_userIdKey (key k : Str) (h : mergeKey key = some k) : k ≠ userIdKey := by
  intro e
  have := mergeKey_tab key k h
  rw [e] at this
  revert this
  decide

theorem startsWith_metaPrefix (s : Str) :
    startsWith s metaPrefix = true ↔ ∃ r, s = '\x01' :: '/' :: r := by
  unfold startsWith metaPrefix
  match s with
  | [] => simp [List.isPrefixOf]
  | [a] => simp [List.isPrefixOf]
  | a :: b :: r =>
    simp only [List.isPrefixOf, Bool.and_true, Bool.and_eq_true, beq_iff_eq, List.cons.injEq]
    constructor
    · rintro ⟨h1, h2⟩; exact ⟨r, h1.symm, h2.symm, rfl⟩
    · rintro ⟨r1, h1, h2, _⟩; exact ⟨h1.symm, h2.symm⟩

theorem mergeKey_not_meta (key k : Str) (h : mergeKey key = some k) :
    startsWith k metaPrefix = false := by
  unfold mergeKey at h
  split at h
  · simp at h
  · rename_i hmeta
    split at h
    · simp at h
    · rename_i pos hpos
      split at h
      · simp at h
      · rename_i hpos0
        simp only [Option.some.injEq] at h
        subst h
        have hnot : ¬ ∃ r, key = '\x01' :: '/' :: r := by
          rw [← startsWith_metaPrefix]; exact hmeta
        cases hs : startsWith (repairKey key pos) metaPrefix
        · rfl
        exfalso
        rw [startsWith_metaPrefix] at hs
        obtain ⟨r, hr⟩ := hs
        unfold repairKey at hr
        split at hr
        · -- a space was inserted at `pos`
          have hd := (findChar_spec _ _ _ hpos).1
          match key, pos, hpos0 with
          | [], _, _ => simp at hd
          | [a], p + 1, _ => simp at hr
          | a :: b :: r2, 1, _ =>
            simp at hr
          | a :: b :: r2, p + 2, _ =>
            simp only [List.take_succ_cons, List.cons_append, List.cons.injEq] at hr
            exact hnot ⟨r2, by rw [hr.1, hr.2.1]⟩
        · exact hnot ⟨r, hr⟩

theorem Fetch_Update_of_ne (ok : Store → Str → Str → Bool) (db : Store) (k v k' : Str)
    (h : k ≠ k') : Fetch (Update ok db k v).2 k' = Fetch db k' := by
  rw [Fetch_Update]
  simp [h]

theorem Fetch_Update_isSome (ok : Store → Str → Str → Bool) (db : Store) (k v k' : Str)
    (h : Fetch db k' ≠ none) : Fetch (Update ok db k v).2 k' ≠ none := by
  rw [Fetch_Update]
  split
  · simp
  · exact h

theorem mergeStep_fst {W : Type} (M : DoubleModel W) (ok : Store → Str → Str → Bool)
    (tl tr tm : Nat) (st : Store × Nat) (rec : Str × Str) :
    (mergeStep M ok tl tr tm st rec).1 =
      match mergeKey rec.1 with
      | none => st.1
      | some key => (Update ok st.1 key (mergeValue M tl tr tm rec.2 (Fetch st.1 key))).2 := by
  unfold mergeStep
  cases mergeKey rec.1 with
  | none => rfl
  | some key =>
    simp only
    split <;> rfl

theorem mergeStep_frame {W : Type} (M : DoubleModel W) (ok : Store → Str → Str → Bool)
    (tl tr tm : Nat) (st : Store × Nat) (rec : Str × Str) (k : Str)
    (h : mergeKey rec.1 ≠ some k) :
    Fetch (mergeStep M ok tl tr tm st rec).1 k = Fetch st.1 k := by
  rw [mergeStep_fst]
  cases hk : mergeKey rec.1 with
  | none => rfl
  | some key =>
    have : key ≠ k := fun e => h (by rw [hk, e])
    exact Fetch_Update_of_ne ok _ _ _ _ this

theorem mergeStep_keeps {W : Type} (M : DoubleModel W) (ok : Store → Str → Str → Bool)
    (tl tr tm : Nat) (st : Store × Nat) (rec : Str × Str) (k : Str)
    (h : Fetch st.1 k ≠ none) :
    Fetch (mergeStep M ok tl tr tm st rec).1 k ≠ none := by
  rw [mergeStep_fst]
  cases hk : mergeKey rec.1 with
  | none => exact h
  | some key => exact Fetch_Update_isSome ok _ _ _ _ h

theorem mergeLoop_frame {W : Type} (M : DoubleModel W) (ok : Store → Str → Str → Bool)
    (tl tr tm : Nat) (temp : Store) (k : Str) :
    ∀ st : Store × Nat, (∀ rec ∈ temp, mergeKey rec.1 ≠ some k) →
      Fetch (temp.foldl (mergeStep M ok tl tr tm) st).1 k = Fetch st.1 k := by
  induction temp with
  | nil => intro st _; rfl
  | cons rec rest ih =>
    intro st h
    simp only [List.foldl_cons]
    rw [ih _ (fun r hr => h r (List.mem_cons_of_mem _ hr))]
    exact mergeStep_frame M ok tl tr tm st rec k (h rec (List.mem_cons_self _ _))

theorem mergeLoop_keeps {W : Type} (M : DoubleModel W) (ok : Store → Str → Str → Bool)
    (tl tr tm : Nat) (temp : Store) (k : Str) :
    ∀ st : Store × Nat, Fetch st.1 k ≠ none →
      Fetch (temp.foldl (mergeStep M ok tl tr tm) st).1 k ≠ none := by
  induction temp with
  | nil => intro st h; exact h
  | cons rec rest ih =>
    intro st h
    simp only [List.foldl_cons]
    exact ih _ (mergeStep_keeps M ok tl tr tm st rec k h)

/-- The destination after `merge`, at a key other than the two metadata keys it
writes: the binding left by the loop. -/
theorem merge_fetch_of_ne {W : Type} (M : DoubleModel W) (ok : Store → Str → Str → Bool)
    (user_id : Str) (temp dest : Store) (k : Str) (h1 : k ≠ tickKey) (h2 : k ≠ userIdKey) :
    Fetch (merge M ok user_id temp dest).1 k =
      Fetch (temp.foldl (mergeStep M ok (GetTickCount dest) (GetTickCount temp)
        (max (GetTickCount dest) (GetTickCount temp))) (dest, 0)).1 k := by
  unfold merge
  simp only
  split
  · simp only
    rw [Fetch_Update_of_ne ok _ _ _ _ (Ne.symm h2), Fetch_Update_of_ne ok _ _ _ _ (Ne.symm h1)]
  · rfl

theorem merge_keeps {W : Type} (M : DoubleModel W) (ok : Store → Str → Str → Bool)
    (user_id : Str) (temp dest : Store) (k : Str) (h : Fetch dest k ≠ none) :
    Fetch (merge M ok user_id temp dest).1 k ≠ none := by
  have hl := mergeLoop_keeps M ok (GetTickCount dest) (GetTickCount temp)
    (max (GetTickCount dest) (GetTickCount temp)) temp k (dest, 0) h
  unfold merge
  simp only
  split
  · simp only
    exact Fetch_Update_isSome ok _ _ _ _ (Fetch_Update_isSome ok _ _ _ _ hl)
  · exact hl

theorem merge_frame {W : Type} (M : DoubleModel W) (ok : Store → Str → Str → Bool)
    (user_id : Str) (temp dest : Store) (k : Str) (h1 : k ≠ tickKey) (h2 : k ≠ userIdKey)
    (h : ∀ rec ∈ temp, mergeKey rec.1 ≠ some k) :
    Fetch (merge M ok user_id temp dest).1 k = Fetch dest k := by
  rw [merge_fetch_of_ne M ok user_id temp dest k h1 h2]
  exact mergeLoop_frame M ok _ _ _ temp k (dest, 0) h

/-- What `Restore` leaves on disk under each name. -/
theorem Restore_disk {W : Type} (M : DoubleModel W) (ok : Store → Str → Str → Bool)
    (user_id : Str) (tempOpens : Bool) (snapshot : Option Store) (disk : Disk)
    (name : Str) (dest : Store) (hdest : disk name = some dest) :
    (UserDictManager.Restore M ok user_id tempOpens snapshot disk).2 name = some dest ∨
    ∃ temp, snapshot = some temp ∧ GetDbName temp = name ∧
      (UserDictManager.Restore M ok user_id tempOpens snapshot disk).2 name =
        some (merge M ok user_id temp dest).1 := by
  unfold UserDictManager.Restore
  split
  · exact Or.inl hdest
  · split
    · exact Or.inl hdest
    · rename_i temp
      split
      · exact Or.inl hdest
      · simp only
        split
        · exact Or.inl hdest
        · split
          · exact Or.inl hdest
          · rename_i dest1 hd1
            by_cases hn : name = GetDbName temp
            · right
              subst hn
              rw [hdest] at hd1
              simp only [Option.some.injEq] at hd1
              subst hd1
              exact ⟨temp, rfl, rfl, by simp⟩
            · left
              simp [Function.update, hn, hdest]

/-- C5. Union merge frame: whatever the storage engine does with the updates,
`UserDictManager::Restore` keeps the destination in place and removes none of its
keys; a key that is neither `tick` nor `user_id` and is not the merge key (the
space-repaired key) of a non-metadata source record with a tab at position 1 or later
keeps its binding, and so does every metadata key other than `tick` and `user_id`. -/
theorem Restore_union_frame {W : Type} (M : DoubleModel W) (ok : Store → Str → Str → Bool)
    (user_id : Str) (tempOpens : Bool) (snapshot : Option Store) (disk : Disk)
    (name : Str) (dest : Store) (hdest : disk name = some dest) :
    ∃ dest1, (UserDictManager.Restore M ok user_id tempOpens snapshot disk).2 name = some dest1 ∧
      (∀ k, Fetch dest k ≠ none → Fetch dest1 k ≠ none) ∧
      (∀ k, k ≠ tickKey → k ≠ userIdKey →
        (∀ temp, snapshot = some temp → ∀ rec ∈ temp, mergeKey rec.1 ≠ some k) →
        Fetch dest1 k = Fetch dest k) ∧
      (∀ k, startsWith k metaPrefix = true → k ≠ tickKey → k ≠ userIdKey →
        Fetch dest1 k = Fetch dest k) := by
  rcases Restore_disk M ok user_id tempOpens snapshot disk name dest hdest with h | h
  · exact ⟨dest, h, fun _ hk => hk, fun _ _ _ _ => rfl, fun _ _ _ _ => rfl⟩
  · obtain ⟨temp, hs, _, hr⟩ := h
    refine ⟨_, hr, ?_, ?_, ?_⟩
    · intro k hk
      exact merge_keeps M ok user_id temp dest k hk
    · intro k h1 h2 hk
      exact merge_frame M ok user_id temp dest k h1 h2 (hk temp hs)
    · intro k hm h1 h2
      apply merge_frame M ok user_id temp dest k h1 h2
      intro rec _ hrec
      have := mergeKey_not_meta rec.1 k hrec
      rw [hm] at this
      exact Bool.noConfusion this

theorem Restore_union_frame_witness :
    diskOf "X".toList scenarioA_dest "X".toList = some scenarioA_dest ∧
    ∃ dest1, (UserDictManager.Restore wholeModel okAll "B".toList true (some scenarioA_src)
        (diskOf "X".toList scenarioA_dest)).2 "X".toList = some dest1 ∧
      (∀ k, Fetch scenarioA_dest k ≠ none → Fetch dest1 k ≠ none) ∧
      (∀ k, k ≠ tickKey → k ≠ userIdKey →
        (∀ temp, some scenarioA_src = some temp → ∀ rec ∈ temp, mergeKey rec.1 ≠ some k) →
        Fetch dest1 k = Fetch scenarioA_dest k) ∧
      (∀ k, startsWith k metaPrefix = true → k ≠ tickKey → k ≠ userIdKey →
        Fetch dest1 k = Fetch scenarioA_dest k) :=
  ⟨by decide, Restore_union_frame wholeModel okAll "B".toList true (some scenarioA_src)
    (diskOf "X".toList scenarioA_dest) "X".toList scenarioA_dest (by decide)⟩

/-- C7. Restore failure and atomicity: `UserDictManager::Restore` returns false exactly
when the working store does not open, the snapshot does not load, the snapshot's
`db_type` is not `userdb`, its `db_name` is empty once the storage suffixes are
stripped, or the destination does not open (so it returns true in every other case,
whatever the number of merged entries); and when it returns false every dictionary is
left as it was. -/
theorem Restore_failure_atomic {W : Type} (M : DoubleModel W)
    (ok : Store → Str → Str → Bool) (user_id : Str) (tempOpens : Bool)
    (snapshot : Option Store) (disk : Disk) :
    ((UserDictManager.Restore M ok user_id tempOpens snapshot disk).1 = false ↔
      (tempOpens = false ∨ snapshot = none ∨
        ∃ temp, snapshot = some temp ∧
          (Fetch temp dbTypeKey ≠ some "userdb".toList ∨ GetDbName temp = [] ∨
            disk (GetDbName temp) = none))) ∧
    ((UserDictManager.Restore M ok user_id tempOpens snapshot disk).1 = false →
      (UserDictManager.Restore M ok user_id tempOpens snapshot disk).2 = disk) := by
  have hUser : ∀ temp : Store, IsUserDb temp = false ↔
      Fetch temp dbTypeKey ≠ some "userdb".toList := by
    intro temp
    unfold IsUserDb
    cases Fetch temp dbTypeKey with
    | none => simp
    | some t => simp
  unfold UserDictManager.Restore
  cases tempOpens with
  | false => simp
  | true =>
    cases snapshot with
    | none => simp
    | some temp =>
      by_cases h1 : IsUserDb temp = false
      · have h1b := (hUser temp).1 h1
        simp only [h1, if_true, Bool.true_eq_false, if_false, true_iff, implies_true, and_true]
        exact Or.inr (Or.inr ⟨temp, rfl, Or.inl h1b⟩)
      · have h1b : ¬ Fetch temp dbTypeKey ≠ some "userdb".toList :=
          fun h => h1 ((hUser temp).2 h)
        by_cases h2 : GetDbName temp = []
        · simp only [h1, h2, if_true, Bool.true_eq_false, if_false, true_iff, implies_true,
            and_true]
          exact Or.inr (Or.inr ⟨temp, rfl, Or.inr (Or.inl h2)⟩)
        · cases h3 : disk (GetDbName temp) with
          | none =>
            simp only [h1, h2, h3, Bool.true_eq_false, if_false, true_iff, implies_true,
              and_true]
            exact Or.inr (Or.inr ⟨temp, rfl, Or.inr (Or.inr h3)⟩)
          | some dest =>
            simp only [h1, h2, h3, Bool.true_eq_false, if_false, false_iff, false_implies,
              and_true]
            rintro (h | h | ⟨t, ht, h⟩)
            · exact h
            · exact Option.noConfusion h
            · simp only [Option.some.injEq] at ht
              subst ht
              rcases h with h | h | h
              · exact h1b h
              · exact h2 h
              · rw [h3] at h; exact Option.noConfusion h

theorem Restore_failure_atomic_witness :
    (UserDictManager.Restore wholeModel okAll "B".toList true (some [])
      (diskOf "X".toList scenarioA_dest)).2 = diskOf "X".toList scenarioA_dest :=
  (Restore_failure_atomic wholeModel okAll "B".toList true (some [])
    (diskOf "X".toList scenarioA_dest)).2 (by decide)

theorem tickKey_ne_userIdKey : tickKey ≠ userIdKey := by decide

theorem mergeLoop_tickKey {W : Type} (M : DoubleModel W) (ok : Store → Str → Str → Bool)
    (tl tr tm : Nat) (temp : Store) (st : Store × Nat) :
    Fetch (temp.foldl (mergeStep M ok tl tr tm) st).1 tickKey = Fetch st.1 tickKey :=
  mergeLoop_frame M ok tl tr tm temp tickKey st
    (fun rec _ h => mergeKey_ne_tickKey rec.1 tickKey h rfl)

theorem mergeLoop_userIdKey {W : Type} (M : DoubleModel W) (ok : Store → Str → Str → Bool)
    (tl tr tm : Nat) (temp : Store) (st : Store × Nat) :
    Fetch (temp.foldl (mergeStep M ok tl tr tm) st).1 userIdKey = Fetch st.1 userIdKey :=
  mergeLoop_frame M ok tl tr tm temp userIdKey st
    (fun rec _ h => mergeKey_ne_userIdKey rec.1 userIdKey h rfl)

theorem GetTickCount_congr (a b : Store) (h : Fetch a tickKey = Fetch b tickKey) :
    GetTickCount a = GetTickCount b := by
  unfold GetTickCount
  rw [h]

theorem GetTickCount_of_fetch (db : Store) (n : Nat) (hn : n < 2 ^ 64)
    (h : Fetch db tickKey = some (showNat n)) : GetTickCount db = n := by
  unfold GetTickCount
  rw [h]
  simp only [parseTick_showNat n hn]

theorem metaUpdate_spec (ok : Store → Str → Str → Bool) (L : Store) (n : Nat)
    (hn : n < 2 ^ 64) (user_id : Str) :
    ((∀ db v, ok db tickKey v = true) → (∀ db v, ok db userIdKey v = true) →
      Fetch (Update ok (Update ok L tickKey (showNat n)).2 userIdKey user_id).2 tickKey =
        some (showNat n) ∧
      GetTickCount (Update ok (Update ok L tickKey (showNat n)).2 userIdKey user_id).2 = n ∧
      Fetch (Update ok (Update ok L tickKey (showNat n)).2 userIdKey user_id).2 userIdKey =
        some user_id) ∧
    (GetTickCount (Update ok (Update ok L tickKey (showNat n)).2 userIdKey user_id).2 = n ∨
      GetTickCount (Update ok (Update ok L tickKey (showNat n)).2 userIdKey user_id).2 =
        GetTickCount L) := by
  have e0 : Fetch (Update ok (Update ok L tickKey (showNat n)).2 userIdKey user_id).2 tickKey =
      Fetch (Update ok L tickKey (showNat n)).2 tickKey :=
    Fetch_Update_of_ne ok _ userIdKey user_id tickKey (Ne.symm tickKey_ne_userIdKey)
  constructor
  · intro hok1 hok2
    have e1 : Fetch (Update ok (Update ok L tickKey (showNat n)).2 userIdKey user_id).2
        tickKey = some (showNat n) := by
      rw [e0, Fetch_Update]
      simp [hok1]
    refine ⟨e1, GetTickCount_of_fetch _ _ hn e1, ?_⟩
    rw [Fetch_Update]
    simp [hok2]
  · by_cases hok : ok L tickKey (showNat n) = true
    · left
      apply GetTickCount_of_fetch _ _ hn
      rw [e0, Fetch_Update]
      simp [hok]
    · right
      apply GetTickCount_congr
      rw [e0, Fetch_Update]
      simp [hok]

/-- The tick and the user id of the destination after `merge`. -/
theorem merge_metadata {W : Type} (M : DoubleModel W) (ok : Store → Str → Str → Bool)
    (user_id : Str) (temp dest : Store) :
    (0 < (merge M ok user_id temp dest).2 →
      (∀ db v, ok db tickKey v = true) → (∀ db v, ok db userIdKey v = true) →
      Fetch (merge M ok user_id temp dest).1 tickKey =
        some (showNat (max (GetTickCount dest) (GetTickCount temp))) ∧
      GetTickCount (merge M ok user_id temp dest).1 =
        max (GetTickCount dest) (GetTickCount temp) ∧
      Fetch (merge M ok user_id temp dest).1 userIdKey = some user_id) ∧
    ((merge M ok user_id temp dest).2 = 0 →
      Fetch (merge M ok user_id temp dest).1 tickKey = Fetch dest tickKey ∧
      Fetch (merge M ok user_id temp dest).1 userIdKey = Fetch dest userIdKey) ∧
    GetTickCount dest ≤ GetTickCount (merge M ok user_id temp dest).1 := by
  have hmax : max (GetTickCount dest) (GetTickCount temp) < 2 ^ 64 :=
    max_lt (GetTickCount_range dest) (GetTickCount_range temp)
  have ht := mergeLoop_tickKey M ok (GetTickCount dest) (GetTickCount temp)
    (max (GetTickCount dest) (GetTickCount temp)) temp (dest, 0)
  have hu := mergeLoop_userIdKey M ok (GetTickCount dest) (GetTickCount temp)
    (max (GetTickCount dest) (GetTickCount temp)) temp (dest, 0)
  have hL := GetTickCount_congr _ _ ht
  have hm := metaUpdate_spec ok (List.foldl (mergeStep M ok (GetTickCount dest)
    (GetTickCount temp) (max (GetTickCount dest) (GetTickCount temp))) (dest, 0) temp).1
    (max (GetTickCount dest) (GetTickCount temp)) hmax user_id
  unfold merge
  simp only
  split
  · rename_i hpos
    simp only
    refine ⟨fun _ hok1 hok2 => hm.1 hok1 hok2, fun h0 => absurd h0 (by omega), ?_⟩
    rcases hm.2 with h | h
    · rw [h]; exact le_max_left _ _
    · rw [h, hL]
  · rename_i hpos
    refine ⟨fun h0 => absurd h0 hpos, fun _ => ⟨ht, hu⟩, ?_⟩
    rw [hL]

/-- The result of `Restore` on a snapshot that validates, with a destination that
opens. -/
theorem Restore_success {W : Type} (M : DoubleModel W) (ok : Store → Str → Str → Bool)
    (user_id : Str) (temp dest : Store) (disk : Disk)
    (hvalid : IsUserDb temp = true) (hname : GetDbName temp ≠ [])
    (hdest : disk (GetDbName temp) = some dest) :
    UserDictManager.Restore M ok user_id true (some temp) disk =
      (true, Function.update disk (GetDbName temp) (some (merge M ok user_id temp dest).1)) := by
  unfold UserDictManager.Restore
  simp [hvalid, hname, hdest]

theorem mergeLoop_fetch {W : Type} (M : DoubleModel W) (ok : Store → Str → Str → Bool)
    (hok : ∀ db k v, ok db k v = true) (tl tr tm : Nat) (temp : Store) (k : Str) :
    ∀ st : Store × Nat,
      Fetch (temp.foldl (mergeStep M ok tl tr tm) st).1 k =
        temp.foldl (mergeAt M tl tr tm k) (Fetch st.1 k) := by
  induction temp with
  | nil => intro st; rfl
  | cons rec rest ih =>
    intro st
    simp only [List.foldl_cons]
    rw [ih]
    congr 1
    rw [mergeStep_fst]
    unfold mergeAt
    cases hk : mergeKey rec.1 with
    | none => simp
    | some key =>
      simp only [Fetch_Update, hok, true_and, Option.some.injEq]
      by_cases e : key = k
      · subst e; simp
      · simp [e]

theorem mergeValue_unpack {W : Type} (M : DoubleModel W) (hM : M.FmtNoSpace)
    (tl tr tm : Nat) (htm : tm < 2 ^ 64) (right : Str) (left : Option Str) :
    (UnpackValues M (mergeValue M tl tr tm right left)).1 =
        maxCommits (UnpackValues M right).1 (commitsOf M left) ∧
      (UnpackValues M (mergeValue M tl tr tm right left)).2.2 = tm := by
  have hr := (UnpackValues_range M right).1
  unfold mergeValue
  cases left with
  | none =>
    simp only [commitsOf, Option.map_none', maxCommits]
    rw [UnpackValues_formatValue M hM _ _ _ hr htm]
    exact ⟨rfl, rfl⟩
  | some left =>
    have hl := (UnpackValues_range M left).1
    have hmax : InIntRange (max (UnpackValues M right).1 (UnpackValues M left).1) := by
      unfold InIntRange at *
      constructor
      · exact le_trans hr.1 (le_max_left _ _)
      · exact max_lt hr.2 hl.2
    simp only [commitsOf, Option.map_some', maxCommits]
    rw [UnpackValues_formatValue M hM _ _ _ hmax htm]
    exact ⟨rfl, rfl⟩

theorem commitsOf_mergeAt {W : Type} (M : DoubleModel W) (hM : M.FmtNoSpace)
    (tl tr tm : Nat) (htm : tm < 2 ^ 64) (k : Str) (v : Option Str) (rec : Str × Str) :
    commitsOf M (mergeAt M tl tr tm k v rec) = mergeCommitsAt M k (commitsOf M v) rec := by
  unfold mergeAt mergeCommitsAt
  split
  · simp only [commitsOf, Option.map_some', Option.some.injEq]
    exact (mergeValue_unpack M hM tl tr tm htm rec.2 v).1
  · rfl

theorem commitsOf_foldl_mergeAt {W : Type} (M : DoubleModel W) (hM : M.FmtNoSpace)
    (tl tr tm : Nat) (htm : tm < 2 ^ 64) (k : Str) (temp : Store) :
    ∀ v : Option Str, commitsOf M (temp.foldl (mergeAt M tl tr tm k) v) =
      temp.foldl (mergeCommitsAt M k) (commitsOf M v) := by
  induction temp with
  | nil => intro v; rfl
  | cons rec rest ih =>
    intro v
    simp only [List.foldl_cons]
    rw [ih, commitsOf_mergeAt M hM tl tr tm htm]

/-- The commit count under a key other than `tick` and `user_id` after `merge`, when
every update succeeds. -/
theorem merge_commits {W : Type} (M : DoubleModel W) (hM : M.FmtNoSpace)
    (ok : Store → Str → Str → Bool) (hok : ∀ db k v, ok db k v = true)
    (user_id : Str) (temp dest : Store) (k : Str) (h1 : k ≠ tickKey) (h2 : k ≠ userIdKey) :
    commitsOf M (Fetch (merge M ok user_id temp dest).1 k) =
      temp.foldl (mergeCommitsAt M k) (commitsOf M (Fetch dest k)) := by
  have hmax : max (GetTickCount dest) (GetTickCount temp) < 2 ^ 64 :=
    max_lt (GetTickCount_range dest) (GetTickCount_range temp)
  rw [merge_fetch_of_ne M ok user_id temp dest k h1 h2, mergeLoop_fetch M ok hok,
    commitsOf_foldl_mergeAt M hM _ _ _ hmax]

theorem foldl_mergeAt_none {W : Type} (M : DoubleModel W) (tl tr tm : Nat) (k : Str)
    (temp : Store) (h : ∀ rec ∈ temp, mergeKey rec.1 ≠ some k) :
    ∀ v : Option Str, temp.foldl (mergeAt M tl tr tm k) v = v := by
  induction temp with
  | nil => intro v; rfl
  | cons rec rest ih =>
    intro v
    simp only [List.foldl_cons]
    rw [ih (fun r hr => h r (List.mem_cons_of_mem _ hr))]
    unfold mergeAt
    rw [if_neg (h rec (List.mem_cons_self _ _))]

theorem foldl_mergeAt_written {W : Type} (M : DoubleModel W) (tl tr tm : Nat) (k : Str)
    (temp : Store) :
    ∀ v : Option Str, (∃ rec ∈ temp, mergeKey rec.1 = some k) →
      ∃ right left, temp.foldl (mergeAt M tl tr tm k) v =
        some (mergeValue M tl tr tm right left) := by
  induction temp with
  | nil => intro v h; obtain ⟨rec, hr, _⟩ := h; simp at hr
  | cons rec rest ih =>
    intro v h
    simp only [List.foldl_cons]
    by_cases hrest : ∃ r ∈ rest, mergeKey r.1 = some k
    · exact ih _ hrest
    · have hnone : ∀ r ∈ rest, mergeKey r.1 ≠ some k := fun r hr e => hrest ⟨r, hr, e⟩
      rw [foldl_mergeAt_none M tl tr tm k rest hnone]
      obtain ⟨r0, hr0, hk0⟩ := h
      rcases List.mem_cons.mp hr0 with e | e
      · subst e
        exact ⟨r0.2, v, by unfold mergeAt; rw [if_pos hk0]⟩
      · exact absurd hk0 (hnone r0 e)

theorem maxCommits_idem (c : Int) (o : Option Int) :
    maxCommits c (some (maxCommits c o)) = maxCommits c o := by
  cases o with
  | none => simp [maxCommits]
  | some c0 => simp [maxCommits]

theorem foldl_mergeCommitsAt_none {W : Type} (M : DoubleModel W) (k : Str)
    (temp : Store) (h : ∀ rec ∈ temp, mergeKey rec.1 ≠ some k) :
    ∀ o : Option Int, temp.foldl (mergeCommitsAt M k) o = o := by
  induction temp with
  | nil => intro o; rfl
  | cons rec rest ih =>
    intro o
    simp only [List.foldl_cons]
    rw [ih (fun r hr => h r (List.mem_cons_of_mem _ hr))]
    unfold mergeCommitsAt
    rw [if_neg (h rec (List.mem_cons_self _ _))]

theorem foldl_mergeCommitsAt_single {W : Type} (M : DoubleModel W) (k : Str) (c : Int)
    (temp : Store)
    (hc : ∀ rec ∈ temp, mergeKey rec.1 = some k → (UnpackValues M rec.2).1 = c) :
    ∀ o : Option Int, (∃ rec ∈ temp, mergeKey rec.1 = some k) →
      temp.foldl (mergeCommitsAt M k) o = some (maxCommits c o) := by
  induction temp with
  | nil => intro o h; obtain ⟨rec, hr, _⟩ := h; simp at hr
  | cons rec rest ih =>
    intro o h
    have hc1 : ∀ r ∈ rest, mergeKey r.1 = some k → (UnpackValues M r.2).1 = c :=
      fun r hr => hc r (List.mem_cons_of_mem _ hr)
    simp only [List.foldl_cons]
    by_cases hrec : mergeKey rec.1 = some k
    · have hstep : mergeCommitsAt M k o rec = some (maxCommits c o) := by
        unfold mergeCommitsAt
        rw [if_pos hrec, hc rec (List.mem_cons_self _ _) hrec]
      rw [hstep]
      by_cases hrest : ∃ r ∈ rest, mergeKey r.1 = some k
      · rw [ih hc1 _ hrest, maxCommits_idem]
      · exact foldl_mergeCommitsAt_none M k rest (fun r hr e => hrest ⟨r, hr, e⟩) _
    · have hstep : mergeCommitsAt M k o rec = o := by
        unfold mergeCommitsAt
        rw [if_neg hrec]
      rw [hstep]
      apply ih hc1
      obtain ⟨r0, hr0, hk0⟩ := h
      rcases List.mem_cons.mp hr0 with e | e
      · subst e; exact absurd hk0 hrec
      · exact ⟨r0, e, hk0⟩

/-- Scenario A: what the record value of the snapshot unpacks to. -/
theorem scenarioA_unpack {W : Type} (M : DoubleModel W) :
    (UnpackValues M "c=5 d=2.0 t=2".toList).1 = 5 ∧
      (UnpackValues M "c=5 d=2.0 t=2".toList).2.2 = 2 := by
  have hs : split ' ' "c=5 d=2.0 t=2".toList =
      [['c', '='] ++ showInt 5, "d=2.0".toList, ['t', '='] ++ showNat 2] := by decide
  unfold UnpackValues
  rw [hs]
  simp only [List.foldl]
  rw [assignField_c M _ 5 (by unfold InIntRange; norm_num),
    assignField_t M _ 2 (by norm_num)]
  have e : splitEq "d=2.0".toList = some (['d'], "2.0".toList) := by decide
  unfold assignField
  rw [e]
  simp only [List.cons.injEq, and_true, if_true]
  cases M.parse "2.0".toList <;> simp

/-- Scenario A: the destination after the merge, for every model of `double` and every
storage engine that accepts the updates. -/
theorem scenarioA_merge {W : Type} (M : DoubleModel W) (ok : Store → Str → Str → Bool)
    (hok : ∀ db k v, ok db k v = true) (user_id : Str) :
    merge M ok user_id scenarioA_src scenarioA_dest =
      ([(dbTypeKey, "userdb".toList), (dbNameKey, "X".toList), (userIdKey, user_id),
        (tickKey, "3".toList),
        ("ni hao \tyou are".toList, mergeValue M 1 3 3 "c=5 d=2.0 t=2".toList none)], 1) := by
  have t1 : GetTickCount scenarioA_dest = 1 := by decide
  have t2 : GetTickCount scenarioA_src = 3 := by decide
  have k1 : mergeKey dbTypeKey = none := by decide
  have k2 : mergeKey dbNameKey = none := by decide
  have k3 : mergeKey userIdKey = none := by decide
  have k4 : mergeKey tickKey = none := by decide
  have k5 : mergeKey "ni hao\tyou are".toList = some "ni hao \tyou are".toList := by decide
  have f5 : Fetch scenarioA_dest "ni hao \tyou are".toList = none := by decide
  have s3 : showNat 3 = "3".toList := by decide
  unfold merge
  simp only [t1, t2]
  have hloop : scenarioA_src.foldl (mergeStep M ok 1 3 (max 1 3)) (scenarioA_dest, 0) =
      (scenarioA_dest ++
        [("ni hao \tyou are".toList, mergeValue M 1 3 3 "c=5 d=2.0 t=2".toList none)], 1) := by
    simp only [scenarioA_src, List.foldl, mergeStep, k1, k2, k3, k4, k5, f5, Update, hok,
      if_true]
    rfl
  rw [hloop]
  simp only [Update, hok, if_true, s3]
  rfl

theorem wholeModel_fmtNoSpace : wholeModel.FmtNoSpace := fun d => showNat_no_space d

theorem okAll_ok : ∀ (db : Store) (k v : Str), okAll db k v = true := fun _ _ _ => rfl

theorem mergeKey_of_tab (key : Str) (pos : Nat) (hmeta : startsWith key metaPrefix = false)
    (htab : findChar '\t' key = some pos) (hpos : 1 ≤ pos) :
    mergeKey key = some (repairKey key pos) := by
  unfold mergeKey
  rw [hmeta, htab]
  have : pos ≠ 0 := by omega
  simp [this]

/-- C4. Merged commits and tick: let every update succeed and let the snapshot validate
and the destination open.  For a source record whose key is not a metadata key and has
its first tab at position 1 or later, and which is the only source record with that
space-repaired key, after `UserDictManager::Restore` the destination record under the
repaired key unpacks to commits `max c_r c_l` when the destination held that key with
commits `c_l` and to `c_r` when it did not, and to tick
`max (destination tick) (source tick)`.  Scenario A: the snapshot at tick 3 with one
record `c=5 t=2`, merged into the record-free destination at tick 1, leaves tick 3 and
exactly one record, under the repaired key, with `c=5` and `t=3`. -/
theorem Restore_merged_commits_tick {W : Type} (M : DoubleModel W) (hM : M.FmtNoSpace)
    (ok : Store → Str → Str → Bool) (hok : ∀ db k v, ok db k v = true) (user_id : Str)
    (temp dest : Store) (disk : Disk) (key right : Str) (pos : Nat)
    (hvalid : IsUserDb temp = true) (hname : GetDbName temp ≠ [])
    (hdest : disk (GetDbName temp) = some dest)
    (hmem : (key, right) ∈ temp) (hmeta : startsWith key metaPrefix = false)
    (htab : findChar '\t' key = some pos) (hpos : 1 ≤ pos)
    (huniq : ∀ rec ∈ temp, mergeKey rec.1 = some (repairKey key pos) → rec = (key, right)) :
    (∃ dest1 v,
      (UserDictManager.Restore M ok user_id true (some temp) disk).2 (GetDbName temp) =
        some dest1 ∧
      Fetch dest1 (repairKey key pos) = some v ∧
      (UnpackValues M v).1 =
        (match Fetch dest (repairKey key pos) with
          | some left => max (UnpackValues M right).1 (UnpackValues M left).1
          | none => (UnpackValues M right).1) ∧
      (UnpackValues M v).2.2 = max (GetTickCount dest) (GetTickCount temp)) ∧
    (∃ v,
      (UserDictManager.Restore M ok user_id true (some scenarioA_src)
        (diskOf "X".toList scenarioA_dest)).2 "X".toList =
        some [(dbTypeKey, "userdb".toList), (dbNameKey, "X".toList), (userIdKey, user_id),
          (tickKey, "3".toList), ("ni hao \tyou are".toList, v)] ∧
      (UnpackValues M v).1 = 5 ∧ (UnpackValues M v).2.2 = 3) := by
  constructor
  · have hk := mergeKey_of_tab key pos hmeta htab hpos
    have h1 := mergeKey_ne_tickKey key _ hk
    have h2 := mergeKey_ne_userIdKey key _ hk
    have hmax : max (GetTickCount dest) (GetTickCount temp) < 2 ^ 64 :=
      max_lt (GetTickCount_range dest) (GetTickCount_range temp)
    have hex : ∃ rec ∈ temp, mergeKey rec.1 = some (repairKey key pos) :=
      ⟨(key, right), hmem, hk⟩
    -- the binding of the repaired key after the merge
    have hf := merge_fetch_of_ne M ok user_id temp dest _ h1 h2
    rw [mergeLoop_fetch M ok hok] at hf
    obtain ⟨r, l, hw⟩ := foldl_mergeAt_written M (GetTickCount dest) (GetTickCount temp)
      (max (GetTickCount dest) (GetTickCount temp)) (repairKey key pos) temp
      (Fetch dest (repairKey key pos)) hex
    simp only at hf
    rw [hw] at hf
    -- its commit count
    have hc := merge_commits M hM ok hok user_id temp dest _ h1 h2
    rw [foldl_mergeCommitsAt_single M _ (UnpackValues M right).1 temp
      (fun rec hr hrk => by rw [huniq rec hr hrk]) _ hex, hf] at hc
    simp only [commitsOf, Option.map_some', Option.some.injEq] at hc
    refine ⟨(merge M ok user_id temp dest).1, _, ?_, hf, ?_, ?_⟩
    · rw [Restore_success M ok user_id temp dest disk hvalid hname hdest]
      simp
    · rw [hc]
      cases Fetch dest (repairKey key pos) <;> rfl
    · exact (mergeValue_unpack M hM _ _ _ hmax r l).2
  · refine ⟨mergeValue M 1 3 3 "c=5 d=2.0 t=2".toList none, ?_, ?_⟩
    · have hn : GetDbName scenarioA_src = "X".toList := by decide
      have := Restore_success M ok user_id scenarioA_src scenarioA_dest
        (diskOf "X".toList scenarioA_dest) (by decide) (by decide) (by decide)
      rw [this, hn, scenarioA_merge M ok hok user_id]
      simp
    · have hu := mergeValue_unpack M hM 1 3 3 (by norm_num) "c=5 d=2.0 t=2".toList none
      rw [hu.1, hu.2, (scenarioA_unpack M).1]
      exact ⟨rfl, rfl⟩

theorem Restore_merged_commits_tick_witness :
    (∃ dest1 v,
      (UserDictManager.Restore wholeModel okAll "B".toList true (some scenarioA_src)
        (diskOf "X".toList scenarioA_dest)).2 (GetDbName scenarioA_src) = some dest1 ∧
      Fetch dest1 (repairKey "ni hao\tyou are".toList 6) = some v ∧
      (UnpackValues wholeModel v).1 =
        (match Fetch scenarioA_dest (repairKey "ni hao\tyou are".toList 6) with
          | some left => max (UnpackValues wholeModel "c=5 d=2.0 t=2".toList).1
              (UnpackValues wholeModel left).1
          | none => (UnpackValues wholeModel "c=5 d=2.0 t=2".toList).1) ∧
      (UnpackValues wholeModel v).2.2 =
        max (GetTickCount scenarioA_dest) (GetTickCount scenarioA_src)) ∧
    (∃ v,
      (UserDictManager.Restore wholeModel okAll "B".toList true (some scenarioA_src)
        (diskOf "X".toList scenarioA_dest)).2 "X".toList =
        some [(dbTypeKey, "userdb".toList), (dbNameKey, "X".toList),
          (userIdKey, "B".toList), (tickKey, "3".toList),
          ("ni hao \tyou are".toList, v)] ∧
      (UnpackValues wholeModel v).1 = 5 ∧ (UnpackValues wholeModel v).2.2 = 3) :=
  Restore_merged_commits_tick wholeModel wholeModel_fmtNoSpace okAll okAll_ok "B".toList
    scenarioA_src scenarioA_dest (diskOf "X".toList scenarioA_dest)
    "ni hao\tyou are".toList "c=5 d=2.0 t=2".toList 6
    (by decide) (by decide) (by decide) (by decide) (by decide) (by decide) (by decide)
    (by decide)

theorem foldl_mergeCommitsAt_ge {W : Type} (M : DoubleModel W) (k : Str) (temp : Store) :
    ∀ c0 : Int, ∃ c, temp.foldl (mergeCommitsAt M k) (some c0) = some c ∧ c0 ≤ c := by
  induction temp with
  | nil => intro c0; exact ⟨c0, rfl, le_refl _⟩
  | cons rec rest ih =>
    intro c0
    simp only [List.foldl_cons]
    unfold mergeCommitsAt
    split
    · obtain ⟨c, hc, hle⟩ := ih (maxCommits (UnpackValues M rec.2).1 (some c0))
      exact ⟨c, hc, le_trans (le_max_right _ _) hle⟩
    · exact ih c0

/-- C3, as the code has it: let every update succeed and let the snapshot validate and
the destination open.  If the source holds a record with a negative commit count whose
merge key is `k`, and the destination holds `k` with a positive commit count `c_l`,
then after `UserDictManager::Restore` the destination's record for `k` has a commit
count of at least `c_l`, hence positive, and exactly `c_l` when that source record is
the only one merged under `k`: the merge keeps the larger count and the tombstone does
not replace the positive record. -/
theorem Restore_tombstone_max {W : Type} (M : DoubleModel W) (hM : M.FmtNoSpace)
    (ok : Store → Str → Str → Bool) (hok : ∀ db k v, ok db k v = true) (user_id : Str)
    (temp dest : Store) (disk : Disk) (key right k left : Str)
    (hvalid : IsUserDb temp = true) (hname : GetDbName temp ≠ [])
    (hdest : disk (GetDbName temp) = some dest)
    (hmem : (key, right) ∈ temp) (hkey : mergeKey key = some k)
    (hneg : (UnpackValues M right).1 < 0)
    (hleft : Fetch dest k = some left) (hpos : 0 < (UnpackValues M left).1) :
    ∃ dest1 v,
      (UserDictManager.Restore M ok user_id true (some temp) disk).2 (GetDbName temp) =
        some dest1 ∧
      Fetch dest1 k = some v ∧
      (UnpackValues M left).1 ≤ (UnpackValues M v).1 ∧ 0 < (UnpackValues M v).1 ∧
      ((∀ rec ∈ temp, mergeKey rec.1 = some k → rec = (key, right)) →
        (UnpackValues M v).1 = (UnpackValues M left).1) := by
  have h1 := mergeKey_ne_tickKey key _ hkey
  have h2 := mergeKey_ne_userIdKey key _ hkey
  have hc := merge_commits M hM ok hok user_id temp dest k h1 h2
  rw [hleft] at hc
  have hc1 := hc
  obtain ⟨c, hfold, hle⟩ := foldl_mergeCommitsAt_ge M k temp (UnpackValues M left).1
  simp only [commitsOf, Option.map_some'] at hc
  rw [hfold] at hc
  cases hv : Fetch (merge M ok user_id temp dest).1 k with
  | none => rw [hv] at hc; simp at hc
  | some v =>
    rw [hv] at hc
    simp only [Option.map_some', Option.some.injEq] at hc
    refine ⟨(merge M ok user_id temp dest).1, v, ?_, hv, ?_, ?_, ?_⟩
    · rw [Restore_success M ok user_id temp dest disk hvalid hname hdest]
      simp
    · rw [hc]; exact hle
    · rw [hc]; exact lt_of_lt_of_le hpos hle
    · intro huniq
      rw [foldl_mergeCommitsAt_single M k (UnpackValues M right).1 temp
        (fun rec hr hrk => by rw [huniq rec hr hrk]) _ ⟨(key, right), hmem, hkey⟩, hv] at hc1
      simp only [commitsOf, Option.map_some', Option.some.injEq, maxCommits] at hc1
      rw [hc1]
      exact max_eq_right (le_of_lt (lt_trans hneg hpos))

theorem Restore_tombstone_max_witness :
    ∃ dest1 v,
      (UserDictManager.Restore wholeModel okAll "B".toList true (some tombstone_src)
        (diskOf "X".toList tombstone_dest)).2 (GetDbName tombstone_src) = some dest1 ∧
      Fetch dest1 "ni hao \thello".toList = some v ∧
      (UnpackValues wholeModel "c=3 d=0 t=1".toList).1 ≤ (UnpackValues wholeModel v).1 ∧
      0 < (UnpackValues wholeModel v).1 ∧
      ((∀ rec ∈ tombstone_src, mergeKey rec.1 = some "ni hao \thello".toList →
          rec = ("ni hao \thello".toList, "c=-1 d=0 t=2".toList)) →
        (UnpackValues wholeModel v).1 = (UnpackValues wholeModel "c=3 d=0 t=1".toList).1) :=
  Restore_tombstone_max wholeModel wholeModel_fmtNoSpace okAll okAll_ok "B".toList
    tombstone_src tombstone_dest (diskOf "X".toList tombstone_dest)
    "ni hao \thello".toList "c=-1 d=0 t=2".toList "ni hao \thello".toList
    "c=3 d=0 t=1".toList
    (by decide) (by decide) (by decide) (by decide) (by decide) (by decide) (by decide)
    (by decide)

/-- C3 fails on the code: the source holds `ni hao` / `hello` with commit count -1, the
destination holds it with commit count 3, and after `UserDictManager::Restore` the
destination's record still has commit count 3, which is not negative. -/
theorem Restore_tombstone_counterexample :
    Fetch tombstone_src "ni hao \thello".toList = some "c=-1 d=0 t=2".toList ∧
    (UnpackValues wholeModel "c=-1 d=0 t=2".toList).1 < 0 ∧
    Fetch tombstone_dest "ni hao \thello".toList = some "c=3 d=0 t=1".toList ∧
    0 < (UnpackValues wholeModel "c=3 d=0 t=1".toList).1 ∧
    (UserDictManager.Restore wholeModel okAll "B".toList true (some tombstone_src)
        (diskOf "X".toList tombstone_dest)) =
      (true, Function.update (diskOf "X".toList tombstone_dest) "X".toList
        (some [(dbTypeKey, "userdb".toList), (dbNameKey, "X".toList),
          (userIdKey, "B".toList), (tickKey, "2".toList),
          ("ni hao \thello".toList, "c=3 d=0 t=2".toList)])) ∧
    ¬ (UnpackValues wholeModel "c=3 d=0 t=2".toList).1 < 0 := by
  refine ⟨by decide, by decide, by decide, by decide, ?_, by decide⟩
  rw [Restore_success wholeModel okAll "B".toList tombstone_src tombstone_dest
    (diskOf "X".toList tombstone_dest) (by decide) (by decide) (by decide)]
  have hn : GetDbName tombstone_src = "X".toList := by decide
  have hm : (merge wholeModel okAll "B".toList tombstone_src tombstone_dest).1 =
      [(dbTypeKey, "userdb".toList), (dbNameKey, "X".toList),
        (userIdKey, "B".toList), (tickKey, "2".toList),
        ("ni hao \thello".toList, "c=3 d=0 t=2".toList)] := by decide
  rw [hn, hm]

theorem mergeLoop_count {W : Type} (M : DoubleModel W) (ok : Store → Str → Str → Bool)
    (hok : ∀ db k v, ok db k v = true) (tl tr tm : Nat) (temp : Store) :
    ∀ st : Store × Nat,
      (temp.foldl (mergeStep M ok tl tr tm) st).2 = st.2 + mergeCount temp := by
  induction temp with
  | nil => intro st; rfl
  | cons rec rest ih =>
    intro st
    simp only [List.foldl_cons]
    rw [ih]
    unfold mergeCount
    simp only [List.filter_cons]
    unfold mergeStep
    cases hk : mergeKey rec.1 with
    | none => simp
    | some key =>
      simp only [Update, hok, if_true, Option.isSome_some, List.length_cons]
      omega

theorem merge_count {W : Type} (M : DoubleModel W) (ok : Store → Str → Str → Bool)
    (hok : ∀ db k v, ok db k v = true) (user_id : Str) (temp dest : Store) :
    (merge M ok user_id temp dest).2 = mergeCount temp := by
  have h := mergeLoop_count M ok hok (GetTickCount dest) (GetTickCount temp)
    (max (GetTickCount dest) (GetTickCount temp)) temp (dest, 0)
  unfold merge
  simp only
  split
  · simp only [h]; simp
  · rw [h]; simp

/-- The tick and the user id after `merge` when every update succeeds. -/
theorem merge_metadata_ok {W : Type} (M : DoubleModel W) (ok : Store → Str → Str → Bool)
    (hok : ∀ db k v, ok db k v = true) (user_id : Str) (temp dest : Store) :
    Fetch (merge M ok user_id temp dest).1 tickKey =
        (if 0 < mergeCount temp then
          some (showNat (max (GetTickCount dest) (GetTickCount temp)))
        else Fetch dest tickKey) ∧
      GetTickCount (merge M ok user_id temp dest).1 =
        (if 0 < mergeCount temp then max (GetTickCount dest) (GetTickCount temp)
        else GetTickCount dest) ∧
      Fetch (merge M ok user_id temp dest).1 userIdKey =
        (if 0 < mergeCount temp then some user_id else Fetch dest userIdKey) := by
  obtain ⟨h1, h2, _⟩ := merge_metadata M ok user_id temp dest
  rw [merge_count M ok hok] at h1 h2
  by_cases hc : 0 < mergeCount temp
  · obtain ⟨a, b, c⟩ := h1 hc (fun db v => hok db _ v) (fun db v => hok db _ v)
    simp only [hc, if_true]
    exact ⟨a, b, c⟩
  · obtain ⟨a, c⟩ := h2 (by omega)
    simp only [hc, if_false]
    exact ⟨a, GetTickCount_congr _ _ a, c⟩

theorem maxCommits_comm (a b : Int) (o : Option Int) :
    maxCommits b (some (maxCommits a o)) = maxCommits a (some (maxCommits b o)) := by
  cases o with
  | none => simp [maxCommits, max_comm]
  | some c0 => simp [maxCommits, max_left_comm]

theorem mergeCommitsAt_comm {W : Type} (M : DoubleModel W) (k : Str) (o : Option Int)
    (x y : Str × Str) :
    mergeCommitsAt M k (mergeCommitsAt M k o x) y =
      mergeCommitsAt M k (mergeCommitsAt M k o y) x := by
  unfold mergeCommitsAt
  by_cases hx : mergeKey x.1 = some k <;> by_cases hy : mergeKey y.1 = some k
  · simp only [hx, hy, if_true, maxCommits_comm]
  · simp only [hx, hy, if_true, if_false]
  · simp only [hx, hy, if_true, if_false]
  · simp only [hx, hy, if_false]

theorem foldl_mergeCommitsAt_comm {W : Type} (M : DoubleModel W) (k : Str) (A B : Store)
    (o : Option Int) :
    B.foldl (mergeCommitsAt M k) (A.foldl (mergeCommitsAt M k) o) =
      A.foldl (mergeCommitsAt M k) (B.foldl (mergeCommitsAt M k) o) := by
  rw [← List.foldl_append, ← List.foldl_append]
  exact List.Perm.foldl_eq' List.perm_append_comm
    (fun x _ y _ z => mergeCommitsAt_comm M k z x y) o

/-- C2 fails on the code: merging snapshot `order_A` and then `order_B` leaves the
record `ni hao` / `hello` as `c=1 d=8 t=1`, while merging `order_B` and then `order_A`
leaves it as `c=1 d=2 t=3`: the record is stamped with the tick of the merge that wrote
it, whatever the decay is, and its weight is decayed to the destination tick of that
moment (here by the halving of `wholeModel`). -/
theorem Restore_order_counterexample :
    ((UserDictManager.Restore wholeModel okAll "B".toList true (some order_B)
        (UserDictManager.Restore wholeModel okAll "B".toList true (some order_A)
          (diskOf "X".toList order_dest)).2).2 "X".toList).bind
      (fun db => Fetch db "ni hao \thello".toList) = some "c=1 d=8 t=1".toList ∧
    ((UserDictManager.Restore wholeModel okAll "B".toList true (some order_A)
        (UserDictManager.Restore wholeModel okAll "B".toList true (some order_B)
          (diskOf "X".toList order_dest)).2).2 "X".toList).bind
      (fun db => Fetch db "ni hao \thello".toList) = some "c=1 d=2 t=3".toList ∧
    (UnpackValues wholeModel "c=1 d=8 t=1".toList).2.2 ≠
      (UnpackValues wholeModel "c=1 d=2 t=3".toList).2.2 ∧
    (UnpackValues wholeModel "c=1 d=8 t=1".toList).2.1 ≠
      (UnpackValues wholeModel "c=1 d=2 t=3".toList).2.1 := by
  decide

/-- Two calls of `Restore` in a row, on snapshots of the same dictionary. -/
theorem Restore_twice {W : Type} (M : DoubleModel W) (ok : Store → Str → Str → Bool)
    (user_id : Str) (A B dest : Store) (disk : Disk)
    (hA : IsUserDb A = true) (hB : IsUserDb B = true) (hname : GetDbName A ≠ [])
    (hAB : GetDbName B = GetDbName A) (hdest : disk (GetDbName A) = some dest) :
    (UserDictManager.Restore M ok user_id true (some B)
      (UserDictManager.Restore M ok user_id true (some A) disk).2).2 (GetDbName A) =
      some (merge M ok user_id B (merge M ok user_id A dest).1).1 := by
  rw [Restore_success M ok user_id A dest disk hA hname hdest]
  have hd : (Function.update disk (GetDbName A) (some (merge M ok user_id A dest).1))
      (GetDbName B) = some (merge M ok user_id A dest).1 := by
    rw [hAB]; simp
  rw [Restore_success M ok user_id B _ _ hB (by rw [hAB]; exact hname) hd, hAB]
  simp

/-- The metadata after two merges does not depend on their order. -/
theorem merge_merge_metadata {W : Type} (M : DoubleModel W) (ok : Store → Str → Str → Bool)
    (hok : ∀ db k v, ok db k v = true) (user_id : Str) (A B dest : Store) :
    Fetch (merge M ok user_id B (merge M ok user_id A dest).1).1 tickKey =
        Fetch (merge M ok user_id A (merge M ok user_id B dest).1).1 tickKey ∧
      Fetch (merge M ok user_id B (merge M ok user_id A dest).1).1 userIdKey =
        Fetch (merge M ok user_id A (merge M ok user_id B dest).1).1 userIdKey := by
  obtain ⟨a1, a2, a3⟩ := merge_metadata_ok M ok hok user_id A dest
  obtain ⟨b1, b2, b3⟩ := merge_metadata_ok M ok hok user_id B dest
  obtain ⟨c1, _, c3⟩ := merge_metadata_ok M ok hok user_id B (merge M ok user_id A dest).1
  obtain ⟨d1, _, d3⟩ := merge_metadata_ok M ok hok user_id A (merge M ok user_id B dest).1
  rw [c1, c3, d1, d3, a1, a2, a3, b1, b2, b3]
  by_cases hA : 0 < mergeCount A <;> by_cases hB : 0 < mergeCount B
  · simp only [hA, hB, if_true, and_true]
    rw [max_assoc, max_comm (GetTickCount A), ← max_assoc]
  · simp only [hA, hB, if_true, if_false, and_true]
  · simp only [hA, hB, if_true, if_false, and_true]
  · simp only [hA, hB, if_false, and_true]

/-- C2, as the code has it: let every update succeed, let the two snapshots validate
and name the same dictionary, and let the destination open.  Then
`UserDictManager::Restore` of `A` followed by `B` and of `B` followed by `A` leave the
destination with the same keys, the same commit count under every key, and the same
`tick` and `user_id`.  (The weight and the tick of a record are not part of the
statement: they depend on the order.) -/
theorem Restore_order_commits {W : Type} (M : DoubleModel W) (hM : M.FmtNoSpace)
    (ok : Store → Str → Str → Bool) (hok : ∀ db k v, ok db k v = true) (user_id : Str)
    (A B dest : Store) (disk : Disk)
    (hA : IsUserDb A = true) (hB : IsUserDb B = true) (hname : GetDbName A ≠ [])
    (hAB : GetDbName B = GetDbName A) (hdest : disk (GetDbName A) = some dest) :
    ∃ d1 d2,
      (UserDictManager.Restore M ok user_id true (some B)
        (UserDictManager.Restore M ok user_id true (some A) disk).2).2 (GetDbName A) =
        some d1 ∧
      (UserDictManager.Restore M ok user_id true (some A)
        (UserDictManager.Restore M ok user_id true (some B) disk).2).2 (GetDbName A) =
        some d2 ∧
      (∀ k, commitsOf M (Fetch d1 k) = commitsOf M (Fetch d2 k)) ∧
      (∀ k, Fetch d1 k = none ↔ Fetch d2 k = none) ∧
      Fetch d1 tickKey = Fetch d2 tickKey ∧ Fetch d1 userIdKey = Fetch d2 userIdKey := by
  have hmeta := merge_merge_metadata M ok hok user_id A B dest
  have hcom : ∀ k, commitsOf M (Fetch (merge M ok user_id B (merge M ok user_id A dest).1).1 k) =
      commitsOf M (Fetch (merge M ok user_id A (merge M ok user_id B dest).1).1 k) := by
    intro k
    by_cases h1 : k = tickKey
    · rw [h1, hmeta.1]
    by_cases h2 : k = userIdKey
    · rw [h2, hmeta.2]
    rw [merge_commits M hM ok hok user_id B _ k h1 h2,
      merge_commits M hM ok hok user_id A dest k h1 h2,
      merge_commits M hM ok hok user_id A _ k h1 h2,
      merge_commits M hM ok hok user_id B dest k h1 h2]
    exact foldl_mergeCommitsAt_comm M k A B _
  refine ⟨_, _, Restore_twice M ok user_id A B dest disk hA hB hname hAB hdest, ?_, hcom, ?_,
    hmeta.1, hmeta.2⟩
  · have hdestB : disk (GetDbName B) = some dest := by rw [hAB]; exact hdest
    have := Restore_twice M ok user_id B A dest disk hB hA (by rw [hAB]; exact hname)
      hAB.symm hdestB
    rw [hAB] at this
    exact this
  · intro k
    have := hcom k
    unfold commitsOf at this
    cases h1 : Fetch (merge M ok user_id B (merge M ok user_id A dest).1).1 k <;>
      cases h2 : Fetch (merge M ok user_id A (merge M ok user_id B dest).1).1 k <;>
      simp [h1, h2] at this ⊢

theorem Restore_order_commits_witness :
    ∃ d1 d2,
      (UserDictManager.Restore wholeModel okAll "B".toList true (some order_B)
        (UserDictManager.Restore wholeModel okAll "B".toList true (some order_A)
          (diskOf "X".toList order_dest)).2).2 (GetDbName order_A) = some d1 ∧
      (UserDictManager.Restore wholeModel okAll "B".toList true (some order_A)
        (UserDictManager.Restore wholeModel okAll "B".toList true (some order_B)
          (diskOf "X".toList order_dest)).2).2 (GetDbName order_A) = some d2 ∧
      (∀ k, commitsOf wholeModel (Fetch d1 k) = commitsOf wholeModel (Fetch d2 k)) ∧
      (∀ k, Fetch d1 k = none ↔ Fetch d2 k = none) ∧
      Fetch d1 tickKey = Fetch d2 tickKey ∧ Fetch d1 userIdKey = Fetch d2 userIdKey :=
  Restore_order_commits wholeModel wholeModel_fmtNoSpace okAll okAll_ok "B".toList
    order_A order_B order_dest (diskOf "X".toList order_dest)
    (by decide) (by decide) (by decide) (by decide) (by decide)

theorem Lawful_max {W : Type} [LinearOrder W] (M : DoubleModel W) (hM : M.Lawful)
    (a b : W) : M.max a b = max a b := by
  unfold DoubleModel.max
  by_cases h : a < b
  · rw [if_pos ((hM.lt_iff a b).2 h), max_eq_right (le_of_lt h)]
  · rw [if_neg (fun e => h ((hM.lt_iff a b).1 e)), max_eq_left (not_lt.mp h)]

theorem reparse_congr {W : Type} (M : DoubleModel W) (a b : W) (h : M.fmt a = M.fmt b) :
    M.reparse a = M.reparse b := by
  unfold DoubleModel.reparse
  rw [h]

theorem Lawful_reparse_idem {W : Type} [LinearOrder W] (M : DoubleModel W) (hM : M.Lawful)
    (d : W) : M.reparse (M.reparse d) = M.reparse d :=
  reparse_congr M _ _ (hM.fmt_reparse d)

theorem Lawful_fmt_congr {W : Type} [LinearOrder W] (M : DoubleModel W) (hM : M.Lawful)
    (a b : W) (h : M.reparse a = M.reparse b) : M.fmt a = M.fmt b := by
  rw [← hM.fmt_reparse a, ← hM.fmt_reparse b, h]

/-- A weight that is dominated, as read back, by the stored weight does not change the
rendering of the stored weight when the two are merged. -/
theorem Lawful_fmt_max {W : Type} [LinearOrder W] (M : DoubleModel W) (hM : M.Lawful)
    (x w : W) (h : M.reparse x ≤ M.reparse w) :
    M.fmt (M.max x (M.reparse w)) = M.fmt w := by
  rw [Lawful_max M hM]
  by_cases hx : x ≤ M.reparse w
  · rw [max_eq_right hx, hM.fmt_reparse]
  · have hx1 : M.reparse w ≤ x := le_of_lt (not_le.mp hx)
    rw [max_eq_left hx1]
    apply Lawful_fmt_congr M hM
    have := hM.reparse_mono _ _ hx1
    rw [Lawful_reparse_idem M hM] at this
    exact le_antisymm h this

theorem formatValue_congr {W : Type} (M : DoubleModel W) (c : Int) (a b : W) (t : Nat)
    (h : M.fmt a = M.fmt b) : formatValue M c a t = formatValue M c b t := by
  unfold formatValue
  rw [h]

theorem decayTo_self {W : Type} (M : DoubleModel W) (tick t : Nat) (d : W) (h : tick ≤ t) :
    decayTo M tick d t = d := by
  unfold decayTo
  rw [if_neg (by omega)]

theorem mergeValue_some {W : Type} (M : DoubleModel W) (tl tr tm : Nat) (right left : Str) :
    mergeValue M tl tr tm right (some left) =
      formatValue M (max (UnpackValues M right).1 (UnpackValues M left).1)
        (M.max (decayTo M tr (UnpackValues M right).2.1 (UnpackValues M right).2.2)
          (decayTo M tl (UnpackValues M left).2.1 (UnpackValues M left).2.2)) tm := rfl

theorem mergeValue_none {W : Type} (M : DoubleModel W) (tl tr tm : Nat) (right : Str) :
    mergeValue M tl tr tm right none =
      formatValue M (UnpackValues M right).1
        (decayTo M tr (UnpackValues M right).2.1 (UnpackValues M right).2.2) tm := rfl

theorem InIntRange_max (a b : Int) (ha : InIntRange a) (hb : InIntRange b) :
    InIntRange (max a b) := by
  unfold InIntRange at *
  exact ⟨le_trans ha.1 (le_max_left _ _), max_lt ha.2 hb.2⟩

theorem Covers_own {W : Type} [LinearOrder W] (M : DoubleModel W) (hM : M.Lawful)
    (tl tr tm : Nat) (k : Str) (v : Option Str) (r : Str × Str)
    (hr : mergeKey r.1 = some k) : Covers M tr tm (mergeAt M tl tr tm k v r) r := by
  unfold mergeAt
  rw [if_pos hr]
  cases v with
  | none =>
    exact ⟨_, _, by rw [mergeValue_none], (UnpackValues_range M r.2).1, le_refl _, le_refl _⟩
  | some left =>
    refine ⟨_, _, by rw [mergeValue_some], ?_, le_max_left _ _, ?_⟩
    · exact InIntRange_max _ _ (UnpackValues_range M r.2).1 (UnpackValues_range M left).1
    · rw [Lawful_max M hM]
      exact hM.reparse_mono _ _ (le_max_left _ _)

theorem Covers_step {W : Type} [LinearOrder W] (M : DoubleModel W) (hM : M.Lawful)
    (tl tr tm : Nat) (htl : tl ≤ tm) (htm : tm < 2 ^ 64) (k : Str) (v : Option Str)
    (r x : Str × Str) (h : Covers M tr tm v x) :
    Covers M tr tm (mergeAt M tl tr tm k v r) x := by
  unfold mergeAt
  split
  · obtain ⟨c, d, hv, hc, hcx, hdx⟩ := h
    subst hv
    rw [mergeValue_some, UnpackValues_formatValue M hM.fmt_no_space c d tm hc htm]
    simp only
    rw [decayTo_self M tl tm _ htl, Lawful_max M hM]
    refine ⟨_, _, rfl, InIntRange_max _ _ (UnpackValues_range M r.2).1 hc,
      le_trans hcx (le_max_right _ _), le_trans hdx ?_⟩
    have := hM.reparse_mono _ _ (le_max_right
      (decayTo M tr (UnpackValues M r.2).2.1 (UnpackValues M r.2).2.2) (M.reparse d))
    rw [Lawful_reparse_idem M hM] at this
    exact this
  · exact h

theorem Covers_foldl {W : Type} [LinearOrder W] (M : DoubleModel W) (hM : M.Lawful)
    (tl tr tm : Nat) (htl : tl ≤ tm) (htm : tm < 2 ^ 64) (k : Str) (x : Str × Str)
    (S : Store) :
    ∀ v : Option Str, Covers M tr tm v x →
      Covers M tr tm (S.foldl (mergeAt M tl tr tm k) v) x := by
  induction S with
  | nil => intro v h; exact h
  | cons r rest ih =>
    intro v h
    simp only [List.foldl_cons]
    exact ih _ (Covers_step M hM tl tr tm htl htm k v r x h)

/-- After the loop, the binding of `k` accounts for every source record merged under
`k`. -/
theorem Covers_all {W : Type} [LinearOrder W] (M : DoubleModel W) (hM : M.Lawful)
    (tl tr tm : Nat) (htl : tl ≤ tm) (htm : tm < 2 ^ 64) (k : Str) (S : Store) :
    ∀ v : Option Str, ∀ x ∈ S, mergeKey x.1 = some k →
      Covers M tr tm (S.foldl (mergeAt M tl tr tm k) v) x := by
  induction S with
  | nil => intro v x hx; simp at hx
  | cons r rest ih =>
    intro v x hx hk
    simp only [List.foldl_cons]
    rcases List.mem_cons.mp hx with e | e
    · subst e
      exact Covers_foldl M hM tl tr tm htl htm k x rest _ (Covers_own M hM tl tr tm k v x hk)
    · exact ih _ x e hk

/-- Merging a record again into a binding that accounts for it leaves the binding as
it is. -/
theorem mergeAt_fix {W : Type} [LinearOrder W] (M : DoubleModel W) (hM : M.Lawful)
    (tr tm : Nat) (htm : tm < 2 ^ 64) (k : Str) (v : Option Str) (r : Str × Str)
    (h : mergeKey r.1 = some k → Covers M tr tm v r) :
    mergeAt M tm tr tm k v r = v := by
  unfold mergeAt
  split
  · rename_i hr
    obtain ⟨c, d, hv, hc, hcr, hdr⟩ := h hr
    subst hv
    rw [mergeValue_some, UnpackValues_formatValue M hM.fmt_no_space c d tm hc htm]
    simp only
    rw [decayTo_self M tm tm _ (le_refl _), max_eq_right hcr]
    exact congrArg some (formatValue_congr M c _ _ tm (Lawful_fmt_max M hM _ d hdr))
  · rfl

theorem foldl_mergeAt_fix {W : Type} [LinearOrder W] (M : DoubleModel W) (hM : M.Lawful)
    (tr tm : Nat) (htm : tm < 2 ^ 64) (k : Str) (v : Option Str) (S : Store)
    (h : ∀ x ∈ S, mergeKey x.1 = some k → Covers M tr tm v x) :
    S.foldl (mergeAt M tm tr tm k) v = v := by
  induction S with
  | nil => rfl
  | cons r rest ih =>
    simp only [List.foldl_cons]
    rw [mergeAt_fix M hM tr tm htm k v r (h r (List.mem_cons_self _ _))]
    exact ih (fun x hx => h x (List.mem_cons_of_mem _ hx))

theorem mergeCount_zero (S : Store) (h : ¬ 0 < mergeCount S) :
    ∀ rec ∈ S, ∀ k : Str, mergeKey rec.1 ≠ some k := by
  intro rec hrec k hk
  apply h
  unfold mergeCount
  apply List.length_pos_of_mem (a := rec)
  rw [List.mem_filter]
  exact ⟨hrec, by rw [hk]; rfl⟩

/-- Merging the same snapshot a second time changes no binding. -/
theorem merge_idempotent {W : Type} [LinearOrder W] (M : DoubleModel W) (hM : M.Lawful)
    (ok : Store → Str → Str → Bool) (hok : ∀ db k v, ok db k v = true) (user_id : Str)
    (S D : Store) (k : Str) :
    Fetch (merge M ok user_id S (merge M ok user_id S D).1).1 k =
      Fetch (merge M ok user_id S D).1 k := by
  have htm : max (GetTickCount D) (GetTickCount S) < 2 ^ 64 :=
    max_lt (GetTickCount_range D) (GetTickCount_range S)
  obtain ⟨a1, a2, a3⟩ := merge_metadata_ok M ok hok user_id S D
  obtain ⟨b1, _, b3⟩ := merge_metadata_ok M ok hok user_id S (merge M ok user_id S D).1
  by_cases hcnt : 0 < mergeCount S
  · simp only [hcnt, if_true] at a1 a2 a3 b1 b3
    have htick : max (GetTickCount (merge M ok user_id S D).1) (GetTickCount S) =
        max (GetTickCount D) (GetTickCount S) := by
      rw [a2, max_assoc, max_self]
    by_cases h1 : k = tickKey
    · rw [h1, b1, a1, htick]
    by_cases h2 : k = userIdKey
    · rw [h2, b3, a3]
    rw [merge_fetch_of_ne M ok user_id S _ k h1 h2, mergeLoop_fetch M ok hok, htick, a2]
    simp only
    rw [merge_fetch_of_ne M ok user_id S D k h1 h2, mergeLoop_fetch M ok hok]
    simp only
    exact foldl_mergeAt_fix M hM _ _ htm k _ S
      (Covers_all M hM _ _ _ (le_max_left _ _) htm k S _)
  · simp only [hcnt, if_false] at a1 a3 b1 b3
    by_cases h1 : k = tickKey
    · rw [h1, b1]
    by_cases h2 : k = userIdKey
    · rw [h2, b3]
    exact merge_frame M ok user_id S _ k h1 h2 (fun rec hr => mergeCount_zero S hcnt rec hr k)

theorem wholeModel_reparse (d : Nat) : wholeModel.reparse d = d := by
  unfold DoubleModel.reparse
  have h : wholeModel.parse (wholeModel.fmt d) = some d := parseDigits_showNat d
  rw [h]

theorem wholeModel_lawful : wholeModel.Lawful where
  lt_iff := fun a b => by
    show decide (a < b) = true ↔ a < b
    exact decide_eq_true_iff
  fmt_no_space := wholeModel_fmtNoSpace
  reparse_mono := fun a b h => by rw [wholeModel_reparse, wholeModel_reparse]; exact h
  fmt_reparse := fun d => by rw [wholeModel_reparse]

/-- C1. Idempotence of merge: let every update succeed, let the snapshot validate
(`db_type` is `userdb`, `db_name` is not empty) and let the destination open.  Then
running `UserDictManager::Restore` on the snapshot twice leaves the destination with
the same binding under every key, records and metadata alike, as running it once.
The weights are those of a lawful model of `double` (`DoubleModel.Lawful`). -/
theorem Restore_idempotent {W : Type} [LinearOrder W] (M : DoubleModel W) (hM : M.Lawful)
    (ok : Store → Str → Str → Bool) (hok : ∀ db k v, ok db k v = true) (user_id : Str)
    (S D : Store) (disk : Disk)
    (hvalid : IsUserDb S = true) (hname : GetDbName S ≠ [])
    (hdest : disk (GetDbName S) = some D) :
    ∃ d1 d2,
      (UserDictManager.Restore M ok user_id true (some S) disk).2 (GetDbName S) = some d1 ∧
      (UserDictManager.Restore M ok user_id true (some S)
        (UserDictManager.Restore M ok user_id true (some S) disk).2).2 (GetDbName S) =
        some d2 ∧
      ∀ k, Fetch d2 k = Fetch d1 k := by
  refine ⟨(merge M ok user_id S D).1, (merge M ok user_id S (merge M ok user_id S D).1).1,
    ?_, ?_, ?_⟩
  · rw [Restore_success M ok user_id S D disk hvalid hname hdest]
    simp
  · exact Restore_twice M ok user_id S S D disk hvalid hvalid hname rfl hdest
  · exact merge_idempotent M hM ok hok user_id S D

theorem Restore_idempotent_witness :
    ∃ d1 d2,
      (UserDictManager.Restore wholeModel okAll "B".toList true (some order_A)
        (diskOf "X".toList order_dest)).2 (GetDbName order_A) = some d1 ∧
      (UserDictManager.Restore wholeModel okAll "B".toList true (some order_A)
        (UserDictManager.Restore wholeModel okAll "B".toList true (some order_A)
          (diskOf "X".toList order_dest)).2).2 (GetDbName order_A) = some d2 ∧
      ∀ k, Fetch d2 k = Fetch d1 k :=
  Restore_idempotent wholeModel wholeModel_lawful okAll okAll_ok "B".toList
    order_A order_dest (diskOf "X".toList order_dest) (by decide) (by decide) (by decide)

theorem InIntRange_zero : InIntRange 0 := by
  unfold InIntRange; norm_num

/-- The commit count of an accepted line is within the range of `int`, and it is zero
when the third field is absent, blank or not a number. -/
theorem importEntry_delta (line key : Str) (delta : Int)
    (h : importEntry line = some (key, delta)) :
    InIntRange delta ∧
      ((match (split '\t' line).get? 2 with
        | none => True
        | some row2 => row2 = [] ∨ parseInt row2 = none) → delta = 0) := by
  unfold importEntry at h
  split at h
  · simp at h
  · split at h
    · rename_i row0 row1 rest hsplit
      split at h
      · simp at h
      · simp only [Option.some.injEq, Prod.mk.injEq] at h
        obtain ⟨_, hd⟩ := h
        rw [hsplit]
        cases rest with
        | nil =>
          simp only at hd
          subst hd
          exact ⟨InIntRange_zero, fun _ => rfl⟩
        | cons row2 more =>
          simp only at hd
          simp only [List.get?_cons_succ, List.get?_cons_zero]
          by_cases h2 : row2 = []
          · simp only [h2, ne_eq, not_true_eq_false, if_false] at hd
            subst hd
            exact ⟨InIntRange_zero, fun _ => rfl⟩
          · simp only [ne_eq, h2, not_false_eq_true, if_true] at hd
            cases hp : parseInt row2 with
            | none =>
              rw [hp] at hd
              simp only at hd
              subst hd
              exact ⟨InIntRange_zero, fun _ => rfl⟩
            | some n =>
              rw [hp] at hd
              simp only at hd
              subst hd
              refine ⟨parseInt_range _ _ hp, ?_⟩
              rintro (e | e)
              · exact absurd e h2
              · exact Option.noConfusion e
    · simp at h

theorem importValue_eq {W : Type} (M : DoubleModel W) (commits : Int) (value : Option Str) :
    importValue M commits value =
      formatValue M
        (if commits > 0 then max commits (readRecord M value).1
        else if commits < 0 then commits
        else (readRecord M value).1)
        (readRecord M value).2.1 (readRecord M value).2.2 := rfl

theorem importStep_fst {W : Type} (M : DoubleModel W) (ok : Store → Str → Str → Bool)
    (st : Store × Nat) (line : Str) :
    (importStep M ok st line).1 =
      match importEntry line with
      | none => st.1
      | some (key, commits) =>
        (Update ok st.1 key (importValue M commits (Fetch st.1 key))).2 := by
  unfold importStep
  cases importEntry line with
  | none => rfl
  | some e =>
    obtain ⟨key, commits⟩ := e
    simp only
    split <;> rfl

theorem importStep_fetch {W : Type} (M : DoubleModel W) (ok : Store → Str → Str → Bool)
    (st : Store × Nat) (line key : Str) (delta : Int)
    (hline : importEntry line = some (key, delta))
    (hok : ∀ v, ok st.1 key v = true) :
    Fetch (importStep M ok st line).1 key = some (importValue M delta (Fetch st.1 key)) ∧
      (importStep M ok st line).2 = st.2 + 1 := by
  constructor
  · rw [importStep_fst, hline]
    simp only
    rw [Fetch_Update]
    simp [hok]
  · unfold importStep
    rw [hline]
    simp only [Update, hok, if_true]

theorem readRecord_range {W : Type} (M : DoubleModel W) (value : Option Str) :
    InIntRange (readRecord M value).1 ∧ (readRecord M value).2.2 < 2 ^ 64 := by
  cases value with
  | none => exact ⟨InIntRange_zero, by norm_num [readRecord]⟩
  | some v => exact UnpackValues_range M v

/-- The result of `Import` on a store that opens and validates. -/
theorem Import_ok {W : Type} (M : DoubleModel W) (ok : Store → Str → Str → Bool)
    (db : Store) (text : Str) (h : IsUserDb db = true) :
    UserDictManager.Import M ok (some db) text =
      ((((getlines text).foldl (importStep M ok) (db, 0)).2 : Int),
        some ((getlines text).foldl (importStep M ok) (db, 0)).1) := by
  unfold UserDictManager.Import
  simp only [h, Bool.true_eq_false, if_false]

/-- Scenario C: the two lines of the file and the entries they state. -/
theorem scenarioC_lines :
    getlines scenarioC_text = ["hello\tni hao\t-1".toList, "hello\tni hao\t5".toList] ∧
    importEntry "hello\tni hao\t-1".toList = some ("ni hao \thello".toList, -1) ∧
    importEntry "hello\tni hao\t5".toList = some ("ni hao \thello".toList, 5) := by
  decide

/-- C9. Import commit resolution: for a line that `UserDictManager::Import` accepts,
with commit count `delta`, addressing a key whose record unpacks to `(c0, d0, t0)`
(zeros when the key is absent), and an update that the storage engine accepts, the
loop writes under that key the record with commits `max delta c0` if `delta > 0`,
`delta` if `delta < 0` and `c0` if `delta = 0`, with the weight `d0` and the tick `t0`,
and counts the line.  A negative line sets the commits to its value whatever the
record was; a third field that is absent, blank or not a number gives `delta = 0`; and
(Scenario C) importing `-1` and then `5` for one key into a store without records
ends with commits 5 and returns 2. -/
theorem Import_commit_resolution {W : Type} (M : DoubleModel W) (hM : M.FmtNoSpace)
    (ok : Store → Str → Str → Bool) (st : Store × Nat) (line key : Str) (delta c0 : Int)
    (d0 : W) (t0 : Nat)
    (hline : importEntry line = some (key, delta))
    (hold : (c0, d0, t0) = readRecord M (Fetch st.1 key))
    (hok : ∀ v, ok st.1 key v = true) :
    (Fetch (importStep M ok st line).1 key =
        some (formatValue M
          (if delta > 0 then max delta c0 else if delta < 0 then delta else c0) d0 t0) ∧
      UnpackValues M (formatValue M
          (if delta > 0 then max delta c0 else if delta < 0 then delta else c0) d0 t0) =
        (if delta > 0 then max delta c0 else if delta < 0 then delta else c0,
          M.reparse d0, t0) ∧
      (importStep M ok st line).2 = st.2 + 1) ∧
    (delta < 0 →
      (if delta > 0 then max delta c0 else if delta < 0 then delta else c0) = delta) ∧
    ((match (split '\t' line).get? 2 with
      | none => True
      | some row2 => row2 = [] ∨ parseInt row2 = none) → delta = 0) ∧
    ((∀ db k v, ok db k v = true) →
      ∃ db1 v, UserDictManager.Import M ok (some scenarioC_db) scenarioC_text =
          (2, some db1) ∧
        Fetch db1 "ni hao \thello".toList = some v ∧ (UnpackValues M v).1 = 5) := by
  obtain ⟨hrange, hblank⟩ := importEntry_delta line key delta hline
  have hstep := importStep_fetch M ok st line key delta hline hok
  have hc0 : InIntRange c0 ∧ t0 < 2 ^ 64 := by
    have := readRecord_range M (Fetch st.1 key)
    rw [← hold] at this
    exact this
  have hnew : InIntRange
      (if delta > 0 then max delta c0 else if delta < 0 then delta else c0) := by
    split
    · exact InIntRange_max _ _ hrange hc0.1
    · split
      · exact hrange
      · exact hc0.1
  refine ⟨⟨?_, UnpackValues_formatValue M hM _ d0 t0 hnew hc0.2, hstep.2⟩, ?_, hblank, ?_⟩
  · rw [hstep.1, importValue_eq, ← hold]
  · intro hneg
    rw [if_neg (by omega), if_pos hneg]
  · intro hall
    obtain ⟨hl, e1, e2⟩ := scenarioC_lines
    have s1 := importStep_fetch M ok (scenarioC_db, 0) _ _ _ e1 (fun v => hall _ _ v)
    have s2 := importStep_fetch M ok
      (importStep M ok (scenarioC_db, 0) "hello\tni hao\t-1".toList) _ _ _ e2
      (fun v => hall _ _ v)
    have hf0 : Fetch scenarioC_db "ni hao \thello".toList = none := by decide
    rw [s1.1, hf0] at s2
    have hv1 : importValue M (-1) none = formatValue M (-1) M.zero 0 := rfl
    have hu1 := UnpackValues_formatValue M hM (-1) M.zero 0
      (by unfold InIntRange; norm_num) (by norm_num)
    have hv2 : importValue M 5 (some (formatValue M (-1) M.zero 0)) =
        formatValue M 5 (M.reparse M.zero) 0 := by
      rw [importValue_eq]
      simp only [readRecord, hu1]
      rfl
    rw [hv1, hv2] at s2
    refine ⟨(importStep M ok (importStep M ok (scenarioC_db, 0)
      "hello\tni hao\t-1".toList) "hello\tni hao\t5".toList).1, _, ?_, s2.1, ?_⟩
    · rw [Import_ok M ok scenarioC_db scenarioC_text (by decide), hl]
      simp only [List.foldl]
      rw [s2.2, s1.2]
      rfl
    · rw [UnpackValues_formatValue M hM 5 _ 0 (by unfold InIntRange; norm_num) (by norm_num)]

theorem Import_commit_resolution_witness :
    (Fetch (importStep wholeModel okAll (tombstone_dest, 0) "hello\tni hao\t-1".toList).1
        "ni hao \thello".toList =
        some (formatValue wholeModel
          (if (-1 : Int) > 0 then max (-1) 3 else if (-1 : Int) < 0 then -1 else 3) 0 1) ∧
      UnpackValues wholeModel (formatValue wholeModel
          (if (-1 : Int) > 0 then max (-1) 3 else if (-1 : Int) < 0 then -1 else 3) 0 1) =
        (if (-1 : Int) > 0 then max (-1) 3 else if (-1 : Int) < 0 then -1 else 3,
          wholeModel.reparse 0, 1) ∧
      (importStep wholeModel okAll (tombstone_dest, 0) "hello\tni hao\t-1".toList).2 =
        0 + 1) ∧
    ((-1 : Int) < 0 →
      (if (-1 : Int) > 0 then max (-1) 3 else if (-1 : Int) < 0 then -1 else 3) = -1) ∧
    ((match (split '\t' "hello\tni hao\t-1".toList).get? 2 with
      | none => True
      | some row2 => row2 = [] ∨ parseInt row2 = none) → (-1 : Int) = 0) ∧
    ((∀ db k v, okAll db k v = true) →
      ∃ db1 v, UserDictManager.Import wholeModel okAll (some scenarioC_db) scenarioC_text =
          (2, some db1) ∧
        Fetch db1 "ni hao \thello".toList = some v ∧ (UnpackValues wholeModel v).1 = 5) :=
  Import_commit_resolution wholeModel wholeModel_fmtNoSpace okAll (tombstone_dest, 0)
    "hello\tni hao\t-1".toList "ni hao \thello".toList (-1) 3 0 1
    (by decide) (by decide) (fun _ => rfl)

theorem split_ne_nil (sep : Char) (s : Str) : split sep s ≠ [] := by
  cases s with
  | nil => simp [split]
  | cons c cs =>
    unfold split
    split
    · simp
    · cases split sep cs <;> simp [consHead]

/-- The tokens of `split` contain no separator and, joined by the separator, give the
string back. -/
theorem split_spec (sep : Char) (s : Str) :
    (∀ t ∈ split sep s, sep ∉ t) ∧ [sep].intercalate (split sep s) = s := by
  induction s with
  | nil => simp [split, List.intercalate]
  | cons c cs ih =>
    obtain ⟨ih1, ih2⟩ := ih
    unfold split
    by_cases hc : c = sep
    · simp only [hc, if_true]
      constructor
      · intro t ht
        rcases List.mem_cons.mp ht with e | e
        · rw [e]; simp
        · exact ih1 t e
      · have hne := split_ne_nil sep cs
        cases hs : split sep cs with
        | nil => exact absurd hs hne
        | cons h t =>
          rw [hs] at ih2
          rw [← ih2]
          simp [List.intercalate]
    · simp only [hc, if_false]
      have hne := split_ne_nil sep cs
      cases hs : split sep cs with
      | nil => exact absurd hs hne
      | cons h t =>
        rw [hs] at ih1 ih2
        simp only [consHead]
        constructor
        · intro x hx
          rcases List.mem_cons.mp hx with e | e
          · rw [e]
            simp only [List.mem_cons, not_or]
            exact ⟨Ne.symm hc, ih1 h (List.mem_cons_self _ _)⟩
          · exact ih1 x (List.mem_cons_of_mem _ e)
        · rw [← ih2]
          cases t <;> simp [List.intercalate]

theorem split_eq_pair (sep : Char) (s a b : Str) :
    split sep s = [a, b] ↔ s = a ++ sep :: b ∧ sep ∉ a ∧ sep ∉ b := by
  constructor
  · intro h
    obtain ⟨h1, h2⟩ := split_spec sep s
    rw [h] at h1 h2
    refine ⟨?_, h1 a (by simp), h1 b (by simp)⟩
    rw [← h2]
    simp [List.intercalate]
  · rintro ⟨rfl, ha, hb⟩
    rw [split_append_sep sep a b ha, split_no_sep sep b hb]

theorem IsUserDb_iff (db : Store) :
    IsUserDb db = true ↔ Fetch db dbTypeKey = some "userdb".toList := by
  unfold IsUserDb
  cases Fetch db dbTypeKey with
  | none => simp
  | some t => simp

/-- Scenario B: the commits that the two record values unpack to. -/
theorem scenarioB_unpack {W : Type} (M : DoubleModel W) :
    (UnpackValues M "c=3 d=1 t=2".toList).1 = 3 ∧
      (UnpackValues M "c=-1 d=1 t=2".toList).1 = -1 := by
  have key : ∀ c : Int, InIntRange c →
      (UnpackValues M (['c', '='] ++ showInt c ++ " d=1 t=2".toList)).1 = c := by
    intro c hc
    have hs : split ' ' (['c', '='] ++ showInt c ++ " d=1 t=2".toList) =
        [['c', '='] ++ showInt c, "d=1".toList, ['t', '='] ++ showNat 2] := by
      have e : ['c', '='] ++ showInt c ++ " d=1 t=2".toList =
          (['c', '='] ++ showInt c) ++ ' ' :: " d=1 t=2".toList.tail := rfl
      rw [e, split_append_sep]
      · rfl
      · simp only [List.mem_append, List.mem_cons, not_or]
        exact ⟨by decide, showInt_no_space c⟩
    unfold UnpackValues
    rw [hs]
    simp only [List.foldl]
    rw [assignField_c M _ c hc, assignField_t M _ 2 (by norm_num)]
    have e : splitEq "d=1".toList = some (['d'], "1".toList) := by decide
    unfold assignField
    rw [e]
    simp only [List.cons.injEq, and_true, if_true]
    cases M.parse "1".toList <;> simp
  have e3 : ['c', '='] ++ showInt 3 ++ " d=1 t=2".toList = "c=3 d=1 t=2".toList := by decide
  have e1 : ['c', '='] ++ showInt (-1) ++ " d=1 t=2".toList = "c=-1 d=1 t=2".toList := by
    decide
  have k3 := key 3 (by unfold InIntRange; norm_num)
  have k1 := key (-1) (by unfold InIntRange; norm_num)
  rw [e3] at k3
  rw [e1] at k1
  exact ⟨k3, k1⟩

/-- The rows and the counter of the loop of `Export`. -/
theorem exportLoop_eq {W : Type} (M : DoubleModel W) (db : Store) :
    ∀ st : Str × Nat, db.foldl (exportStep M) st =
      (st.1 ++ (db.filterMap (exportRow M)).flatten, st.2 + (db.filterMap (exportRow M)).length) := by
  induction db with
  | nil => intro st; simp
  | cons rec rest ih =>
    intro st
    simp only [List.foldl_cons]
    rw [ih]
    unfold exportStep
    cases h : exportRow M rec with
    | none => simp [List.filterMap_cons, h]
    | some row =>
      simp only [List.filterMap_cons, h, List.flatten_cons, List.length_cons, List.append_assoc]
      congr 1
      omega

/-- The records for which the loop of `Export` writes a row, and the row. -/
theorem exportRow_iff {W : Type} (M : DoubleModel W) (key value row : Str) :
    exportRow M (key, value) = some row ↔
      (startsWith key metaPrefix = false ∧ 0 ≤ (UnpackValues M value).1 ∧
        ∃ code text, key = code ++ '\t' :: text ∧ '\t' ∉ code ∧ '\t' ∉ text ∧
          code ≠ [] ∧ text ≠ [] ∧
          row = text ++ ['\t'] ++ trim code ++ ['\t'] ++ showInt (UnpackValues M value).1 ++
            ['\n']) := by
  unfold exportRow
  cases hm : startsWith key metaPrefix with
  | true => simp
  | false =>
    simp only [Bool.false_eq_true, if_false, true_and]
    constructor
    · intro h
      split at h
      · rename_i row0 row1 hs
        split at h
        · exact Option.noConfusion h
        · rename_i hne
          split at h
          · exact Option.noConfusion h
          · rename_i hc
            simp only [Option.some.injEq] at h
            obtain ⟨e, h0, h1⟩ := (split_eq_pair '\t' key row0 row1).1 hs
            refine ⟨not_lt.mp hc, row0, row1, e, h0, h1, ?_, ?_, h.symm⟩
            · exact fun e0 => hne (Or.inl e0)
            · exact fun e1 => hne (Or.inr e1)
      · exact Option.noConfusion h
    · rintro ⟨hc, code, text, e, h0, h1, hcode, htext, hrow⟩
      have hs := (split_eq_pair '\t' key code text).2 ⟨e, h0, h1⟩
      simp only [hs]
      rw [if_neg (by simp [hcode, htext]), if_neg (not_lt.mpr hc), hrow]

/-- C10. Export content and count: `UserDictManager::Export` returns -1 and writes no
file if the store does not open or its `db_type` is not `userdb`; otherwise it writes
the header followed by one row per record for which the loop writes a row, in the
order of the store, and returns the number of these rows.  The loop writes a row for
a record exactly when its key is not a metadata key, its commits are not negative and
its key splits on tab into two non-empty parts `code` and `text`; the row is
`text<TAB>code<TAB>commits`, the code being trimmed.  Scenario B: a store with one
deleted key (`c=-1`) and one live key (`c=3`) yields one data row and the result 1. -/
theorem Export_rows {W : Type} (M : DoubleModel W) :
    UserDictManager.Export M none = (-1, none) ∧
    (∀ db : Store, Fetch db dbTypeKey ≠ some "userdb".toList →
      UserDictManager.Export M (some db) = (-1, none)) ∧
    (∀ db : Store, Fetch db dbTypeKey = some "userdb".toList →
      UserDictManager.Export M (some db) =
        (((db.filterMap (exportRow M)).length : Int),
          some (exportHeader db ++ (db.filterMap (exportRow M)).flatten))) ∧
    (∀ key value row : Str, exportRow M (key, value) = some row ↔
      (startsWith key metaPrefix = false ∧ 0 ≤ (UnpackValues M value).1 ∧
        ∃ code text, key = code ++ '\t' :: text ∧ '\t' ∉ code ∧ '\t' ∉ text ∧
          code ≠ [] ∧ text ≠ [] ∧
          row = text ++ ['\t'] ++ trim code ++ ['\t'] ++
            showInt (UnpackValues M value).1 ++ ['\n'])) ∧
    UserDictManager.Export M (some scenarioB_db) =
      (1, some (exportHeader scenarioB_db ++ "hello\tni hao\t3\n".toList)) := by
  have hvalid : ∀ db : Store, Fetch db dbTypeKey = some "userdb".toList →
      UserDictManager.Export M (some db) =
        (((db.filterMap (exportRow M)).length : Int),
          some (exportHeader db ++ (db.filterMap (exportRow M)).flatten)) := by
    intro db h
    have hu := (IsUserDb_iff db).2 h
    unfold UserDictManager.Export
    simp only [hu, Bool.true_eq_false, if_false]
    rw [exportLoop_eq]
    simp
  refine ⟨rfl, ?_, hvalid, exportRow_iff M, ?_⟩
  · intro db h
    have hu : IsUserDb db = false := by
      cases hb : IsUserDb db
      · rfl
      · exact absurd ((IsUserDb_iff db).1 hb) h
    unfold UserDictManager.Export
    simp only [hu, if_true]
  · rw [hvalid scenarioB_db (by decide)]
    have h1 : exportRow M ("ni hao \thello".toList, "c=3 d=1 t=2".toList) =
        some "hello\tni hao\t3\n".toList := by
      rw [exportRow_iff]
      refine ⟨by decide, ?_, "ni hao ".toList, "hello".toList, by decide, by decide,
        by decide, by decide, by decide, ?_⟩
      · rw [(scenarioB_unpack M).1]; norm_num
      · rw [(scenarioB_unpack M).1]; decide
    have h2 : exportRow M ("zai jian \tbye".toList, "c=-1 d=1 t=2".toList) = none := by
      cases h : exportRow M ("zai jian \tbye".toList, "c=-1 d=1 t=2".toList) with
      | none => rfl
      | some row =>
        have := ((exportRow_iff M _ _ row).1 h).2.1
        rw [(scenarioB_unpack M).2] at this
        norm_num at this
    have h3 : ∀ v : Str, exportRow M (dbTypeKey, v) = none ∧ exportRow M (dbNameKey, v) = none ∧
        exportRow M (userIdKey, v) = none ∧ exportRow M (tickKey, v) = none :=
      fun v => ⟨rfl, rfl, rfl, rfl⟩
    simp only [scenarioB_db, List.filterMap_cons, h1, h2, (h3 _).1, (h3 _).2.1, (h3 _).2.2.1,
      (h3 _).2.2.2, List.filterMap_nil, List.length_cons, List.length_nil, List.flatten_cons,
      List.flatten_nil, List.append_nil]
    rfl

/-- C8 fails on the code: the store `roundtrip_db` is valid and holds the record
`ni hao` / `#1` with 2 commits; `Export` writes it as the row `#1<TAB>ni hao<TAB>2`,
which `Import` takes for a comment, so that the fresh store is left as it was, without
any record. -/
theorem roundtrip_counterexample :
    Fetch roundtrip_db dbTypeKey = some "userdb".toList ∧
    Fetch roundtrip_db "ni hao \t#1".toList = some "c=2 d=0 t=1".toList ∧
    0 ≤ (UnpackValues wholeModel "c=2 d=0 t=1".toList).1 ∧
    UserDictManager.Export wholeModel (some roundtrip_db) =
      (1, some (exportHeader roundtrip_db ++ "#1\tni hao\t2\n".toList)) ∧
    UserDictManager.Import wholeModel okAll (some fresh_db)
      (exportHeader roundtrip_db ++ "#1\tni hao\t2\n".toList) = (0, some fresh_db) ∧
    Fetch fresh_db "ni hao \t#1".toList = none := by
  decide

theorem join_singleton (s sep : Str) : join [s] sep = s := by
  simp [join, List.intercalate]

theorem join_cons_cons (s t sep : Str) (r : List Str) :
    join (s :: t :: r) sep = s ++ sep ++ join (t :: r) sep := by
  simp [join, List.intercalate]

theorem splitCompress_no_sep (sep : Char) (s : Str) (h : sep ∉ s) :
    splitCompress sep s = [s] := by
  induction s with
  | nil => rfl
  | cons c cs ih =>
    have h1 : c ≠ sep := fun e => h (by simp [e])
    have h2 : sep ∉ cs := fun e => h (by simp [e])
    simp [splitCompress, h1, ih h2, consHead]

theorem splitCompress_append (sep : Char) (s rest : Str) (h : sep ∉ s)
    (hrest : rest.head? ≠ some sep) :
    splitCompress sep (s ++ sep :: rest) = s :: splitCompress sep rest := by
  induction s with
  | nil => simp [splitCompress, hrest]
  | cons c cs ih =>
    have h1 : c ≠ sep := fun e => h (by simp [e])
    have h2 : sep ∉ cs := fun e => h (by simp [e])
    simp [splitCompress, h1, ih h2, consHead]

theorem syllable_no_space (s : Str) (h : IsSyllable s) : ' ' ∉ s := by
  intro hmem
  have := h.2 ' ' hmem
  revert this
  decide

/-- The shape of a code in normal form. -/
theorem code_shape (L : List Str) (hne : L ≠ []) (hs : ∀ s ∈ L, IsSyllable s) :
    (∃ c r, join L [' '] = c :: r ∧ isSpace c = false) ∧
    (∃ init l, join L [' '] = init ++ [l] ∧ isSpace l = false) ∧
    (∀ c ∈ join L [' '], c = ' ' ∨ isSpace c = false) ∧
    splitCompress ' ' (join L [' ']) = L := by
  induction L with
  | nil => exact absurd rfl hne
  | cons s rest ih =>
    have hsyl := hs s (List.mem_cons_self _ _)
    obtain ⟨c, r, hcr⟩ : ∃ c r, s = c :: r := by
      cases hsd : s with
      | nil => exact absurd hsd hsyl.1
      | cons c r => exact ⟨c, r, rfl⟩
    have hc : isSpace c = false := hsyl.2 c (by rw [hcr]; simp)
    cases rest with
    | nil =>
      rw [join_singleton]
      refine ⟨⟨c, r, hcr, hc⟩, ?_, fun x hx => Or.inr (hsyl.2 x hx),
        splitCompress_no_sep ' ' s (syllable_no_space s hsyl)⟩
      have hlast := List.dropLast_append_getLast hsyl.1
      exact ⟨s.dropLast, s.getLast hsyl.1, hlast.symm, hsyl.2 _ (List.getLast_mem hsyl.1)⟩
    | cons t more =>
      obtain ⟨⟨c2, r2, h2, hc2⟩, ⟨init, l, hl, hls⟩, hall, hsplit⟩ :=
        ih (by simp) (fun x hx => hs x (List.mem_cons_of_mem _ hx))
      rw [join_cons_cons]
      refine ⟨⟨c, r ++ [' '] ++ join (t :: more) [' '], by rw [hcr]; simp, hc⟩,
        ⟨s ++ [' '] ++ init, l, by rw [hl]; simp, hls⟩, ?_, ?_⟩
      · intro x hx
        simp only [List.mem_append, List.mem_singleton] at hx
        rcases hx with (hx | hx) | hx
        · exact Or.inr (hsyl.2 x hx)
        · exact Or.inl hx
        · exact hall x hx
      · have : s ++ [' '] ++ join (t :: more) [' '] = s ++ ' ' :: join (t :: more) [' '] := by
          simp
        rw [this, splitCompress_append ' ' s _ (syllable_no_space s hsyl), hsplit]
        rw [h2]
        simp only [List.head?_cons, ne_eq, Option.some.injEq]
        rintro rfl
        revert hc2
        decide

theorem trim_eq (s init r : Str) (c l : Char) (h1 : s = c :: r) (hc : isSpace c = false)
    (h2 : s = init ++ [l]) (hl : isSpace l = false) :
    trim s = s ∧ trim (s ++ [' ']) = s := by
  have hrev : s.reverse = l :: init.reverse := by rw [h2]; simp
  have hd1 : s.dropWhile isSpace = s := by
    rw [h1]; exact List.dropWhile_cons_of_neg (by simp [hc])
  have hd2 : (s ++ [' ']).dropWhile isSpace = s ++ [' '] := by
    rw [h1]; exact List.dropWhile_cons_of_neg (by simp [hc])
  have hd3 : (l :: init.reverse).dropWhile isSpace = l :: init.reverse :=
    List.dropWhile_cons_of_neg (by simp [hl])
  constructor
  · unfold trim
    rw [hd1, hrev, hd3, ← hrev, List.reverse_reverse]
  · unfold trim
    rw [hd2, List.reverse_append, hrev]
    have : ([' '].reverse ++ l :: init.reverse).dropWhile isSpace = l :: init.reverse := by
      show (' ' :: l :: init.reverse).dropWhile isSpace = l :: init.reverse
      rw [List.dropWhile_cons_of_pos (by decide), hd3]
    rw [this, ← hrev, List.reverse_reverse]

/-- What a code in normal form is to `Export` and `Import`. -/
theorem code_facts (code : Str) (h : IsCode code) :
    code ≠ [] ∧ '\t' ∉ code ∧ '\n' ∉ code ∧ trim code = code ∧ trim (code ++ [' ']) = code ∧
      join (splitCompress ' ' code) [' '] = code := by
  obtain ⟨L, hne, hs, rfl⟩ := h
  obtain ⟨⟨c, r, h1, hc⟩, ⟨init, l, h2, hl⟩, hall, hsplit⟩ := code_shape L hne hs
  obtain ⟨t1, t2⟩ := trim_eq _ init r c l h1 hc h2 hl
  refine ⟨by rw [h1]; simp, ?_, ?_, t1, t2, by rw [hsplit]⟩
  · intro hmem
    rcases hall _ hmem with e | e
    · revert e; decide
    · revert e; decide
  · intro hmem
    rcases hall _ hmem with e | e
    · revert e; decide
    · revert e; decide

theorem showInt_spec (c : Int) : showInt c ≠ [] ∧ '\t' ∉ showInt c ∧ '\n' ∉ showInt c := by
  have hnat : ∀ n : Nat, '\t' ∉ showNat n ∧ '\n' ∉ showNat n := by
    intro n
    constructor
    · intro h
      have := showNat_isDigit n _ h
      revert this; decide
    · intro h
      have := showNat_isDigit n _ h
      revert this; decide
  cases c with
  | ofNat n => exact ⟨showNat_ne_nil n, (hnat n).1, (hnat n).2⟩
  | negSucc n =>
    refine ⟨by simp [showInt], ?_, ?_⟩
    · simp only [showInt, List.mem_cons, not_or]
      exact ⟨by decide, (hnat _).1⟩
    · simp only [showInt, List.mem_cons, not_or]
      exact ⟨by decide, (hnat _).2⟩

/-- The row that `Export` writes for a record with a well-formed key. -/
theorem exportRow_wellFormed {W : Type} (M : DoubleModel W) (code text value : Str)
    (hcode : IsCode code) (htext : IsText text)
    (hmeta : startsWith (code ++ [' ', '\t'] ++ text) metaPrefix = false) :
    exportRow M (code ++ [' ', '\t'] ++ text, value) =
      if (UnpackValues M value).1 < 0 then none
      else some (text ++ ['\t'] ++ code ++ ['\t'] ++ showInt (UnpackValues M value).1 ++
        ['\n']) := by
  obtain ⟨hne, htab, _, _, htrim, _⟩ := code_facts code hcode
  have hkey : code ++ [' ', '\t'] ++ text = (code ++ [' ']) ++ '\t' :: text := by simp
  have htab1 : '\t' ∉ code ++ [' '] := by
    simp only [List.mem_append, List.mem_singleton, not_or]
    exact ⟨htab, by decide⟩
  split
  · rename_i hneg
    cases h : exportRow M (code ++ [' ', '\t'] ++ text, value) with
    | none => rfl
    | some row =>
      have := ((exportRow_iff M _ _ row).1 h).2.1
      omega
  · rename_i hpos
    rw [exportRow_iff]
    refine ⟨hmeta, not_lt.mp hpos, code ++ [' '], text, hkey, htab1, htext.2.1, by simp,
      htext.1, ?_⟩
    rw [htrim]

/-- The entry that `Import` reads from a row written for a well-formed key. -/
theorem importEntry_row (code text : Str) (c : Int) (hcode : IsCode code)
    (htext : IsText text) (hc : InIntRange c) :
    importEntry (text ++ ['\t'] ++ code ++ ['\t'] ++ showInt c) =
      if text.head? = some '#' then none else some (code ++ [' ', '\t'] ++ text, c) := by
  obtain ⟨hne, htab, _, htrim, _, hjoin⟩ := code_facts code hcode
  obtain ⟨hsne, hstab, _⟩ := showInt_spec c
  have hline : text ++ ['\t'] ++ code ++ ['\t'] ++ showInt c =
      text ++ '\t' :: (code ++ '\t' :: showInt c) := by simp
  have hsplit : split '\t' (text ++ ['\t'] ++ code ++ ['\t'] ++ showInt c) =
      [text, code, showInt c] := by
    rw [hline, split_append_sep _ _ _ htext.2.1, split_append_sep _ _ _ htab,
      split_no_sep _ _ hstab]
  have hhead : (text ++ ['\t'] ++ code ++ ['\t'] ++ showInt c).head? = text.head? := by
    cases ht : text with
    | nil => exact absurd ht htext.1
    | cons a r => simp
  have hnil : text ++ ['\t'] ++ code ++ ['\t'] ++ showInt c ≠ [] := by
    cases ht : text with
    | nil => exact absurd ht htext.1
    | cons a r => simp
  unfold importEntry
  rw [hhead, hsplit]
  by_cases hh : text.head? = some '#'
  · simp [hh]
  · simp only [hnil, hh, or_self, if_false, htext.1, hne, htrim, ne_eq, not_false_eq_true,
      if_true, hjoin, hsne, parseInt_showInt c hc]

theorem getlines_line (body rest : Str) (h : '\n' ∉ body) :
    getlines (body ++ '\n' :: rest) = body :: getlines rest := by
  induction body with
  | nil => simp [getlines]
  | cons c cs ih =>
    have h1 : c ≠ '\n' := fun e => h (by simp [e])
    have h2 : '\n' ∉ cs := fun e => h (by simp [e])
    simp [getlines, h1, ih h2, consHead]

theorem importLoop_fetch {W : Type} (M : DoubleModel W) (ok : Store → Str → Str → Bool)
    (hok : ∀ db k v, ok db k v = true) (k : Str) (lines : List Str) :
    ∀ st : Store × Nat,
      Fetch (lines.foldl (importStep M ok) st).1 k =
        lines.foldl (importAt M k) (Fetch st.1 k) := by
  induction lines with
  | nil => intro st; rfl
  | cons line rest ih =>
    intro st
    simp only [List.foldl_cons]
    rw [ih]
    congr 1
    rw [importStep_fst]
    unfold importAt
    cases importEntry line with
    | none => rfl
    | some e =>
      obtain ⟨key, commits⟩ := e
      simp only [Fetch_Update, hok, true_and]
      by_cases hk : key = k
      · subst hk; simp
      · simp [hk]

theorem importAt_none {W : Type} (M : DoubleModel W) (k : Str) (v : Option Str) (line : Str)
    (h : importEntry line = none) : importAt M k v line = v := by
  unfold importAt
  rw [h]

theorem exportRow_meta {W : Type} (M : DoubleModel W) (rec : Str × Str)
    (h : startsWith rec.1 metaPrefix = true) : exportRow M rec = none := by
  cases hr : exportRow M rec with
  | none => rfl
  | some row =>
    have := ((exportRow_iff M rec.1 rec.2 row).1 hr).1
    rw [h] at this
    exact Bool.noConfusion this

theorem row_body_no_lf (code text : Str) (c : Int) (hcode : IsCode code)
    (htext : IsText text) : '\n' ∉ text ++ ['\t'] ++ code ++ ['\t'] ++ showInt c := by
  obtain ⟨_, _, hlf, _⟩ := code_facts code hcode
  simp only [List.mem_append, List.mem_singleton, not_or]
  exact ⟨⟨⟨⟨htext.2.2, by decide⟩, hlf⟩, by decide⟩, (showInt_spec c).2.2⟩

/-- The rows of records that do not have key `k` leave the binding of `k` alone when
they are imported. -/
theorem importAt_rows_skip {W : Type} (M : DoubleModel W) (k : Str) (recs : Store)
    (hrecs : ∀ rec ∈ recs, rec.1 ≠ k ∧
      (startsWith rec.1 metaPrefix = true ∨ WellFormedKey rec.1)) :
    ∀ (Y : Str) (v : Option Str),
      (getlines ((recs.filterMap (exportRow M)).flatten ++ Y)).foldl (importAt M k) v =
        (getlines Y).foldl (importAt M k) v := by
  induction recs with
  | nil => intro Y v; simp
  | cons rec rest ih =>
    intro Y v
    have hrest := fun r hr => hrecs r (List.mem_cons_of_mem _ hr)
    obtain ⟨hkey, hform⟩ := hrecs rec (List.mem_cons_self _ _)
    cases hrow : exportRow M rec with
    | none =>
      rw [List.filterMap_cons_none hrow]
      exact ih hrest Y v
    | some row =>
      rw [List.filterMap_cons_some hrow, List.flatten_cons, List.append_assoc]
      rcases hform with hmeta | ⟨code, text, hcode, htext, hk⟩
      · rw [exportRow_meta M rec hmeta] at hrow
        exact Option.noConfusion hrow
      · have hmeta : startsWith (code ++ [' ', '\t'] ++ text) metaPrefix = false := by
          cases hm : startsWith (code ++ [' ', '\t'] ++ text) metaPrefix with
          | false => rfl
          | true =>
            rw [← hk] at hm
            rw [exportRow_meta M rec hm] at hrow
            exact Option.noConfusion hrow
        have hrow2 := exportRow_wellFormed M code text rec.2 hcode htext hmeta
        rw [← hk] at hrow2
        rw [show (rec.1, rec.2) = rec from rfl, hrow] at hrow2
        split at hrow2
        · exact Option.noConfusion hrow2
        · simp only [Option.some.injEq] at hrow2
          rw [hrow2]
          have hb := row_body_no_lf code text (UnpackValues M rec.2).1 hcode htext
          rw [show text ++ ['\t'] ++ code ++ ['\t'] ++ showInt (UnpackValues M rec.2).1 ++
              ['\n'] ++ ((List.filterMap (exportRow M) rest).flatten ++ Y) =
            (text ++ ['\t'] ++ code ++ ['\t'] ++ showInt (UnpackValues M rec.2).1) ++
              '\n' :: ((List.filterMap (exportRow M) rest).flatten ++ Y) from by simp]
          rw [getlines_line _ _ hb, List.foldl_cons]
          have hskip : importAt M k v
              (text ++ ['\t'] ++ code ++ ['\t'] ++ showInt (UnpackValues M rec.2).1) = v := by
            unfold importAt
            rw [importEntry_row code text _ hcode htext (UnpackValues_range M rec.2).1]
            by_cases hh : text.head? = some '#'
            · rw [if_pos hh]
            · rw [if_neg hh]
              simp only
              rw [if_neg (by rw [← hk]; exact hkey)]
          rw [hskip]
          exact ih hrest Y v

/-- The result of `Export` on a store that opens and validates. -/
theorem Export_ok {W : Type} (M : DoubleModel W) (db : Store) (h : IsUserDb db = true) :
    UserDictManager.Export M (some db) =
      (((db.filterMap (exportRow M)).length : Int),
        some (exportHeader db ++ (db.filterMap (exportRow M)).flatten)) := by
  unfold UserDictManager.Export
  simp only [h, Bool.true_eq_false, if_false]
  rw [exportLoop_eq]
  simp

theorem importEntry_comment (line : Str) (h : line = [] ∨ line.head? = some '#') :
    importEntry line = none := by
  unfold importEntry
  rw [if_pos h]

/-- The header that `Export` writes is skipped by `Import`, when `db_name` and
`user_id` hold no line feed. -/
theorem importAt_header_skip {W : Type} (M : DoubleModel W) (k : Str) (db : Store)
    (hname : '\n' ∉ GetDbName db) (huid : '\n' ∉ GetUserId db) (X : Str) (v : Option Str) :
    (getlines (exportHeader db ++ X)).foldl (importAt M k) v =
      (getlines X).foldl (importAt M k) v := by
  have e : exportHeader db ++ X =
      "# Rime user dictionary export".toList ++ '\n' ::
        (("# db_name: ".toList ++ GetDbName db) ++ '\n' ::
          (("# user_id: ".toList ++ GetUserId db) ++ '\n' ::
            (("# commits: ".toList ++ showNat (GetTickCount db)) ++ '\n' ::
              ([] ++ '\n' :: X)))) := by
    simp [exportHeader]
  have h1 : '\n' ∉ "# Rime user dictionary export".toList := by decide
  have h2 : '\n' ∉ "# db_name: ".toList ++ GetDbName db := by
    simp only [List.mem_append, not_or]
    exact ⟨by decide, hname⟩
  have h3 : '\n' ∉ "# user_id: ".toList ++ GetUserId db := by
    simp only [List.mem_append, not_or]
    exact ⟨by decide, huid⟩
  have h4 : '\n' ∉ "# commits: ".toList ++ showNat (GetTickCount db) := by
    simp only [List.mem_append, not_or]
    refine ⟨by decide, ?_⟩
    intro h
    have := showNat_isDigit _ _ h
    revert this; decide
  rw [e, getlines_line _ _ h1, getlines_line _ _ h2, getlines_line _ _ h3,
    getlines_line _ _ h4, getlines_line _ _ (List.not_mem_nil _)]
  have c1 : importEntry "# Rime user dictionary export".toList = none := by decide
  have c2 : importEntry ("# db_name: ".toList ++ GetDbName db) = none :=
    importEntry_comment ("# db_name: ".toList ++ GetDbName db) (Or.inr rfl)
  have c3 : importEntry ("# user_id: ".toList ++ GetUserId db) = none :=
    importEntry_comment ("# user_id: ".toList ++ GetUserId db) (Or.inr rfl)
  have c4 : importEntry ("# commits: ".toList ++ showNat (GetTickCount db)) = none :=
    importEntry_comment ("# commits: ".toList ++ showNat (GetTickCount db)) (Or.inr rfl)
  have c5 : importEntry [] = none := importEntry_comment [] (Or.inl rfl)
  simp only [List.foldl_cons]
  rw [importAt_none M k v _ c1, importAt_none M k v _ c2, importAt_none M k v _ c3,
    importAt_none M k v _ c4, importAt_none M k v _ c5]

theorem importValue_fresh {W : Type} (M : DoubleModel W) (c : Int) (hc : 0 ≤ c) :
    importValue M c none = formatValue M c M.zero 0 := by
  rw [importValue_eq]
  simp only [readRecord]
  by_cases h : c > 0
  · rw [if_pos h, max_eq_left hc]
  · have : c = 0 := by omega
    subst this
    simp

/-- C8, as the code has it: take a valid store whose `db_name` and `user_id` hold no
line feed and whose record keys are distinct and well-formed (a code in normal form,
one space, a tab, a text without tab or line feed), and a fresh valid store that holds
metadata only; let every update succeed.  Then `UserDictManager::Export` followed by
`UserDictManager::Import` of the written file into the fresh store yields a store that
holds, for every record of the original whose commits are not negative and whose text
does not begin with `#`, a record under the same key (the same code and text) with the
same commits. -/
theorem Export_Import_roundtrip {W : Type} (M : DoubleModel W) (hM : M.FmtNoSpace)
    (ok : Store → Str → Str → Bool) (hok : ∀ db k v, ok db k v = true)
    (db fresh : Store) (code text value : Str)
    (hdb : Fetch db dbTypeKey = some "userdb".toList)
    (hfresh : Fetch fresh dbTypeKey = some "userdb".toList)
    (hname : '\n' ∉ GetDbName db) (huid : '\n' ∉ GetUserId db)
    (hkeys : (db.map Prod.fst).Nodup)
    (hwf : ∀ rec ∈ db, startsWith rec.1 metaPrefix = false → WellFormedKey rec.1)
    (hempty : ∀ k, Fetch fresh k ≠ none → startsWith k metaPrefix = true)
    (hrec : (code ++ [' ', '\t'] ++ text, value) ∈ db)
    (hmeta : startsWith (code ++ [' ', '\t'] ++ text) metaPrefix = false)
    (hcode : IsCode code) (htext : IsText text) (hhash : text.head? ≠ some '#')
    (hlive : 0 ≤ (UnpackValues M value).1) :
    ∃ (n : Int) (file : Str) (m : Int) (db1 : Store) (v : Str),
      UserDictManager.Export M (some db) = (n, some file) ∧
      UserDictManager.Import M ok (some fresh) file = (m, some db1) ∧
      Fetch db1 (code ++ [' ', '\t'] ++ text) = some v ∧
      (UnpackValues M v).1 = (UnpackValues M value).1 := by
  have hform : ∀ rec ∈ db, startsWith rec.1 metaPrefix = true ∨ WellFormedKey rec.1 := by
    intro rec hr
    cases hm : startsWith rec.1 metaPrefix with
    | true => exact Or.inl rfl
    | false => exact Or.inr (hwf rec hr hm)
  -- the record splits the store in two parts that do not hold its key
  obtain ⟨pre, post, hsplit⟩ := List.append_of_mem hrec
  rw [hsplit] at hkeys
  simp only [List.map_append, List.map_cons] at hkeys
  have hpre : ∀ rec ∈ pre, rec.1 ≠ code ++ [' ', '\t'] ++ text ∧
      (startsWith rec.1 metaPrefix = true ∨ WellFormedKey rec.1) := by
    intro rec hr
    refine ⟨?_, hform rec (by rw [hsplit]; exact List.mem_append_left _ hr)⟩
    intro e
    have hd := (List.nodup_append.mp hkeys).2.2
    exact hd (List.mem_map_of_mem Prod.fst hr) (by rw [e]; exact List.mem_cons_self _ _)
  have hpost : ∀ rec ∈ post, rec.1 ≠ code ++ [' ', '\t'] ++ text ∧
      (startsWith rec.1 metaPrefix = true ∨ WellFormedKey rec.1) := by
    intro rec hr
    refine ⟨?_, hform rec (by
      rw [hsplit]; exact List.mem_append_right _ (List.mem_cons_of_mem _ hr))⟩
    intro e
    have hd := (List.nodup_cons.mp (List.nodup_append.mp hkeys).2.1).1
    exact hd (by rw [← e]; exact List.mem_map_of_mem Prod.fst hr)
  -- the row of the record
  have hrow := exportRow_wellFormed M code text value hcode htext hmeta
  rw [if_neg (not_lt.mpr hlive)] at hrow
  have hb := row_body_no_lf code text (UnpackValues M value).1 hcode htext
  have hentry := importEntry_row code text (UnpackValues M value).1 hcode htext
    (UnpackValues_range M value).1
  rw [if_neg hhash] at hentry
  -- the binding of the key in the fresh store
  have hnone : Fetch fresh (code ++ [' ', '\t'] ++ text) = none := by
    cases hf : Fetch fresh (code ++ [' ', '\t'] ++ text) with
    | none => rfl
    | some x =>
      have := hempty _ (by rw [hf]; exact Option.noConfusion)
      rw [hmeta] at this
      exact Bool.noConfusion this
  have hrows : (db.filterMap (exportRow M)).flatten =
      (pre.filterMap (exportRow M)).flatten ++
        ((text ++ ['\t'] ++ code ++ ['\t'] ++ showInt (UnpackValues M value).1) ++
          '\n' :: ((post.filterMap (exportRow M)).flatten ++ [])) := by
    rw [hsplit, List.filterMap_append, List.filterMap_cons_some hrow]
    simp
  refine ⟨_, _, _, _, formatValue M (UnpackValues M value).1 M.zero 0,
    Export_ok M db ((IsUserDb_iff db).2 hdb),
    Import_ok M ok fresh _ ((IsUserDb_iff fresh).2 hfresh), ?_, ?_⟩
  · rw [importLoop_fetch M ok hok, hnone, importAt_header_skip M _ db hname huid, hrows,
      importAt_rows_skip M _ pre hpre, getlines_line _ _ hb, List.foldl_cons,
      importAt_rows_skip M _ post hpost]
    simp only [getlines, List.foldl_nil]
    unfold importAt
    rw [hentry]
    simp only [if_true]
    rw [importValue_fresh M _ hlive]
  · rw [UnpackValues_formatValue M hM _ _ 0 (UnpackValues_range M value).1 (by norm_num)]

theorem Export_Import_roundtrip_witness :
    ∃ (n : Int) (file : Str) (m : Int) (db1 : Store) (v : Str),
      UserDictManager.Export wholeModel (some roundtrip_db1) = (n, some file) ∧
      UserDictManager.Import wholeModel okAll (some fresh_db) file = (m, some db1) ∧
      Fetch db1 ("ni hao".toList ++ [' ', '\t'] ++ "hello".toList) = some v ∧
      (UnpackValues wholeModel v).1 = (UnpackValues wholeModel "c=2 d=0 t=1".toList).1 :=
  Export_Import_roundtrip wholeModel wholeModel_fmtNoSpace okAll okAll_ok
    roundtrip_db1 fresh_db "ni hao".toList "hello".toList "c=2 d=0 t=1".toList
    (by decide) (by decide) (by decide) (by decide) (by decide)
    (by
      intro rec hr hm
      have hcases : rec.1 = "ni hao \thello".toList := by
        revert hm
        revert rec
        decide
      rw [hcases]
      exact ⟨"ni hao".toList, "hello".toList,
        ⟨["ni".toList, "hao".toList], by decide, by
          intro s hs
          simp only [List.mem_cons, List.mem_singleton, List.not_mem_nil, or_false] at hs
          rcases hs with rfl | rfl
          · exact ⟨by decide, by decide⟩
          · exact ⟨by decide, by decide⟩, by decide⟩,
        ⟨by decide, by decide, by decide⟩, by decide⟩)
    (by
      intro k hk
      by_contra hm
      apply hk
      have h1 : k ≠ dbTypeKey := by rintro rfl; exact hm (by decide)
      have h2 : k ≠ dbNameKey := by rintro rfl; exact hm (by decide)
      have h3 : k ≠ userIdKey := by rintro rfl; exact hm (by decide)
      have h4 : k ≠ tickKey := by rintro rfl; exact hm (by decide)
      simp [fresh_db, Fetch, Ne.symm h1, Ne.symm h2, Ne.symm h3, Ne.symm h4])
    (by decide) (by decide)
    ⟨["ni".toList, "hao".toList], by decide, by
      intro s hs
      simp only [List.mem_cons, List.mem_singleton, List.not_mem_nil, or_false] at hs
      rcases hs with rfl | rfl
      · exact ⟨by decide, by decide⟩
      · exact ⟨by decide, by decide⟩, by decide⟩
    ⟨by decide, by decide, by decide⟩ (by decide) (by decide)

theorem findChar_append (c : Char) (a b : Str) (h : c ∉ a) :
    findChar c (a ++ c :: b) = some a.length := by
  induction a with
  | nil => simp [findChar]
  | cons x xs ih =>
    have h1 : x ≠ c := fun e => h (by simp [e])
    have h2 : c ∉ xs := fun e => h (by simp [e])
    simp [findChar, h1, ih h2]

/-- The first separator of a string cuts it in one way only. -/
theorem append_sep_inj (sep : Char) (x y x1 y1 : Str) (hx : sep ∉ x) (hx1 : sep ∉ x1)
    (h : x ++ sep :: y = x1 ++ sep :: y1) : x = x1 ∧ y = y1 := by
  induction x generalizing x1 with
  | nil =>
    cases x1 with
    | nil => simpa using h
    | cons a r =>
      simp only [List.nil_append, List.cons_append, List.cons.injEq] at h
      exact absurd h.1 (fun e => hx1 (by simp [e]))
  | cons a r ih =>
    cases x1 with
    | nil =>
      simp only [List.nil_append, List.cons_append, List.cons.injEq] at h
      exact absurd h.1.symm (fun e => hx (by simp [e]))
    | cons a1 r1 =>
      simp only [List.cons_append, List.cons.injEq] at h
      have := ih r1 (fun e => hx (by simp [e])) (fun e => hx1 (by simp [e])) h.2
      exact ⟨by rw [h.1, this.1], this.2⟩

theorem startsWith_metaPrefix_append (code rest1 rest2 : Str) (c1 c2 : Char)
    (hcode : code ≠ []) (h1 : c1 ≠ '/') (h2 : c2 ≠ '/') :
    startsWith (code ++ c1 :: rest1) metaPrefix = startsWith (code ++ c2 :: rest2) metaPrefix := by
  match code, hcode with
  | [a], _ =>
    have e1 : startsWith ([a] ++ c1 :: rest1) metaPrefix = false := by
      cases h : startsWith ([a] ++ c1 :: rest1) metaPrefix with
      | false => rfl
      | true =>
        obtain ⟨r, hr⟩ := (startsWith_metaPrefix _).1 h
        simp only [List.singleton_append, List.cons.injEq] at hr
        exact absurd hr.2.1 h1
    have e2 : startsWith ([a] ++ c2 :: rest2) metaPrefix = false := by
      cases h : startsWith ([a] ++ c2 :: rest2) metaPrefix with
      | false => rfl
      | true =>
        obtain ⟨r, hr⟩ := (startsWith_metaPrefix _).1 h
        simp only [List.singleton_append, List.cons.injEq] at hr
        exact absurd hr.2.1 h2
    rw [e1, e2]
  | a :: b :: r, _ => simp [startsWith, metaPrefix, List.isPrefixOf]

/-- The merge key of a legacy key and of its well-formed counterpart. -/
theorem mergeKey_legacy (code text : Str) (hcode : code ≠ [])
    (hend : code.getLast? ≠ some ' ') (htab : '\t' ∉ code) :
    mergeKey (code ++ ['\t'] ++ text) = mergeKey (code ++ [' ', '\t'] ++ text) ∧
    (mergeKey (code ++ [' ', '\t'] ++ text) = none ∨
      mergeKey (code ++ [' ', '\t'] ++ text) = some (code ++ [' ', '\t'] ++ text)) := by
  have hlen : 1 ≤ code.length := List.length_pos.mpr hcode
  have hm : startsWith (code ++ ['\t'] ++ text) metaPrefix =
      startsWith (code ++ [' ', '\t'] ++ text) metaPrefix := by
    have := startsWith_metaPrefix_append code text ('\t' :: text) '\t' ' ' hcode
      (by decide) (by decide)
    simpa using this
  have hf1 : findChar '\t' (code ++ ['\t'] ++ text) = some code.length := by
    have := findChar_append '\t' code text htab
    simpa using this
  have hf2 : findChar '\t' (code ++ [' ', '\t'] ++ text) = some (code.length + 1) := by
    have := findChar_append '\t' (code ++ [' ']) text (by
      simp only [List.mem_append, List.mem_singleton, not_or]
      exact ⟨htab, by decide⟩)
    simpa using this
  have hr1 : repairKey (code ++ ['\t'] ++ text) code.length = code ++ [' ', '\t'] ++ text := by
    unfold repairKey
    have hg : (code ++ ['\t'] ++ text).get? (code.length - 1) = code.getLast? := by
      rw [List.append_assoc, List.get?_eq_getElem?, List.getElem?_append_left (by omega),
        List.getLast?_eq_getElem?]
    rw [hg, if_pos hend]
    simp
  have hr2 : repairKey (code ++ [' ', '\t'] ++ text) (code.length + 1) =
      code ++ [' ', '\t'] ++ text := by
    unfold repairKey
    have hg : (code ++ [' ', '\t'] ++ text).get? (code.length + 1 - 1) = some ' ' := by
      rw [List.append_assoc, List.get?_eq_getElem?, Nat.add_sub_cancel,
        List.getElem?_append_right (le_refl _)]
      simp
    rw [hg]
    simp
  unfold mergeKey
  rw [hm, hf1, hf2]
  cases startsWith (code ++ [' ', '\t'] ++ text) metaPrefix with
  | true => simp
  | false =>
    simp only [Bool.false_eq_true, if_false]
    rw [if_neg (by omega), if_neg (by omega), hr1, hr2]
    simp

/-- The keys that the merge repairs to a given well-formed key: that key and its
legacy form without the space. -/
theorem mergeKey_eq_wellFormed (r code text : Str) (htab : '\t' ∉ code)
    (h : mergeKey r = some (code ++ [' ', '\t'] ++ text)) :
    r = code ++ ['\t'] ++ text ∨ r = code ++ [' ', '\t'] ++ text := by
  unfold mergeKey at h
  split at h
  · exact Option.noConfusion h
  · split at h
    · exact Option.noConfusion h
    · rename_i pos hpos
      split at h
      · exact Option.noConfusion h
      · simp only [Option.some.injEq] at h
        obtain ⟨hd, hnot⟩ := findChar_spec _ _ _ hpos
        unfold repairKey at h
        split at h
        · left
          have e : (r.take pos ++ [' ']) ++ '\t' :: r.drop (pos + 1) =
              (code ++ [' ']) ++ '\t' :: text := by
            rw [hd] at h
            simpa using h
          have hx : '\t' ∉ r.take pos ++ [' '] := by
            simp only [List.mem_append, List.mem_singleton, not_or]
            exact ⟨hnot, by decide⟩
          have hx1 : '\t' ∉ code ++ [' '] := by
            simp only [List.mem_append, List.mem_singleton, not_or]
            exact ⟨htab, by decide⟩
          obtain ⟨e1, e2⟩ := append_sep_inj '\t' _ _ _ _ hx hx1 e
          have e3 : r.take pos = code := by simpa using e1
          have : r = r.take pos ++ r.drop pos := (List.take_append_drop pos r).symm
          rw [this, hd, e3, e2]
          simp
        · right
          exact h

theorem Fetch_append_cons_of_ne (pre post : Store) (key v m : Str) (h : key ≠ m) :
    Fetch (pre ++ (key, v) :: post) m = Fetch (pre ++ post) m := by
  induction pre with
  | nil => simp [Fetch, h]
  | cons p rest ih =>
    obtain ⟨a, b⟩ := p
    show (if a = m then some b else Fetch (rest ++ (key, v) :: post) m) =
      (if a = m then some b else Fetch (rest ++ post) m)
    rw [ih]

theorem foldl_mergeAt_append_cons {W : Type} (M : DoubleModel W) (tl tr tm : Nat) (k : Str)
    (pre post : Store) (rec : Str × Str) (h : mergeKey rec.1 ≠ some k) (v : Option Str) :
    (pre ++ rec :: post).foldl (mergeAt M tl tr tm k) v =
      (pre ++ post).foldl (mergeAt M tl tr tm k) v := by
  rw [List.foldl_append, List.foldl_append, List.foldl_cons]
  congr 1
  unfold mergeAt
  rw [if_neg h]

theorem foldl_mergeAt_only {W : Type} (M : DoubleModel W) (tl tr tm : Nat) (k : Str)
    (pre post : Store) (rec : Str × Str) (hrec : mergeKey rec.1 = some k)
    (hother : ∀ r ∈ pre ++ post, mergeKey r.1 ≠ some k) (v : Option Str) :
    (pre ++ rec :: post).foldl (mergeAt M tl tr tm k) v =
      some (mergeValue M tl tr tm rec.2 v) := by
  rw [List.foldl_append, List.foldl_cons,
    foldl_mergeAt_none M tl tr tm k pre (fun r hr => hother r (List.mem_append_left _ hr)),
    foldl_mergeAt_none M tl tr tm k post (fun r hr => hother r (List.mem_append_right _ hr))]
  unfold mergeAt
  rw [if_pos hrec]

theorem mergeCount_append_cons (pre post : Store) (rec : Str × Str) :
    mergeCount (pre ++ rec :: post) =
      mergeCount (pre ++ post) + (if (mergeKey rec.1).isSome = true then 1 else 0) := by
  unfold mergeCount
  simp only [List.filter_append, List.filter_cons, List.length_append]
  split
  · simp only [List.length_cons]; omega
  · omega

theorem GetDbName_congr (a b : Store) (h : Fetch a dbNameKey = Fetch b dbNameKey) :
    GetDbName a = GetDbName b := by
  unfold GetDbName
  rw [h]

theorem IsUserDb_congr (a b : Store) (h : Fetch a dbTypeKey = Fetch b dbTypeKey) :
    IsUserDb a = IsUserDb b := by
  unfold IsUserDb
  rw [h]

/-- Merging a snapshot and merging the snapshot in which one legacy key is replaced by
its well-formed counterpart give the same bindings. -/
theorem merge_legacy {W : Type} (M : DoubleModel W) (ok : Store → Str → Str → Bool)
    (hok : ∀ db k v, ok db k v = true) (user_id : Str)
    (pre post pre1 post1 : Store) (code text value : Str)
    (hcode : code ≠ []) (hend : code.getLast? ≠ some ' ') (htab : '\t' ∉ code)
    (hrest : pre ++ post = pre1 ++ post1)
    (hfresh : ∀ rec ∈ pre ++ post, rec.1 ≠ code ++ [' ', '\t'] ++ text)
    (huniq : ∀ rec ∈ pre ++ post, rec.1 ≠ code ++ ['\t'] ++ text) :
    (∀ m : Str, '\t' ∉ m →
      Fetch (pre ++ (code ++ ['\t'] ++ text, value) :: post) m =
        Fetch (pre1 ++ (code ++ [' ', '\t'] ++ text, value) :: post1) m) ∧
    ∀ (D : Store) (k : Str),
      Fetch (merge M ok user_id (pre ++ (code ++ ['\t'] ++ text, value) :: post) D).1 k =
        Fetch (merge M ok user_id
          (pre1 ++ (code ++ [' ', '\t'] ++ text, value) :: post1) D).1 k := by
  obtain ⟨hmk, hmk2⟩ := mergeKey_legacy code text hcode hend htab
  have hmeta : ∀ m : Str, '\t' ∉ m →
      Fetch (pre ++ (code ++ ['\t'] ++ text, value) :: post) m =
        Fetch (pre1 ++ (code ++ [' ', '\t'] ++ text, value) :: post1) m := by
    intro m hm
    rw [Fetch_append_cons_of_ne _ _ _ _ _ (by rintro rfl; exact hm (by simp)),
      Fetch_append_cons_of_ne _ _ _ _ _ (by rintro rfl; exact hm (by simp)), hrest]
  refine ⟨hmeta, ?_⟩
  intro D k
  have htick := GetTickCount_congr _ _ (hmeta tickKey (by decide))
  have hcount : mergeCount (pre ++ (code ++ ['\t'] ++ text, value) :: post) =
      mergeCount (pre1 ++ (code ++ [' ', '\t'] ++ text, value) :: post1) := by
    rw [mergeCount_append_cons, mergeCount_append_cons, hrest]
    simp only [hmk]
  obtain ⟨a1, _, a3⟩ := merge_metadata_ok M ok hok user_id
    (pre ++ (code ++ ['\t'] ++ text, value) :: post) D
  obtain ⟨b1, _, b3⟩ := merge_metadata_ok M ok hok user_id
    (pre1 ++ (code ++ [' ', '\t'] ++ text, value) :: post1) D
  by_cases h1 : k = tickKey
  · rw [h1, a1, b1, hcount, htick]
  by_cases h2 : k = userIdKey
  · rw [h2, a3, b3, hcount]
  rw [merge_fetch_of_ne M ok user_id _ D k h1 h2, merge_fetch_of_ne M ok user_id _ D k h1 h2,
    mergeLoop_fetch M ok hok, mergeLoop_fetch M ok hok, htick]
  simp only
  by_cases hk : mergeKey (code ++ [' ', '\t'] ++ text) = some k
  · have hkw : k = code ++ [' ', '\t'] ++ text := by
      rcases hmk2 with e | e
      · rw [e] at hk; exact Option.noConfusion hk
      · rw [e] at hk; exact (Option.some.inj hk).symm
    have hother : ∀ r ∈ pre ++ post, mergeKey r.1 ≠ some k := by
      intro r hr e
      rw [hkw] at e
      rcases mergeKey_eq_wellFormed r.1 code text htab e with e1 | e1
      · exact huniq r hr e1
      · exact hfresh r hr e1
    rw [foldl_mergeAt_only M _ _ _ k pre post _ (by rw [hmk]; exact hk) hother,
      foldl_mergeAt_only M _ _ _ k pre1 post1 _ hk (by rw [← hrest]; exact hother)]
  · rw [foldl_mergeAt_append_cons M _ _ _ k pre post _ (by rw [hmk]; exact hk),
      foldl_mergeAt_append_cons M _ _ _ k pre1 post1 _ hk, hrest]

/-- C11. Legacy key repair equivalence: let every update succeed.  Take a snapshot
that holds a record under the key `code<TAB>text`, where `code` is not empty, does not
end in a space and holds no tab, that holds this key once and does not hold the key
`code<SPACE><TAB>text`.  Then `UserDictManager::Restore` of this snapshot and of the
snapshot in which that record is stored under `code<SPACE><TAB>text` instead, at any
place of the iteration order, return the same result and leave the same binding under
every key of every dictionary. -/
theorem Restore_legacy_key_repair {W : Type} (M : DoubleModel W)
    (ok : Store → Str → Str → Bool) (hok : ∀ db k v, ok db k v = true) (user_id : Str)
    (tempOpens : Bool) (disk : Disk)
    (pre post pre1 post1 : Store) (code text value : Str)
    (hcode : code ≠ []) (hend : code.getLast? ≠ some ' ') (htab : '\t' ∉ code)
    (hrest : pre ++ post = pre1 ++ post1)
    (hfresh : ∀ rec ∈ pre ++ post, rec.1 ≠ code ++ [' ', '\t'] ++ text)
    (huniq : ∀ rec ∈ pre ++ post, rec.1 ≠ code ++ ['\t'] ++ text) :
    (UserDictManager.Restore M ok user_id tempOpens
        (some (pre ++ (code ++ ['\t'] ++ text, value) :: post)) disk).1 =
      (UserDictManager.Restore M ok user_id tempOpens
        (some (pre1 ++ (code ++ [' ', '\t'] ++ text, value) :: post1)) disk).1 ∧
    ∀ name k : Str,
      ((UserDictManager.Restore M ok user_id tempOpens
        (some (pre ++ (code ++ ['\t'] ++ text, value) :: post)) disk).2 name).map
          (fun db => Fetch db k) =
      ((UserDictManager.Restore M ok user_id tempOpens
        (some (pre1 ++ (code ++ [' ', '\t'] ++ text, value) :: post1)) disk).2 name).map
          (fun db => Fetch db k) := by
  obtain ⟨hmeta, hmerge⟩ := merge_legacy M ok hok user_id pre post pre1 post1 code text value
    hcode hend htab hrest hfresh huniq
  have hu := IsUserDb_congr _ _ (hmeta dbTypeKey (by decide))
  have hn := GetDbName_congr _ _ (hmeta dbNameKey (by decide))
  unfold UserDictManager.Restore
  cases tempOpens with
  | false => exact ⟨rfl, fun _ _ => rfl⟩
  | true =>
    simp only [Bool.true_eq_false, if_false]
    rw [hu, hn]
    split
    · exact ⟨rfl, fun _ _ => rfl⟩
    · split
      · exact ⟨rfl, fun _ _ => rfl⟩
      · split
        · exact ⟨rfl, fun _ _ => rfl⟩
        · rename_i dest hdest
          refine ⟨rfl, fun name k => ?_⟩
          by_cases hname : name = GetDbName
              (pre1 ++ (code ++ [' ', '\t'] ++ text, value) :: post1)
          · subst hname
            simp only [Function.update_same, Option.map_some', Option.some.injEq]
            exact hmerge dest k
          · simp only [Function.update_noteq hname]

theorem Restore_legacy_key_repair_witness :
    (UserDictManager.Restore wholeModel okAll "B".toList true
        (some (scenarioA_meta ++
          ("ni hao".toList ++ ['\t'] ++ "you are".toList, "c=5 d=2.0 t=2".toList) :: []))
        (diskOf "X".toList scenarioA_dest)).1 =
      (UserDictManager.Restore wholeModel okAll "B".toList true
        (some ([] ++
          ("ni hao".toList ++ [' ', '\t'] ++ "you are".toList, "c=5 d=2.0 t=2".toList) ::
            scenarioA_meta))
        (diskOf "X".toList scenarioA_dest)).1 ∧
    ∀ name k : Str,
      ((UserDictManager.Restore wholeModel okAll "B".toList true
        (some (scenarioA_meta ++
          ("ni hao".toList ++ ['\t'] ++ "you are".toList, "c=5 d=2.0 t=2".toList) :: []))
        (diskOf "X".toList scenarioA_dest)).2 name).map (fun db => Fetch db k) =
      ((UserDictManager.Restore wholeModel okAll "B".toList true
        (some ([] ++
          ("ni hao".toList ++ [' ', '\t'] ++ "you are".toList, "c=5 d=2.0 t=2".toList) ::
            scenarioA_meta))
        (diskOf "X".toList scenarioA_dest)).2 name).map (fun db => Fetch db k) :=
  Restore_legacy_key_repair wholeModel okAll okAll_ok "B".toList true
    (diskOf "X".toList scenarioA_dest) scenarioA_meta [] [] scenarioA_meta
    "ni hao".toList "you are".toList "c=5 d=2.0 t=2".toList
    (by decide) (by decide) (by decide) (by decide) (by decide) (by decide)

/-- The binding that `Restore` leaves under the merge key of a source record that is
the only one with that merge key. -/
theorem Restore_single {W : Type} (M : DoubleModel W)
    (ok : Store → Str → Str → Bool) (hok : ∀ db k v, ok db k v = true) (user_id : Str)
    (pre post dest : Store) (disk : Disk) (key right k : Str)
    (hvalid : IsUserDb (pre ++ (key, right) :: post) = true)
    (hname : GetDbName (pre ++ (key, right) :: post) ≠ [])
    (hdest : disk (GetDbName (pre ++ (key, right) :: post)) = some dest)
    (hkey : mergeKey key = some k)
    (hother : ∀ r ∈ pre ++ post, mergeKey r.1 ≠ some k) :
    ∃ dest1,
      (UserDictManager.Restore M ok user_id true (some (pre ++ (key, right) :: post)) disk).2
        (GetDbName (pre ++ (key, right) :: post)) = some dest1 ∧
      Fetch dest1 k =
        some (mergeValue M (GetTickCount dest) (GetTickCount (pre ++ (key, right) :: post))
          (max (GetTickCount dest) (GetTickCount (pre ++ (key, right) :: post))) right
          (Fetch dest k)) := by
  refine ⟨(merge M ok user_id (pre ++ (key, right) :: post) dest).1, ?_, ?_⟩
  · rw [Restore_success M ok user_id _ dest disk hvalid hname hdest]
    simp
  · rw [merge_fetch_of_ne M ok user_id _ dest k (mergeKey_ne_tickKey key k hkey)
      (mergeKey_ne_userIdKey key k hkey), mergeLoop_fetch M ok hok]
    exact foldl_mergeAt_only M _ _ _ k pre post (key, right) hkey hother _

/-- C12 fails on the code: the snapshot `weight_src` holds a record with weight -2 that
is not decayed, and the destination does not hold its key; after
`UserDictManager::Restore` the destination's record has the weight -2, not the larger
of -2 and 0. -/
theorem Restore_weight_counterexample :
    Fetch scenarioA_dest "ni hao \thello".toList = none ∧
    ((UserDictManager.Restore intModel okAll "B".toList true (some weight_src)
        (diskOf "X".toList scenarioA_dest)).2 "X".toList).bind
      (fun db => Fetch db "ni hao \thello".toList) = some "c=1 d=-2 t=3".toList ∧
    (UnpackValues intModel "c=1 d=-2 t=3".toList).2.1 = -2 ∧
    decayTo intModel (GetTickCount weight_src) (-2) 3 = -2 ∧
    intModel.max (decayTo intModel (GetTickCount weight_src) (-2) 3) intModel.zero = 0 := by
  decide

theorem intModel_fmtNoSpace : intModel.FmtNoSpace := fun d => showInt_no_space d

/-- C12, as the code has it: let every update succeed, let the snapshot validate and
the destination open.  For a source record whose key is not a metadata key and has its
first tab at position 1 or later, and which is the only source record merged under its
repaired key, let `d_r'` be its weight decayed from its tick to the source tick when
that tick is older, and unchanged otherwise.  After `UserDictManager::Restore` the
destination record is written with the weight `max d_r' d_l'` when the destination held
the key, `d_l'` being the destination weight decayed likewise to the destination
tick, and with the weight `d_r'` itself when the destination did not hold the key.
The weight read back is the written weight as rendered and unpacked again. -/
theorem Restore_merged_weight {W : Type} (M : DoubleModel W) (hM : M.FmtNoSpace)
    (ok : Store → Str → Str → Bool) (hok : ∀ db k v, ok db k v = true) (user_id : Str)
    (pre post dest : Store) (disk : Disk) (key right : Str) (pos : Nat)
    (hvalid : IsUserDb (pre ++ (key, right) :: post) = true)
    (hname : GetDbName (pre ++ (key, right) :: post) ≠ [])
    (hdest : disk (GetDbName (pre ++ (key, right) :: post)) = some dest)
    (hmeta : startsWith key metaPrefix = false)
    (htab : findChar '\t' key = some pos) (hpos : 1 ≤ pos)
    (hother : ∀ r ∈ pre ++ post, mergeKey r.1 ≠ some (repairKey key pos)) :
    ∃ dest1 v,
      (UserDictManager.Restore M ok user_id true (some (pre ++ (key, right) :: post)) disk).2
        (GetDbName (pre ++ (key, right) :: post)) = some dest1 ∧
      Fetch dest1 (repairKey key pos) = some v ∧
      (∀ left, Fetch dest (repairKey key pos) = some left →
        (∃ c, v = formatValue M c
          (M.max
            (decayTo M (GetTickCount (pre ++ (key, right) :: post))
              (UnpackValues M right).2.1 (UnpackValues M right).2.2)
            (decayTo M (GetTickCount dest)
              (UnpackValues M left).2.1 (UnpackValues M left).2.2))
          (max (GetTickCount dest) (GetTickCount (pre ++ (key, right) :: post)))) ∧
        (UnpackValues M v).2.1 = M.reparse
          (M.max
            (decayTo M (GetTickCount (pre ++ (key, right) :: post))
              (UnpackValues M right).2.1 (UnpackValues M right).2.2)
            (decayTo M (GetTickCount dest)
              (UnpackValues M left).2.1 (UnpackValues M left).2.2))) ∧
      (Fetch dest (repairKey key pos) = none →
        (∃ c, v = formatValue M c
          (decayTo M (GetTickCount (pre ++ (key, right) :: post))
            (UnpackValues M right).2.1 (UnpackValues M right).2.2)
          (max (GetTickCount dest) (GetTickCount (pre ++ (key, right) :: post)))) ∧
        (UnpackValues M v).2.1 = M.reparse
          (decayTo M (GetTickCount (pre ++ (key, right) :: post))
            (UnpackValues M right).2.1 (UnpackValues M right).2.2)) := by
  have hkey := mergeKey_of_tab key pos hmeta htab hpos
  have htm : max (GetTickCount dest) (GetTickCount (pre ++ (key, right) :: post)) < 2 ^ 64 :=
    max_lt (GetTickCount_range dest) (GetTickCount_range _)
  obtain ⟨dest1, h1, h2⟩ := Restore_single M ok hok user_id pre post dest disk key right _
    hvalid hname hdest hkey hother
  refine ⟨dest1, _, h1, h2, ?_, ?_⟩
  · intro left hleft
    rw [hleft, mergeValue_some]
    refine ⟨⟨_, rfl⟩, ?_⟩
    rw [UnpackValues_formatValue M hM _ _ _
      (InIntRange_max _ _ (UnpackValues_range M right).1 (UnpackValues_range M left).1) htm]
  · intro hnone
    rw [hnone, mergeValue_none]
    refine ⟨⟨_, rfl⟩, ?_⟩
    rw [UnpackValues_formatValue M hM _ _ _ (UnpackValues_range M right).1 htm]

theorem Restore_merged_weight_witness :
    ∃ dest1 v,
      (UserDictManager.Restore intModel okAll "B".toList true
        (some (scenarioA_meta ++ ("ni hao \thello".toList, "c=1 d=-2 t=3".toList) :: []))
        (diskOf "X".toList scenarioA_dest)).2
        (GetDbName
          (scenarioA_meta ++ ("ni hao \thello".toList, "c=1 d=-2 t=3".toList) :: [])) =
        some dest1 ∧
      Fetch dest1 (repairKey "ni hao \thello".toList 7) = some v ∧
      (∀ left, Fetch scenarioA_dest (repairKey "ni hao \thello".toList 7) = some left →
        (∃ c, v = formatValue intModel c
          (intModel.max
            (decayTo intModel
              (GetTickCount
                (scenarioA_meta ++ ("ni hao \thello".toList, "c=1 d=-2 t=3".toList) :: []))
              (UnpackValues intModel "c=1 d=-2 t=3".toList).2.1
              (UnpackValues intModel "c=1 d=-2 t=3".toList).2.2)
            (decayTo intModel (GetTickCount scenarioA_dest)
              (UnpackValues intModel left).2.1 (UnpackValues intModel left).2.2))
          (max (GetTickCount scenarioA_dest)
            (GetTickCount
              (scenarioA_meta ++
                ("ni hao \thello".toList, "c=1 d=-2 t=3".toList) :: [])))) ∧
        (UnpackValues intModel v).2.1 = intModel.reparse
          (intModel.max
            (decayTo intModel
              (GetTickCount
                (scenarioA_meta ++ ("ni hao \thello".toList, "c=1 d=-2 t=3".toList) :: []))
              (UnpackValues intModel "c=1 d=-2 t=3".toList).2.1
              (UnpackValues intModel "c=1 d=-2 t=3".toList).2.2)
            (decayTo intModel (GetTickCount scenarioA_dest)
              (UnpackValues intModel left).2.1 (UnpackValues intModel left).2.2))) ∧
      (Fetch scenarioA_dest (repairKey "ni hao \thello".toList 7) = none →
        (∃ c, v = formatValue intModel c
          (decayTo intModel
            (GetTickCount
              (scenarioA_meta ++ ("ni hao \thello".toList, "c=1 d=-2 t=3".toList) :: []))
            (UnpackValues intModel "c=1 d=-2 t=3".toList).2.1
            (UnpackValues intModel "c=1 d=-2 t=3".toList).2.2)
          (max (GetTickCount scenarioA_dest)
            (GetTickCount
              (scenarioA_meta ++
                ("ni hao \thello".toList, "c=1 d=-2 t=3".toList) :: [])))) ∧
        (UnpackValues intModel v).2.1 = intModel.reparse
          (decayTo intModel
            (GetTickCount
              (scenarioA_meta ++ ("ni hao \thello".toList, "c=1 d=-2 t=3".toList) :: []))
            (UnpackValues intModel "c=1 d=-2 t=3".toList).2.1
            (UnpackValues intModel "c=1 d=-2 t=3".toList).2.2)) :=
  Restore_merged_weight intModel intModel_fmtNoSpace okAll okAll_ok "B".toList
    scenarioA_meta [] scenarioA_dest (diskOf "X".toList scenarioA_dest)
    "ni hao \thello".toList "c=1 d=-2 t=3".toList 7
    (by decide) (by decide) (by decide) (by decide) (by decide) (by decide) (by decide)

/-- The lines that `Import` skips. -/
theorem importEntry_none_iff (line : Str) :
    importEntry line = none ↔
      (line = [] ∨ line.head? = some '#' ∨ (split '\t' line).length < 2 ∨
        (split '\t' line).get? 0 = some [] ∨ (split '\t' line).get? 1 = some []) := by
  unfold importEntry
  by_cases h : line = [] ∨ line.head? = some '#'
  · rw [if_pos h]
    simp only [true_iff]
    rcases h with h | h
    · exact Or.inl h
    · exact Or.inr (Or.inl h)
  · rw [if_neg h]
    have h1 : line ≠ [] := fun e => h (Or.inl e)
    have h2 : line.head? ≠ some '#' := fun e => h (Or.inr e)
    cases hs : split '\t' line with
    | nil => simp
    | cons row0 t =>
      cases t with
      | nil => simp
      | cons row1 rest =>
        simp only [List.length_cons, List.get?_cons_zero, List.get?_cons_succ,
          Option.some.injEq, h1, h2, false_or]
        by_cases he : row0 = [] ∨ row1 = []
        · rw [if_pos he]
          simp only [true_iff]
          rcases he with he | he
          · exact Or.inr (Or.inl he)
          · exact Or.inr (Or.inr he)
        · rw [if_neg he]
          simp only [reduceCtorEq, false_iff, not_or]
          exact ⟨by omega, fun e => he (Or.inl e), fun e => he (Or.inr e)⟩

theorem importStep_skip {W : Type} (M : DoubleModel W) (ok : Store → Str → Str → Bool)
    (st : Store × Nat) (line : Str) (h : importEntry line = none) :
    importStep M ok st line = st := by
  unfold importStep
  rw [h]

theorem importStep_frame {W : Type} (M : DoubleModel W) (ok : Store → Str → Str → Bool)
    (st : Store × Nat) (line k : Str)
    (h : ∀ key delta, importEntry line = some (key, delta) → key ≠ k) :
    Fetch (importStep M ok st line).1 k = Fetch st.1 k := by
  rw [importStep_fst]
  cases he : importEntry line with
  | none => rfl
  | some e =>
    obtain ⟨key, delta⟩ := e
    exact Fetch_Update_of_ne ok _ _ _ _ (h key delta he)

theorem importLoop_frame {W : Type} (M : DoubleModel W) (ok : Store → Str → Str → Bool)
    (k : Str) (lines : List Str)
    (h : ∀ line ∈ lines, ∀ key delta, importEntry line = some (key, delta) → key ≠ k) :
    ∀ st : Store × Nat, Fetch (lines.foldl (importStep M ok) st).1 k = Fetch st.1 k := by
  induction lines with
  | nil => intro st; rfl
  | cons line rest ih =>
    intro st
    simp only [List.foldl_cons]
    rw [ih (fun l hl => h l (List.mem_cons_of_mem _ hl))]
    exact importStep_frame M ok st line k (h line (List.mem_cons_self _ _))

/-- The counter across one iteration of the loop of `Import`: it grows by one exactly
when the line is accepted and the update succeeds. -/
theorem importStep_count {W : Type} (M : DoubleModel W) (ok : Store → Str → Str → Bool)
    (st : Store × Nat) (line : Str) :
    (importEntry line = none → (importStep M ok st line).2 = st.2) ∧
    (∀ key delta, importEntry line = some (key, delta) →
      (importStep M ok st line).2 =
        st.2 + (if ok st.1 key (importValue M delta (Fetch st.1 key)) = true then 1 else 0)) := by
  constructor
  · intro h
    rw [importStep_skip M ok st line h]
  · intro key delta h
    unfold importStep
    rw [h]
    simp only [Update]
    split <;> rfl

theorem importLoop_count_le {W : Type} (M : DoubleModel W) (ok : Store → Str → Str → Bool)
    (lines : List Str) :
    ∀ st : Store × Nat,
      (lines.foldl (importStep M ok) st).2 ≤
        st.2 + (lines.filter (fun l => (importEntry l).isSome)).length := by
  induction lines with
  | nil => intro st; simp
  | cons line rest ih =>
    intro st
    simp only [List.foldl_cons, List.filter_cons]
    refine le_trans (ih _) ?_
    obtain ⟨c1, c2⟩ := importStep_count M ok st line
    cases he : importEntry line with
    | none =>
      rw [c1 he]
      simp
    | some e =>
      obtain ⟨key, delta⟩ := e
      rw [c2 key delta he]
      simp only [Option.isSome_some, if_true, List.length_cons]
      split <;> omega

theorem importLoop_count_ok {W : Type} (M : DoubleModel W) (ok : Store → Str → Str → Bool)
    (hok : ∀ db k v, ok db k v = true) (lines : List Str) :
    ∀ st : Store × Nat,
      (lines.foldl (importStep M ok) st).2 =
        st.2 + (lines.filter (fun l => (importEntry l).isSome)).length := by
  induction lines with
  | nil => intro st; simp
  | cons line rest ih =>
    intro st
    simp only [List.foldl_cons, List.filter_cons]
    rw [ih]
    obtain ⟨c1, c2⟩ := importStep_count M ok st line
    cases he : importEntry line with
    | none =>
      rw [c1 he]
      simp
    | some e =>
      obtain ⟨key, delta⟩ := e
      rw [c2 key delta he]
      simp only [hok, Option.isSome_some, if_true, List.length_cons]
      omega

/-- C14. Import filtering and result: `UserDictManager::Import` returns -1 and leaves
the store as it was if the store does not open or its `db_type` is not `userdb`.
Otherwise it runs its loop over every line of the file: a blank line, a line that
begins with `#`, and a line with fewer than two tab-separated fields or with an empty
first or second field (these are exactly the lines that are not accepted) leave the
store and the counter as they were; a key that no accepted line addresses keeps its
binding; the counter grows by one for an accepted line exactly when its update
succeeds, so the result is at most the number of accepted lines and equals it when
every update succeeds. -/
theorem Import_filtering {W : Type} (M : DoubleModel W) (ok : Store → Str → Str → Bool) :
    (∀ text : Str, UserDictManager.Import M ok none text = (-1, none)) ∧
    (∀ (db : Store) (text : Str), Fetch db dbTypeKey ≠ some "userdb".toList →
      UserDictManager.Import M ok (some db) text = (-1, some db)) ∧
    (∀ line : Str, importEntry line = none ↔
      (line = [] ∨ line.head? = some '#' ∨ (split '\t' line).length < 2 ∨
        (split '\t' line).get? 0 = some [] ∨ (split '\t' line).get? 1 = some [])) ∧
    (∀ (st : Store × Nat) (line : Str), importEntry line = none →
      importStep M ok st line = st) ∧
    (∀ (st : Store × Nat) (line key : Str) (delta : Int),
      importEntry line = some (key, delta) →
      (importStep M ok st line).2 =
        st.2 + (if ok st.1 key (importValue M delta (Fetch st.1 key)) = true then 1 else 0)) ∧
    (∀ (db : Store) (text : Str), Fetch db dbTypeKey = some "userdb".toList →
      UserDictManager.Import M ok (some db) text =
        ((((getlines text).foldl (importStep M ok) (db, 0)).2 : Int),
          some ((getlines text).foldl (importStep M ok) (db, 0)).1) ∧
      (∀ k : Str,
        (∀ line ∈ getlines text, ∀ key delta, importEntry line = some (key, delta) →
          key ≠ k) →
        Fetch ((getlines text).foldl (importStep M ok) (db, 0)).1 k = Fetch db k) ∧
      ((getlines text).foldl (importStep M ok) (db, 0)).2 ≤
        ((getlines text).filter (fun l => (importEntry l).isSome)).length ∧
      ((∀ db k v, ok db k v = true) →
        ((getlines text).foldl (importStep M ok) (db, 0)).2 =
          ((getlines text).filter (fun l => (importEntry l).isSome)).length)) := by
  refine ⟨fun _ => rfl, ?_, importEntry_none_iff, importStep_skip M ok,
    fun st line key delta h => (importStep_count M ok st line).2 key delta h, ?_⟩
  · intro db text h
    have hu : IsUserDb db = false := by
      cases hb : IsUserDb db
      · rfl
      · exact absurd ((IsUserDb_iff db).1 hb) h
    unfold UserDictManager.Import
    simp only [hu, if_true]
  · intro db text h
    refine ⟨Import_ok M ok db text ((IsUserDb_iff db).2 h), ?_, ?_, ?_⟩
    · intro k hk
      exact importLoop_frame M ok k (getlines text) hk (db, 0)
    · have := importLoop_count_le M ok (getlines text) (db, 0)
      simpa using this
    · intro hok
      have := importLoop_count_ok M ok hok (getlines text) (db, 0)
      simpa using this

/-- C15 fails on the code: the snapshot `spaced_src` holds a record whose key has two
spaces before its tab; `UserDictManager::Restore` writes the record under that very
key into a destination whose record keys were all well spaced, and the key is not well
spaced. -/
theorem Restore_spacing_counterexample :
    wellSpaced "ni hao \thello".toList = true ∧
    Fetch tombstone_dest "ni hao  \thello".toList = none ∧
    mergeKey "ni hao  \thello".toList = some "ni hao  \thello".toList ∧
    ((UserDictManager.Restore wholeModel okAll "B".toList true (some spaced_src)
        (diskOf "X".toList tombstone_dest)).2 "X".toList).bind
      (fun db => Fetch db "ni hao  \thello".toList) = some "c=1 d=0 t=2".toList ∧
    wellSpaced "ni hao  \thello".toList = false := by
  decide

theorem wellSpaced_iff (k : Str) (pos : Nat) (h : findChar '\t' k = some pos) :
    wellSpaced k = true ↔
      (pos ≠ 0 ∧ k.get? (pos - 1) = some ' ' ∧ (pos < 2 ∨ k.get? (pos - 2) ≠ some ' ')) := by
  unfold wellSpaced
  rw [h]
  simp [Bool.and_eq_true, Bool.or_eq_true, and_assoc]

theorem doubleSpaced_iff (k : Str) (pos : Nat) (h : findChar '\t' k = some pos) :
    doubleSpaced k = true ↔
      (2 ≤ pos ∧ k.get? (pos - 1) = some ' ' ∧ k.get? (pos - 2) = some ' ') := by
  unfold doubleSpaced
  rw [h]
  simp [Bool.and_eq_true, and_assoc]

/-- The keys under which the merge writes: a space stands before the first tab, which
is not at position 0, and the key is well spaced exactly when the source key did not
have two spaces before its tab. -/
theorem mergeKey_spacing (key k : Str) (h : mergeKey key = some k) :
    (∃ pos, findChar '\t' k = some pos ∧ 1 ≤ pos ∧ k.get? (pos - 1) = some ' ') ∧
      (wellSpaced k = true ↔ doubleSpaced key = false) := by
  unfold mergeKey at h
  split at h
  · exact Option.noConfusion h
  · split at h
    · exact Option.noConfusion h
    · rename_i pos hpos
      split at h
      · exact Option.noConfusion h
      · rename_i hpos0
        simp only [Option.some.injEq] at h
        obtain ⟨hd, hnot⟩ := findChar_spec _ _ _ hpos
        have hlt : pos < key.length := by
          by_contra hge
          rw [List.drop_of_length_le (by omega)] at hd
          exact List.noConfusion hd
        have hlen : (key.take pos).length = pos := by
          rw [List.length_take]; omega
        unfold repairKey at h
        split at h
        · rename_i hsp
          -- a space is inserted
          have hk : k = (key.take pos ++ [' ']) ++ '\t' :: key.drop (pos + 1) := by
            rw [← h, hd]; simp
          have hx : '\t' ∉ key.take pos ++ [' '] := by
            simp only [List.mem_append, List.mem_singleton, not_or]
            exact ⟨hnot, by decide⟩
          have hf : findChar '\t' k = some (pos + 1) := by
            rw [hk, findChar_append _ _ _ hx]
            simp [hlen]
          have hg1 : k.get? (pos + 1 - 1) = some ' ' := by
            rw [hk, List.append_assoc, List.get?_eq_getElem?, Nat.add_sub_cancel,
              List.getElem?_append_right (by omega), hlen]
            simp
          have hg2 : k.get? (pos + 1 - 2) = key.get? (pos - 1) := by
            rw [hk, List.append_assoc, List.get?_eq_getElem?, List.get?_eq_getElem?,
              show pos + 1 - 2 = pos - 1 by omega,
              List.getElem?_append_left (by omega), List.getElem?_take_of_lt (by omega)]
          refine ⟨⟨pos + 1, hf, by omega, hg1⟩, ?_⟩
          have hw : wellSpaced k = true := by
            rw [wellSpaced_iff k _ hf]
            exact ⟨by omega, hg1, Or.inr (by rw [hg2]; exact hsp)⟩
          have hdb : doubleSpaced key = false := by
            cases hb : doubleSpaced key with
            | false => rfl
            | true => exact absurd ((doubleSpaced_iff key pos hpos).1 hb).2.1 hsp
          simp [hw, hdb]
        · rename_i hsp
          have hsp1 : key.get? (pos - 1) = some ' ' := by
            by_contra hne
            exact hsp hne
          subst h
          refine ⟨⟨pos, hpos, by omega, hsp1⟩, ?_⟩
          rw [wellSpaced_iff key pos hpos, ← Bool.not_eq_true, doubleSpaced_iff key pos hpos]
          constructor
          · rintro ⟨_, _, h3⟩ ⟨h4, _, h5⟩
            rcases h3 with h3 | h3
            · omega
            · exact h3 h5
          · intro hn
            refine ⟨hpos0, hsp1, ?_⟩
            by_cases h2 : pos < 2
            · exact Or.inl h2
            · right
              intro h5
              exact hn ⟨by omega, hsp1, h5⟩

theorem splitCompress_ne_nil (sep : Char) (s : Str) : splitCompress sep s ≠ [] := by
  induction s with
  | nil => simp [splitCompress]
  | cons c cs ih =>
    unfold splitCompress
    split
    · split
      · exact ih
      · simp
    · cases splitCompress sep cs <;> simp [consHead]

theorem join_consHead (c : Char) (L : List Str) (sep : Str) (h : L ≠ []) :
    join (consHead c L) sep = c :: join L sep := by
  cases L with
  | nil => exact absurd rfl h
  | cons a r => cases r <;> simp [consHead, join, List.intercalate]

theorem join_nil_cons (L : List Str) (sep : Str) (h : L ≠ []) :
    join ([] :: L) sep = sep ++ join L sep := by
  cases L with
  | nil => exact absurd rfl h
  | cons a r => simp [join, List.intercalate]

/-- Compressing the runs of spaces of a string keeps its characters, apart from
spaces, and keeps its last character when that is not a space. -/
theorem join_splitCompress (t : Str) :
    (∀ x ∈ join (splitCompress ' ' t) [' '], x = ' ' ∨ x ∈ t) ∧
    (t ≠ [] → t.getLast? ≠ some ' ' →
      (join (splitCompress ' ' t) [' ']).getLast? = t.getLast?) := by
  induction t with
  | nil => simp [splitCompress, join, List.intercalate]
  | cons c cs ih =>
    obtain ⟨ih1, ih2⟩ := ih
    have hne := splitCompress_ne_nil ' ' cs
    constructor
    · intro x hx
      unfold splitCompress at hx
      split at hx
      · split at hx
        · rcases ih1 x hx with e | e
          · exact Or.inl e
          · exact Or.inr (List.mem_cons_of_mem _ e)
        · rw [join_nil_cons _ _ hne] at hx
          rcases List.mem_append.mp hx with e | e
          · left; simpa using e
          · rcases ih1 x e with e | e
            · exact Or.inl e
            · exact Or.inr (List.mem_cons_of_mem _ e)
      · rw [join_consHead _ _ _ hne] at hx
        rcases List.mem_cons.mp hx with e | e
        · right; rw [e]; exact List.mem_cons_self _ _
        · rcases ih1 x e with e | e
          · exact Or.inl e
          · exact Or.inr (List.mem_cons_of_mem _ e)
    · intro _ hlast
      have hsc : splitCompress ' ' (c :: cs) =
          (if c = ' ' then
            (if cs.head? = some ' ' then splitCompress ' ' cs else [] :: splitCompress ' ' cs)
          else consHead c (splitCompress ' ' cs)) := rfl
      by_cases hcsne : cs = []
      · subst hcsne
        have hc : c ≠ ' ' := by
          intro e; apply hlast; rw [e]; rfl
        simp [splitCompress, hc, consHead, join, List.intercalate]
      · have hl : (c :: cs).getLast? = cs.getLast? := by
          cases cs with
          | nil => exact absurd rfl hcsne
          | cons d ds => simp [List.getLast?_cons_cons]
        rw [hl] at hlast ⊢
        have ih3 := ih2 hcsne hlast
        have hjne : join (splitCompress ' ' cs) [' '] ≠ [] := by
          intro e
          rw [e] at ih3
          exact hcsne (List.getLast?_eq_none_iff.mp ih3.symm)
        rw [← ih3, hsc]
        split
        · split
          · rfl
          · rw [join_nil_cons _ _ hne]
            exact List.getLast?_append_of_ne_nil _ hjne
        · rw [join_consHead _ _ _ hne]
          cases hj : join (splitCompress ' ' cs) [' '] with
          | nil => exact absurd hj hjne
          | cons a r => simp [List.getLast?_cons_cons]

theorem trim_spec (t : Str) :
    (∀ x ∈ trim t, x ∈ t) ∧ (trim t).getLast? ≠ some ' ' := by
  constructor
  · intro x hx
    unfold trim at hx
    rw [List.mem_reverse] at hx
    have h1 := (List.dropWhile_sublist isSpace).subset hx
    rw [List.mem_reverse] at h1
    exact (List.dropWhile_sublist isSpace).subset h1
  · unfold trim
    rw [List.getLast?_reverse]
    intro h
    have := List.head?_dropWhile_not isSpace (List.dropWhile isSpace t).reverse
    rw [h] at this
    simp only at this
    revert this
    decide

/-- The keys that `Import` addresses: a code without tab that does not end in a space,
one space, a tab, the text. -/
theorem importEntry_key (line key : Str) (delta : Int)
    (h : importEntry line = some (key, delta)) :
    ∃ code text, key = code ++ [' ', '\t'] ++ text ∧ '\t' ∉ code ∧
      code.getLast? ≠ some ' ' := by
  unfold importEntry at h
  split at h
  · exact Option.noConfusion h
  · split at h
    · rename_i row0 row1 rest hs
      split at h
      · exact Option.noConfusion h
      · simp only [Option.some.injEq, Prod.mk.injEq] at h
        have hmem : row1 ∈ split '\t' line := by rw [hs]; simp
        have htab : '\t' ∉ row1 := (split_spec '\t' line).1 row1 hmem
        obtain ⟨ht1, ht2⟩ := trim_spec row1
        refine ⟨_, row0, h.1.symm, ?_, ?_⟩
        · split
          · intro hx
            rcases (join_splitCompress (trim row1)).1 _ hx with e | e
            · exact absurd e (by decide)
            · exact htab (ht1 _ e)
          · intro hx
            exact htab (ht1 _ hx)
        · split
          · rename_i hne
            rw [(join_splitCompress (trim row1)).2 hne ht2]
            exact ht2
          · exact ht2
    · exact Option.noConfusion h

theorem wellSpaced_of_code (code text : Str) (htab : '\t' ∉ code)
    (hlast : code.getLast? ≠ some ' ') : wellSpaced (code ++ [' ', '\t'] ++ text) = true := by
  have hf : findChar '\t' (code ++ [' ', '\t'] ++ text) = some (code.length + 1) := by
    have e : code ++ [' ', '\t'] ++ text = (code ++ [' ']) ++ '\t' :: text := by simp
    rw [e, findChar_append]
    · simp
    · intro hx
      rcases List.mem_append.mp hx with e | e
      · exact htab e
      · simp at e
  rw [wellSpaced_iff _ _ hf]
  refine ⟨by omega, ?_, ?_⟩
  · simp only [Nat.add_sub_cancel, List.append_assoc, List.get?_eq_getElem?]
    rw [List.getElem?_append_right (le_refl _)]
    simp
  · by_cases hc : code = []
    · left; rw [hc]; simp
    · right
      have e : code.length + 1 - 2 = code.length - 1 := by omega
      have hl : 0 < code.length := List.length_pos.mpr hc
      rw [e, List.append_assoc, List.get?_eq_getElem?,
        List.getElem?_append_left (by omega), ← List.getLast?_eq_getElem?]
      exact hlast

theorem RecordKeysOK_of_all (db : Store)
    (h : db.all (fun r => startsWith r.1 metaPrefix || wellSpaced r.1) = true) :
    RecordKeysOK db := by
  induction db with
  | nil => intro k hk; exact absurd rfl hk
  | cons p rest ih =>
    obtain ⟨a, b⟩ := p
    simp only [List.all_cons, Bool.and_eq_true, Bool.or_eq_true] at h
    intro k hk
    unfold Fetch at hk
    by_cases e : a = k
    · rw [← e]; exact h.1
    · simp only [e, if_false] at hk
      exact ih (by simpa using h.2) k hk

theorem Import_keeps_spacing {W : Type} (M : DoubleModel W) (ok : Store → Str → Str → Bool)
    (db : Store) (text : Str) (n : Int) (db1 : Store) (hdb : RecordKeysOK db)
    (h : UserDictManager.Import M ok (some db) text = (n, some db1)) : RecordKeysOK db1 := by
  unfold UserDictManager.Import at h
  simp only at h
  split at h
  · simp only [Prod.mk.injEq, Option.some.injEq] at h
    rw [← h.2]; exact hdb
  · simp only [Prod.mk.injEq, Option.some.injEq] at h
    rw [← h.2]
    intro k hk
    by_cases hw : ∃ line ∈ getlines text, ∃ delta, importEntry line = some (k, delta)
    · obtain ⟨line, _, delta, he⟩ := hw
      obtain ⟨code, t, rfl, h1, h2⟩ := importEntry_key line k delta he
      exact Or.inr (wellSpaced_of_code code t h1 h2)
    · rw [importLoop_frame M ok k (getlines text) (fun line hl key delta he e =>
        hw ⟨line, hl, delta, by rw [he, e]⟩) (db, 0)] at hk
      exact hdb k hk

theorem merge_keeps_spacing {W : Type} (M : DoubleModel W) (ok : Store → Str → Str → Bool)
    (user_id : Str) (temp dest : Store) (hsrc : ∀ rec ∈ temp, doubleSpaced rec.1 = false)
    (hdb : RecordKeysOK dest) : RecordKeysOK (merge M ok user_id temp dest).1 := by
  intro k hk
  by_cases hw : ∃ rec ∈ temp, mergeKey rec.1 = some k
  · obtain ⟨rec, hrec, hm⟩ := hw
    exact Or.inr ((mergeKey_spacing rec.1 k hm).2.2 (hsrc rec hrec))
  · by_cases h1 : k = tickKey
    · left; rw [h1]; decide
    · by_cases h2 : k = userIdKey
      · left; rw [h2]; decide
      · rw [merge_frame M ok user_id temp dest k h1 h2
          (fun rec hrec e => hw ⟨rec, hrec, e⟩)] at hk
        exact hdb k hk

/-- C15, amended. Every key under which the merge of `UserDictManager::Restore` writes
contains a tab, its first tab is not at position 0 and the character before it is a
space; the character before that is a space exactly when the source key already had
two spaces before its first tab. Every key that `UserDictManager::Import` writes is
well spaced. Hence a store whose record keys are all well spaced stays so under
`Import`, and under `Restore` of a snapshot none of whose keys has two spaces before
its first tab. -/
theorem spacing_invariant {W : Type} (M : DoubleModel W) (ok : Store → Str → Str → Bool) :
    (∀ key k, mergeKey key = some k →
      (∃ pos, findChar '\t' k = some pos ∧ 1 ≤ pos ∧ k.get? (pos - 1) = some ' ') ∧
      (wellSpaced k = true ↔ doubleSpaced key = false)) ∧
    (∀ line key delta, importEntry line = some (key, delta) → wellSpaced key = true) ∧
    (∀ db text n db1, RecordKeysOK db →
      UserDictManager.Import M ok (some db) text = (n, some db1) → RecordKeysOK db1) ∧
    (∀ user_id tempOpens snapshot disk name db db1,
      (∀ temp, snapshot = some temp → ∀ rec ∈ temp, doubleSpaced rec.1 = false) →
      disk name = some db → RecordKeysOK db →
      (UserDictManager.Restore M ok user_id tempOpens snapshot disk).2 name = some db1 →
      RecordKeysOK db1) := by
  refine ⟨mergeKey_spacing, ?_, ?_, ?_⟩
  · intro line key delta h
    obtain ⟨code, t, rfl, h1, h2⟩ := importEntry_key line key delta h
    exact wellSpaced_of_code code t h1 h2
  · intro db text n db1 hdb h
    exact Import_keeps_spacing M ok db text n db1 hdb h
  · intro user_id tempOpens snapshot disk name db db1 hsrc hdisk hdb h
    rcases Restore_disk M ok user_id tempOpens snapshot disk name db hdisk with e | e
    · rw [e] at h
      simp only [Option.some.injEq] at h
      rw [← h]; exact hdb
    · obtain ⟨temp, hs, _, e⟩ := e
      rw [e] at h
      simp only [Option.some.injEq] at h
      rw [← h]
      exact merge_keeps_spacing M ok user_id temp db (hsrc temp hs) hdb

/-- Scenario A merged into a store with one well spaced record, and Scenario C imported
into an empty store: the record keys of the results are well spaced. -/
theorem spacing_invariant_witness :
    RecordKeysOK (merge wholeModel okAll "B".toList scenarioA_src tombstone_dest).1 ∧
    Fetch (merge wholeModel okAll "B".toList scenarioA_src tombstone_dest).1
      "ni hao \tyou are".toList ≠ none ∧
    RecordKeysOK
      ((getlines scenarioC_text).foldl (importStep wholeModel okAll) (scenarioC_db, 0)).1 ∧
    wellSpaced "ni hao \thello".toList = true :=
  ⟨(spacing_invariant wholeModel okAll).2.2.2 "B".toList true (some scenarioA_src)
      (diskOf "X".toList tombstone_dest) "X".toList tombstone_dest _
      (fun temp ht => by
        simp only [Option.some.injEq] at ht
        rw [← ht]; decide)
      (by decide) (RecordKeysOK_of_all _ (by decide)) (by decide),
   by decide,
   (spacing_invariant wholeModel okAll).2.2.1 scenarioC_db scenarioC_text 2 _
      (RecordKeysOK_of_all _ (by decide)) (by decide),
   (spacing_invariant wholeModel okAll).2.1 "hello\tni  hao\t5".toList
      "ni hao \thello".toList 5 (by decide)⟩

theorem findChar_of_not_mem (c : Char) (s : Str) (h : c ∉ s) : findChar c s = none := by
  induction s with
  | nil => rfl
  | cons x xs ih =>
    have h1 : x ≠ c := fun e => h (by simp [e])
    have h2 : c ∉ xs := fun e => h (by simp [e])
    simp [findChar, h1, ih h2]

theorem mergeKey_skipped (key : Str) (h : Skipped key) : mergeKey key = none := by
  unfold mergeKey
  rcases h with h | h | h
  · rw [if_pos h]
  · rw [findChar_of_not_mem _ _ h]
    split <;> rfl
  · rw [h]
    split <;> rfl

theorem mergeStep_skipped {W : Type} (M : DoubleModel W) (ok : Store → Str → Str → Bool)
    (tl tr tm : Nat) (st : Store × Nat) (rec : Str × Str) (h : Skipped rec.1) :
    mergeStep M ok tl tr tm st rec = st := by
  unfold mergeStep
  rw [mergeKey_skipped rec.1 h]

theorem mergeLoop_skipped {W : Type} (M : DoubleModel W) (ok : Store → Str → Str → Bool)
    (tl tr tm : Nat) (temp : Store) (h : ∀ rec ∈ temp, Skipped rec.1) :
    ∀ st : Store × Nat, temp.foldl (mergeStep M ok tl tr tm) st = st := by
  induction temp with
  | nil => intro st; rfl
  | cons rec rest ih =>
    intro st
    simp only [List.foldl_cons]
    rw [mergeStep_skipped M ok tl tr tm st rec (h rec (List.mem_cons_self _ _))]
    exact ih (fun r hr => h r (List.mem_cons_of_mem _ hr)) st

/-- C17. Malformed and metadata keys are skipped by the merge: an iteration of the loop
of `UserDictManager::Restore` on a source record whose key starts with the metadata
prefix, holds no tab, or has its first tab at position 0 leaves the destination and
the entry counter as they were, whatever the storage engine does; and for a snapshot
that validates, whose records are all of these kinds, and a destination that opens,
`Restore` returns true and leaves every dictionary, the destination with its tick and
user id included, as it was. -/
theorem Restore_skips {W : Type} (M : DoubleModel W) (ok : Store → Str → Str → Bool)
    (user_id : Str) (temp dest : Store) (disk : Disk)
    (hvalid : IsUserDb temp = true) (hname : GetDbName temp ≠ [])
    (hdest : disk (GetDbName temp) = some dest) (hskip : ∀ rec ∈ temp, Skipped rec.1) :
    (∀ (tl tr tm : Nat) (st : Store × Nat) (rec : Str × Str), Skipped rec.1 →
      mergeStep M ok tl tr tm st rec = st) ∧
    merge M ok user_id temp dest = (dest, 0) ∧
    UserDictManager.Restore M ok user_id true (some temp) disk = (true, disk) := by
  have hm : merge M ok user_id temp dest = (dest, 0) := by
    unfold merge
    simp only
    rw [mergeLoop_skipped M ok _ _ _ temp hskip (dest, 0)]
    simp
  refine ⟨fun tl tr tm st rec h => mergeStep_skipped M ok tl tr tm st rec h, hm, ?_⟩
  rw [Restore_success M ok user_id temp dest disk hvalid hname hdest, hm]
  simp only [Prod.mk.injEq, true_and]
  rw [← hdest]
  exact Function.update_eq_self _ _

/-- The snapshot `skipped_src`, at tick 9 and from user `A`, restored into a destination
at tick 1 of user `B`: the result is true and the destination is as it was. -/
theorem Restore_skips_witness :
    (∀ rec ∈ skipped_src, Skipped rec.1) ∧
    (∀ (tl tr tm : Nat) (st : Store × Nat) (rec : Str × Str), Skipped rec.1 →
      mergeStep wholeModel okAll tl tr tm st rec = st) ∧
    merge wholeModel okAll "B".toList skipped_src tombstone_dest = (tombstone_dest, 0) ∧
    UserDictManager.Restore wholeModel okAll "B".toList true (some skipped_src)
      (diskOf "X".toList tombstone_dest) = (true, diskOf "X".toList tombstone_dest) :=
  have h : ∀ rec ∈ skipped_src, Skipped rec.1 := by
    unfold Skipped
    decide
  ⟨h, Restore_skips wholeModel okAll "B".toList skipped_src tombstone_dest
    (diskOf "X".toList tombstone_dest) (by decide) (by decide) (by decide) h⟩

/-- The loop of `Synchronize` calls `Restore` on each snapshot of the peers in turn: the
flag stays true when every call returned true. -/
theorem syncLoop_eq {W : Type} (M : DoubleModel W) (ok : Store → Str → Str → Bool)
    (user_id dict_name : Str) (entries : List PeerEntry) :
    ∀ st : Bool × Disk,
      entries.foldl (syncStep M ok user_id dict_name) st =
        (st.1 && (restoreEach M ok user_id (peerSnapshots dict_name entries) st.2).1.all id,
         (restoreEach M ok user_id (peerSnapshots dict_name entries) st.2).2) := by
  induction entries with
  | nil => intro st; simp [peerSnapshots, restoreEach]
  | cons e rest ih =>
    intro st
    simp only [List.foldl_cons]
    rw [ih]
    cases hd : e.isDirectory with
    | false =>
      have hp : peerSnapshots dict_name (e :: rest) = peerSnapshots dict_name rest := by
        simp [peerSnapshots, List.filterMap_cons, hd]
      rw [hp]
      simp [syncStep, hd]
    | true =>
      cases hf : e.file (snapshotFileName dict_name) with
      | none =>
        have hp : peerSnapshots dict_name (e :: rest) = peerSnapshots dict_name rest := by
          simp [peerSnapshots, List.filterMap_cons, hd, hf]
        rw [hp]
        simp [syncStep, hd, hf]
      | some snapshot =>
        have hp : peerSnapshots dict_name (e :: rest) =
            (e.tempOpens, snapshot) :: peerSnapshots dict_name rest := by
          simp [peerSnapshots, List.filterMap_cons, hd, hf]
        rw [hp]
        simp only [syncStep, hd, hf, restoreEach, Bool.true_eq_false, if_false,
          List.all_cons, id]
        cases hr : (UserDictManager.Restore M ok user_id e.tempOpens snapshot st.2).1 with
        | false => simp
        | true => simp

theorem restoreEach_length {W : Type} (M : DoubleModel W) (ok : Store → Str → Str → Bool)
    (user_id : Str) (peers : List (Bool × Option Store)) :
    ∀ disk, (restoreEach M ok user_id peers disk).1.length = peers.length := by
  induction peers with
  | nil => intro disk; rfl
  | cons p rest ih => intro disk; simp [restoreEach, ih]

/-- C16. Synchronize result aggregation: when the sync root is missing and cannot be
created, `UserDictManager::Synchronize` returns false and leaves every dictionary as
it was. Otherwise it calls `Restore` once for every entry of the sync root that is a
directory and contains the snapshot file of the dictionary, in turn and whatever the
earlier calls returned, then calls `Backup` on the dictionaries that these calls left,
and it returns true if and only if every one of the calls of `Restore` returned true
and `Backup` returned true. -/
theorem Synchronize_result {W : Type} (M : DoubleModel W) (ok : Store → Str → Str → Bool)
    (E : BackupEngine) (user_id dict_name : Str) (syncDir : Option (List PeerEntry))
    (canCreate : Bool) (disk : Disk) :
    (syncDir = none ∧ canCreate = false →
      UserDictManager.Synchronize M ok E user_id dict_name syncDir canCreate disk =
        (false, disk)) ∧
    (¬ (syncDir = none ∧ canCreate = false) →
      (restoreEach M ok user_id (peerSnapshots dict_name (syncDir.getD [])) disk).1.length =
        (peerSnapshots dict_name (syncDir.getD [])).length ∧
      (UserDictManager.Synchronize M ok E user_id dict_name syncDir canCreate disk).2 =
        (UserDictManager.Backup E user_id dict_name
          (restoreEach M ok user_id (peerSnapshots dict_name (syncDir.getD [])) disk).2).2 ∧
      ((UserDictManager.Synchronize M ok E user_id dict_name syncDir canCreate disk).1 = true ↔
        (∀ r ∈ (restoreEach M ok user_id (peerSnapshots dict_name (syncDir.getD []))
            disk).1, r = true) ∧
        (UserDictManager.Backup E user_id dict_name
          (restoreEach M ok user_id (peerSnapshots dict_name (syncDir.getD [])) disk).2).1 =
            true)) := by
  constructor
  · intro h
    unfold UserDictManager.Synchronize
    rw [if_pos]
    rw [h.1, h.2]
    exact ⟨rfl, rfl⟩
  · intro h
    have hc : ¬ (syncDir.isNone = true ∧ canCreate = false) := by
      intro hh
      exact h ⟨Option.isNone_iff_eq_none.mp hh.1, hh.2⟩
    refine ⟨restoreEach_length M ok user_id _ disk, ?_, ?_⟩
    · unfold UserDictManager.Synchronize
      rw [if_neg hc]
      simp only [syncLoop_eq]
      split <;> rfl
    · unfold UserDictManager.Synchronize
      rw [if_neg hc]
      simp only [syncLoop_eq, Bool.true_and]
      split
      · rename_i hb
        simp [hb]
      · rename_i hb
        simp only [Bool.not_eq_false] at hb
        simp [hb, List.all_eq_true]

/-- Dictionary `X` of user `B` synchronized against the four entries of `sync_entries`:
`Restore` is called twice, the first call fails and the second one merges Scenario A;
the backup succeeds and the result is false. -/
theorem Synchronize_result_witness :
    (restoreEach wholeModel okAll "B".toList (peerSnapshots "X".toList sync_entries)
      (diskOf "X".toList scenarioA_dest)).1 = [false, true] ∧
    (UserDictManager.Synchronize wholeModel okAll (engineAll "B".toList) "B".toList
      "X".toList (some sync_entries) false (diskOf "X".toList scenarioA_dest)).1 = false ∧
    ((UserDictManager.Synchronize wholeModel okAll (engineAll "B".toList) "B".toList
      "X".toList (some sync_entries) false (diskOf "X".toList scenarioA_dest)).2
        "X".toList).bind (fun db => Fetch db "ni hao \tyou are".toList) =
      some "c=5 d=0 t=3".toList ∧
    UserDictManager.Synchronize wholeModel okAll (engineAll "B".toList) "B".toList
      "X".toList none false (diskOf "X".toList scenarioA_dest) =
        (false, diskOf "X".toList scenarioA_dest) :=
  have h := Synchronize_result wholeModel okAll (engineAll "B".toList) "B".toList
    "X".toList (some sync_entries) false (diskOf "X".toList scenarioA_dest)
  ⟨by decide,
   by
    cases hs : (UserDictManager.Synchronize wholeModel okAll (engineAll "B".toList)
      "B".toList "X".toList (some sync_entries) false (diskOf "X".toList scenarioA_dest)).1
    · rfl
    · have h1 := ((h.2 (by simp)).2.2.1 hs).1 false
      exact absurd (h1 (by decide)) (by decide),
   by rw [(h.2 (by simp)).2.1]; decide,
   (Synchronize_result wholeModel okAll (engineAll "B".toList) "B".toList
    "X".toList none false (diskOf "X".toList scenarioA_dest)).1 ⟨rfl, rfl⟩⟩

/-- The code of `Import` that compresses the spaces of a code (lines 245 to 250) replaces
every run of spaces by one space. -/
theorem join_splitCompress_eq (t : Str) :
    join (splitCompress ' ' t) [' '] = collapseSpaces t := by
  induction t with
  | nil => rfl
  | cons c cs ih =>
    have hne := splitCompress_ne_nil ' ' cs
    have hsc : splitCompress ' ' (c :: cs) =
        (if c = ' ' then
          (if cs.head? = some ' ' then splitCompress ' ' cs else [] :: splitCompress ' ' cs)
        else consHead c (splitCompress ' ' cs)) := rfl
    rw [hsc]
    unfold collapseSpaces
    by_cases hc : c = ' '
    · by_cases hh : cs.head? = some ' '
      · simp only [hc, hh, if_true, and_self]
        exact ih
      · simp only [hc, hh, if_true, if_false, and_false]
        rw [join_nil_cons _ _ hne, ih]
        rfl
    · simp only [hc, if_false, false_and]
      rw [join_consHead _ _ _ hne, ih]

theorem importEntry_normal (line key : Str) (delta : Int)
    (h : importEntry line = some (key, delta)) :
    ∃ T C rest, split '\t' line = T :: C :: rest ∧ T ≠ [] ∧ C ≠ [] ∧
      key = collapseSpaces (trim C) ++ [' ', '\t'] ++ T := by
  unfold importEntry at h
  split at h
  · exact Option.noConfusion h
  · split at h
    · rename_i row0 row1 rest hs
      split at h
      · exact Option.noConfusion h
      · rename_i hne
        simp only [Option.some.injEq, Prod.mk.injEq] at h
        refine ⟨row0, row1, rest, hs, fun e => hne (Or.inl e), fun e => hne (Or.inr e), ?_⟩
        rw [← h.1]
        by_cases ht : trim row1 = []
        · simp [ht, collapseSpaces]
        · simp only [ne_eq, ht, not_false_eq_true, if_true, join_splitCompress_eq]
    · exact Option.noConfusion h

theorem dropWhile_append_of_mem (p : Char → Bool) (a r : Str)
    (h : ∃ x ∈ a, p x = false) : (a ++ r).dropWhile p = a.dropWhile p ++ r := by
  induction a with
  | nil => obtain ⟨x, hx, _⟩ := h; simp at hx
  | cons c cs ih =>
    by_cases hc : p c = true
    · simp only [List.cons_append, List.dropWhile_cons, hc, if_true]
      apply ih
      obtain ⟨x, hx, hp⟩ := h
      rcases List.mem_cons.mp hx with e | e
      · rw [e, hc] at hp; exact Bool.noConfusion hp
      · exact ⟨x, e, hp⟩
    · simp [List.dropWhile_cons, hc]

/-- Trimming acts on the two ends of a string: what stands between two parts that
each hold a character other than white space is kept. -/
theorem trim_middle (a m b : Str) (ha : ∃ x ∈ a, isSpace x = false)
    (hb : ∃ x ∈ b, isSpace x = false) :
    trim (a ++ m ++ b) =
      a.dropWhile isSpace ++ m ++ (b.reverse.dropWhile isSpace).reverse := by
  unfold trim
  have hb1 : ∃ x ∈ b.reverse, isSpace x = false := by
    obtain ⟨x, hx, hp⟩ := hb
    exact ⟨x, List.mem_reverse.mpr hx, hp⟩
  rw [List.append_assoc, dropWhile_append_of_mem _ _ _ ha, List.reverse_append,
    List.reverse_append, List.append_assoc, dropWhile_append_of_mem _ _ _ hb1]
  simp

theorem collapseSpaces_double (x y : Str) :
    collapseSpaces (x ++ ' ' :: ' ' :: y) = collapseSpaces (x ++ ' ' :: y) := by
  induction x with
  | nil => simp [collapseSpaces]
  | cons c cs ih =>
    have hh : (cs ++ ' ' :: ' ' :: y).head? = (cs ++ ' ' :: y).head? := by
      cases cs <;> rfl
    show (if c = ' ' ∧ (cs ++ ' ' :: ' ' :: y).head? = some ' ' then
        collapseSpaces (cs ++ ' ' :: ' ' :: y)
      else c :: collapseSpaces (cs ++ ' ' :: ' ' :: y)) =
      (if c = ' ' ∧ (cs ++ ' ' :: y).head? = some ' ' then collapseSpaces (cs ++ ' ' :: y)
      else c :: collapseSpaces (cs ++ ' ' :: y))
    rw [hh, ih]

/-- C18 fails on the code: a line whose code field holds two carriage returns between
its tokens is accepted by `UserDictManager::Import` and addresses a key that keeps
both of them, while the code field with its runs of white space collapsed is `ni hao`;
and the line with one carriage return addresses another key, so the two lines leave
two records. -/
theorem Import_whitespace_counterexample :
    importEntry "hello\tni\r\rhao\t1".toList = some ("ni\r\rhao \thello".toList, 1) ∧
    collapseWhitespace (trim "ni\r\rhao".toList) = "ni hao".toList ∧
    importEntry "hello\tni\rhao\t1".toList = some ("ni\rhao \thello".toList, 1) ∧
    collapseWhitespace (trim "ni\rhao".toList) = "ni hao".toList ∧
    (UserDictManager.Import wholeModel okAll (some fresh_db)
      "hello\tni\rhao\t1\nhello\tni\r\rhao\t1\n".toList).2.map
        (fun db => (Fetch db "ni\rhao \thello".toList, Fetch db "ni\r\rhao \thello".toList,
          Fetch db "ni hao \thello".toList)) =
      some (some "c=1 d=0 t=0".toList, some "c=1 d=0 t=0".toList, none) := by
  decide

/-- C18, amended. Import code normalisation: for every line that
`UserDictManager::Import` accepts, with text field T and code field C, the key that the
line addresses is N(C) followed by a space, a tab and T, where N(C) is C with leading
and trailing white space removed and every run of the space character collapsed to a
single space (other white space inside the code is kept); the iteration of the loop
writes the record under that key when the update succeeds; and a line with the same
text whose code field has one more space at a place between two characters other than
white space addresses the same key. -/
theorem Import_code_normalisation (line key : Str) (delta : Int)
    (h : importEntry line = some (key, delta)) :
    (∃ T C rest, split '\t' line = T :: C :: rest ∧ T ≠ [] ∧ C ≠ [] ∧
      key = collapseSpaces (trim C) ++ [' ', '\t'] ++ T) ∧
    (∀ {W : Type} (M : DoubleModel W) (ok : Store → Str → Str → Bool) (st : Store × Nat),
      (∀ v, ok st.1 key v = true) →
      Fetch (importStep M ok st line).1 key = some (importValue M delta (Fetch st.1 key))) ∧
    (∀ (T a b : Str) (rest rest2 : List Str) (line2 key2 : Str) (delta2 : Int),
      split '\t' line = T :: (a ++ ' ' :: b) :: rest →
      split '\t' line2 = T :: (a ++ ' ' :: ' ' :: b) :: rest2 →
      (∃ x ∈ a, isSpace x = false) → (∃ x ∈ b, isSpace x = false) →
      importEntry line2 = some (key2, delta2) → key2 = key) := by
  refine ⟨importEntry_normal line key delta h, ?_, ?_⟩
  · intro W M ok st hok
    exact (importStep_fetch M ok st line key delta h hok).1
  · intro T a b rest rest2 line2 key2 delta2 hs hs2 ha hb h2
    obtain ⟨T1, C1, r1, e1, _, _, k1⟩ := importEntry_normal line key delta h
    obtain ⟨T2, C2, r2, e2, _, _, k2⟩ := importEntry_normal line2 key2 delta2 h2
    rw [hs] at e1
    rw [hs2] at e2
    simp only [List.cons.injEq] at e1 e2
    rw [k1, k2, ← e1.1, ← e2.1, ← e1.2.1, ← e2.2.1]
    have t1 := trim_middle a [' '] b ha hb
    have t2 := trim_middle a [' ', ' '] b ha hb
    simp only [List.append_assoc, List.singleton_append, List.cons_append,
      List.nil_append] at t1 t2
    rw [t1, t2, collapseSpaces_double]

/-- The lines `hello<TAB>ni hao<TAB>5` and `hello<TAB>ni  hao<TAB>1` address the key of
Scenario C. -/
theorem Import_code_normalisation_witness :
    importEntry "hello\tni hao\t5".toList = some ("ni hao \thello".toList, 5) ∧
    collapseSpaces (trim "ni hao".toList) ++ [' ', '\t'] ++ "hello".toList =
      "ni hao \thello".toList ∧
    importEntry "hello\tni  hao\t1".toList = some ("ni hao \thello".toList, 1) :=
  have h : importEntry "hello\tni hao\t5".toList = some ("ni hao \thello".toList, 5) := by
    decide
  ⟨h, by decide,
   by
    have h2 : ∃ k, importEntry "hello\tni  hao\t1".toList = some (k, 1) :=
      ⟨"ni hao \thello".toList, by decide⟩
    obtain ⟨k, hk⟩ := h2
    have e := (Import_code_normalisation _ _ _ h).2.2 "hello".toList "ni".toList "hao".toList
      ["5".toList] ["1".toList] "hello\tni  hao\t1".toList k 1 (by decide) (by decide)
      ⟨'n', by decide, by decide⟩ ⟨'h', by decide, by decide⟩ hk
    rw [hk, e]⟩

theorem trim_eq_nil_iff (s : Str) : trim s = [] ↔ ∀ x ∈ s, isSpace x = true := by
  unfold trim
  rw [List.reverse_eq_nil_iff, List.dropWhile_eq_nil_iff]
  constructor
  · intro h
    have hnil : s.dropWhile isSpace = [] := by
      cases hd : s.dropWhile isSpace with
      | nil => rfl
      | cons c cs =>
        have h1 := List.head?_dropWhile_not isSpace s
        rw [hd] at h1
        simp only [List.head?_cons] at h1
        have h2 := h c (by rw [hd]; simp)
        rw [h2] at h1
        exact absurd h1 (by decide)
    exact List.dropWhile_eq_nil_iff.mp hnil
  · intro h x hx
    rw [List.mem_reverse] at hx
    exact h x ((List.dropWhile_sublist isSpace).subset hx)

/-- C19 on the code: every row that `UserDictManager::Export` writes has a text field
that is not empty and a code field that is the trimmed code part of the key, which is
empty exactly when the code part consists of white space, since the code part is
tested before it is trimmed. The store `blank_db` holds one record, whose key is a
space, a tab and the text `hello`, as `UserDictManager::Import` creates it for the line
`hello<TAB> <TAB>1`: `Export` writes the row `hello<TAB><TAB>1`, whose code field is
empty, and `Import` passes over that row. -/
theorem Export_blank_code {W : Type} (M : DoubleModel W) :
    (∀ key value row : Str, exportRow M (key, value) = some row →
      ∃ code text, key = code ++ '\t' :: text ∧ code ≠ [] ∧ text ≠ [] ∧
        row = text ++ ['\t'] ++ trim code ++ ['\t'] ++ showInt (UnpackValues M value).1 ++
          ['\n'] ∧
        (trim code = [] ↔ ∀ x ∈ code, isSpace x = true)) ∧
    importEntry "hello\t \t1".toList = some (" \thello".toList, 1) ∧
    UserDictManager.Export wholeModel (some blank_db) =
      (1, some (exportHeader blank_db ++ "hello\t\t1\n".toList)) ∧
    split '\t' "hello\t\t1".toList = ["hello".toList, [], "1".toList] ∧
    importEntry "hello\t\t1".toList = none := by
  refine ⟨?_, by decide, by decide, by decide, by decide⟩
  intro key value row h
  obtain ⟨_, _, code, text, hk, _, _, hc, ht, hrow⟩ := (exportRow_iff M key value row).1 h
  exact ⟨code, text, hk, hc, ht, hrow, trim_eq_nil_iff code⟩

theorem resolveCommits_range (commits c : Int) (h1 : InIntRange commits) (h2 : InIntRange c) :
    InIntRange (resolveCommits commits c) := by
  unfold resolveCommits
  split
  · exact InIntRange_max _ _ h1 h2
  · split
    · exact h1
    · exact h2

/-- A sequence of commit resolutions is the identity, a constant, or a maximum with
a constant. -/
theorem resolveCommits_fold (ds : List Int) :
    (∀ c, ds.foldl (fun c δ => resolveCommits δ c) c = c) ∨
    (∃ a, ∀ c, ds.foldl (fun c δ => resolveCommits δ c) c = a) ∨
    (∃ a, ∀ c, ds.foldl (fun c δ => resolveCommits δ c) c = max a c) := by
  induction ds with
  | nil => left; intro c; rfl
  | cons δ ds ih =>
    simp only [List.foldl_cons]
    rcases ih with h | ⟨a, h⟩ | ⟨a, h⟩
    · by_cases h1 : δ > 0
      · right; right
        exact ⟨δ, fun c => by rw [h]; simp [resolveCommits, h1]⟩
      · by_cases h2 : δ < 0
        · right; left
          exact ⟨δ, fun c => by rw [h]; simp [resolveCommits, h1, h2]⟩
        · left
          intro c; rw [h]; simp [resolveCommits, h1, h2]
    · right; left
      exact ⟨a, fun c => h _⟩
    · by_cases h1 : δ > 0
      · right; right
        exact ⟨max a δ, fun c => by rw [h]; simp [resolveCommits, h1, max_assoc]⟩
      · by_cases h2 : δ < 0
        · right; left
          exact ⟨max a δ, fun c => by rw [h]; simp [resolveCommits, h1, h2]⟩
        · right; right
          exact ⟨a, fun c => by rw [h]; simp [resolveCommits, h1, h2]⟩

theorem resolveCommits_fold_idem (ds : List Int) (c : Int) :
    ds.foldl (fun c δ => resolveCommits δ c) (ds.foldl (fun c δ => resolveCommits δ c) c) =
      ds.foldl (fun c δ => resolveCommits δ c) c := by
  rcases resolveCommits_fold ds with h | ⟨a, h⟩ | ⟨a, h⟩
  · rw [h, h]
  · rw [h, h]
  · rw [h, h, ← max_assoc, max_self]

theorem resolveCommits_fold_range (ds : List Int) (hds : ∀ δ ∈ ds, InIntRange δ) :
    ∀ c, InIntRange c → InIntRange (ds.foldl (fun c δ => resolveCommits δ c) c) := by
  induction ds with
  | nil => intro c hc; exact hc
  | cons δ ds ih =>
    intro c hc
    simp only [List.foldl_cons]
    exact ih (fun x hx => hds x (List.mem_cons_of_mem _ hx)) _
      (resolveCommits_range δ c (hds δ (List.mem_cons_self _ _)) hc)

theorem deltasAt_range (k : Str) (lines : List Str) : ∀ δ ∈ deltasAt k lines, InIntRange δ := by
  intro δ hδ
  unfold deltasAt at hδ
  rw [List.mem_filterMap] at hδ
  obtain ⟨line, _, hl⟩ := hδ
  cases he : importEntry line with
  | none => rw [he] at hl; exact Option.noConfusion hl
  | some e =>
    obtain ⟨key, commits⟩ := e
    rw [he] at hl
    simp only at hl
    split at hl
    · simp only [Option.some.injEq] at hl
      rw [← hl]
      exact (importEntry_delta line key commits he).1
    · exact Option.noConfusion hl

theorem deltasAt_cons (k line : Str) (rest : List Str) :
    deltasAt k (line :: rest) =
      match importEntry line with
      | some (key, commits) =>
        if key = k then commits :: deltasAt k rest else deltasAt k rest
      | none => deltasAt k rest := by
  unfold deltasAt
  rw [List.filterMap_cons]
  cases he : importEntry line with
  | none => rfl
  | some e =>
    obtain ⟨key, commits⟩ := e
    simp only
    by_cases hk : key = k
    · simp [hk]
    · simp [hk]

/-- The binding of key `k` after the loop of `Import`: untouched when no line addresses
`k`, and otherwise the record read at the start with its commits resolved against the
lines that address `k`, in their order. -/
theorem importAt_fold {W : Type} (M : DoubleModel W) (hM : M.FmtNoSpace)
    (hfix : ∀ d, M.fmt (M.reparse d) = M.fmt d) (k : Str) (lines : List Str) :
    ∀ v : Option Str, lines.foldl (importAt M k) v =
      if deltasAt k lines = [] then v
      else some (formatValue M
        ((deltasAt k lines).foldl (fun c δ => resolveCommits δ c) (readRecord M v).1)
        (readRecord M v).2.1 (readRecord M v).2.2) := by
  induction lines with
  | nil => intro v; rfl
  | cons line rest ih =>
    intro v
    simp only [List.foldl_cons]
    rw [ih, deltasAt_cons]
    unfold importAt
    cases he : importEntry line with
    | none => rfl
    | some e =>
      obtain ⟨key, commits⟩ := e
      simp only
      by_cases hk : key = k
      · simp only [hk, if_true]
        have hr := readRecord_range M v
        have hc := resolveCommits_range commits (readRecord M v).1
          (importEntry_delta line key commits he).1 hr.1
        have hv : importValue M commits v =
            formatValue M (resolveCommits commits (readRecord M v).1) (readRecord M v).2.1
              (readRecord M v).2.2 := importValue_eq M commits v
        have hread : readRecord M (some (importValue M commits v)) =
            (resolveCommits commits (readRecord M v).1, M.reparse (readRecord M v).2.1,
              (readRecord M v).2.2) := by
          rw [hv]
          exact UnpackValues_formatValue M hM _ _ _ hc hr.2
        rw [hread]
        simp only [List.foldl_cons, reduceCtorEq, if_false]
        split
        · rename_i hnil
          rw [hnil, hv]
          rfl
        · exact congrArg some (formatValue_congr M _ _ _ _ (hfix _))
      · simp only [hk, if_false]

/-- Running the loop of `Import` over the same lines a second time leaves the binding
of every key as the first run left it. -/
theorem importAt_fold_twice {W : Type} (M : DoubleModel W) (hM : M.FmtNoSpace)
    (hfix : ∀ d, M.fmt (M.reparse d) = M.fmt d) (k : Str) (lines : List Str)
    (v : Option Str) :
    lines.foldl (importAt M k) (lines.foldl (importAt M k) v) =
      lines.foldl (importAt M k) v := by
  rw [importAt_fold M hM hfix k lines (lines.foldl (importAt M k) v)]
  split
  · rfl
  · rename_i hne
    rw [importAt_fold M hM hfix k lines v, if_neg hne]
    have hr := readRecord_range M v
    have hc := resolveCommits_fold_range (deltasAt k lines) (deltasAt_range k lines) _ hr.1
    have hread : readRecord M (some (formatValue M
        ((deltasAt k lines).foldl (fun c δ => resolveCommits δ c) (readRecord M v).1)
        (readRecord M v).2.1 (readRecord M v).2.2)) =
        ((deltasAt k lines).foldl (fun c δ => resolveCommits δ c) (readRecord M v).1,
          M.reparse (readRecord M v).2.1, (readRecord M v).2.2) :=
      UnpackValues_formatValue M hM _ _ _ hc hr.2
    rw [hread]
    simp only
    rw [resolveCommits_fold_idem]
    exact congrArg some (formatValue_congr M _ _ _ _ (hfix _))

theorem importEntry_ne_dbTypeKey (line key : Str) (delta : Int)
    (h : importEntry line = some (key, delta)) : key ≠ dbTypeKey := by
  obtain ⟨code, text, rfl, _, _⟩ := importEntry_key line key delta h
  intro e
  have hmem : '\t' ∈ code ++ [' ', '\t'] ++ text := by simp
  rw [e] at hmem
  revert hmem
  decide

/-- C20. Import is idempotent: for every valid store and every text file, with all
updates succeeding and a rendering of weights that has no space and is stable under
unpacking, running `UserDictManager::Import` on the file a second time returns the
count that the first run returned and leaves every key of the store bound as the
first run left it. -/
theorem Import_idempotent {W : Type} (M : DoubleModel W) (hM : M.FmtNoSpace)
    (hfix : ∀ d, M.fmt (M.reparse d) = M.fmt d) (ok : Store → Str → Str → Bool)
    (hok : ∀ db k v, ok db k v = true) (db : Store) (text : Str)
    (hvalid : IsUserDb db = true) :
    ∃ n db1 db2, UserDictManager.Import M ok (some db) text = (n, some db1) ∧
      UserDictManager.Import M ok (some db1) text = (n, some db2) ∧
      ∀ k, Fetch db2 k = Fetch db1 k := by
  have hvalid1 : IsUserDb ((getlines text).foldl (importStep M ok) (db, 0)).1 = true := by
    rw [IsUserDb_iff] at hvalid ⊢
    rw [importLoop_frame M ok dbTypeKey (getlines text)
      (fun line _ key delta he => importEntry_ne_dbTypeKey line key delta he) (db, 0)]
    exact hvalid
  refine ⟨_, _, ((getlines text).foldl (importStep M ok)
    (((getlines text).foldl (importStep M ok) (db, 0)).1, 0)).1,
    Import_ok M ok db text hvalid, ?_, ?_⟩
  · rw [Import_ok M ok _ text hvalid1, importLoop_count_ok M ok hok,
      importLoop_count_ok M ok hok]
  · intro k
    rw [importLoop_fetch M ok hok k, importLoop_fetch M ok hok k]
    exact importAt_fold_twice M hM hfix k (getlines text) (Fetch db k)

/-- The file `repeat_text`, whose lines address the key of `hello` with the counts -1, 5
and 0, imported into a store without records: both runs return 4 and leave `hello`
with 5 commits. -/
theorem Import_idempotent_witness :
    (∃ n db1 db2,
      UserDictManager.Import wholeModel okAll (some fresh_db) repeat_text = (n, some db1) ∧
      UserDictManager.Import wholeModel okAll (some db1) repeat_text = (n, some db2) ∧
      ∀ k, Fetch db2 k = Fetch db1 k) ∧
    (UserDictManager.Import wholeModel okAll (some fresh_db) repeat_text).1 = 4 ∧
    (UserDictManager.Import wholeModel okAll (some fresh_db) repeat_text).2.bind
      (fun db1 => Fetch db1 "ni hao \thello".toList) = some "c=5 d=0 t=0".toList ∧
    deltasAt "ni hao \thello".toList (getlines repeat_text) = [-1, 5, 0] :=
  ⟨Import_idempotent wholeModel wholeModel_fmtNoSpace
    (fun d => by rw [wholeModel_reparse]) okAll okAll_ok fresh_db repeat_text (by decide),
   by decide, by decide, by decide⟩

/-- The entry counter of the loop of `Restore` grows by at most one for each source
record that has a merge key. -/
theorem mergeLoop_count_le {W : Type} (M : DoubleModel W) (ok : Store → Str → Str → Bool)
    (tl tr tm : Nat) (temp : Store) :
    ∀ st : Store × Nat,
      (temp.foldl (mergeStep M ok tl tr tm) st).2 ≤ st.2 + mergeCount temp := by
  induction temp with
  | nil => intro st; exact Nat.le_refl _
  | cons rec rest ih =>
    intro st
    simp only [List.foldl_cons]
    refine le_trans (ih _) ?_
    unfold mergeCount
    simp only [List.filter_cons]
    unfold mergeStep
    cases hk : mergeKey rec.1 with
    | none => simp
    | some key =>
      simp only [Option.isSome_some, if_true, List.length_cons]
      split <;> simp only <;> omega

theorem merge_count_le {W : Type} (M : DoubleModel W) (ok : Store → Str → Str → Bool)
    (user_id : Str) (temp dest : Store) :
    (merge M ok user_id temp dest).2 ≤ mergeCount temp := by
  have h := mergeLoop_count_le M ok (GetTickCount dest) (GetTickCount temp)
    (max (GetTickCount dest) (GetTickCount temp)) temp (dest, 0)
  simp only [Nat.zero_add] at h
  unfold merge
  simp only
  split
  · exact h
  · exact h

/-- The loop of `Restore` leaves the destination and the entry counter as they were
when no source record has a merge key, and when the storage engine refuses every
update of a record. -/
theorem mergeLoop_unwritten {W : Type} (M : DoubleModel W) (ok : Store → Str → Str → Bool)
    (tl tr tm : Nat) (temp : Store)
    (h : mergeCount temp = 0 ∨
      ∀ db k v, k ≠ tickKey → k ≠ userIdKey → ok db k v = false) :
    ∀ st : Store × Nat, temp.foldl (mergeStep M ok tl tr tm) st = st := by
  induction temp with
  | nil => intro st; rfl
  | cons rec rest ih =>
    intro st
    simp only [List.foldl_cons]
    have hstep : mergeStep M ok tl tr tm st rec = st := by
      unfold mergeStep
      cases hk : mergeKey rec.1 with
      | none => rfl
      | some key =>
        rcases h with h | h
        · exact absurd hk (mergeCount_zero (rec :: rest) (by omega) rec
            (List.mem_cons_self _ _) key)
        · simp only [Update, h _ key _ (mergeKey_ne_tickKey rec.1 key hk)
            (mergeKey_ne_userIdKey rec.1 key hk), Bool.false_eq_true, if_false]
    rw [hstep]
    apply ih
    rcases h with h | h
    · left
      have h0 := mergeCount_zero (rec :: rest) (by omega)
      unfold mergeCount
      rw [List.length_eq_zero, List.filter_eq_nil_iff]
      intro r hr
      cases hk : mergeKey r.1 with
      | none => simp
      | some key => exact absurd hk (h0 r (List.mem_cons_of_mem _ hr) key)
    · exact Or.inr h

theorem merge_unwritten {W : Type} (M : DoubleModel W) (ok : Store → Str → Str → Bool)
    (user_id : Str) (temp dest : Store)
    (h : mergeCount temp = 0 ∨
      ∀ db k v, k ≠ tickKey → k ≠ userIdKey → ok db k v = false) :
    merge M ok user_id temp dest = (dest, 0) := by
  unfold merge
  simp only
  rw [mergeLoop_unwritten M ok _ _ _ temp h (dest, 0)]
  simp

/-- Every source record that has a merge key leaves a record under that key, when
every update succeeds. -/
theorem merge_written {W : Type} (M : DoubleModel W) (ok : Store → Str → Str → Bool)
    (hok : ∀ db k v, ok db k v = true) (user_id : Str) (temp dest : Store)
    (rec : Str × Str) (hrec : rec ∈ temp) (k : Str) (hk : mergeKey rec.1 = some k) :
    Fetch (merge M ok user_id temp dest).1 k ≠ none := by
  rw [merge_fetch_of_ne M ok user_id temp dest k (mergeKey_ne_tickKey rec.1 k hk)
    (mergeKey_ne_userIdKey rec.1 k hk), mergeLoop_fetch M ok hok]
  obtain ⟨right, left, e⟩ := foldl_mergeAt_written M (GetTickCount dest) (GetTickCount temp)
    (max (GetTickCount dest) (GetTickCount temp)) k temp (Fetch dest k) ⟨rec, hrec, hk⟩
  rw [e]
  exact Option.some_ne_none _

/-- C6. Metadata update after merge: take a snapshot that validates and a destination
that opens.  When every update succeeds and the snapshot holds at least one record
with a merge key, `UserDictManager::Restore` writes a record under the merge key of
every such record, and the destination's tick afterwards is the larger of the
destination tick before and the source tick and its `user_id` is the session's.  When
the snapshot holds no such record, or the storage engine refuses every update of a
record, no record is written and the destination, its `tick` and `user_id` included,
is as before.  The entry counter of `Restore` is at most the number of source records
with a merge key and equals it when every update succeeds; for every storage engine
the metadata is updated (the two updates being accepted) when the counter is positive
and kept when it is zero.  In every case the destination tick does not decrease, and
a missing or unparsable `tick` counts as 1. -/
theorem Restore_metadata {W : Type} (M : DoubleModel W) (ok : Store → Str → Str → Bool)
    (user_id : Str) (temp dest : Store) (disk : Disk)
    (hvalid : IsUserDb temp = true) (hname : GetDbName temp ≠ [])
    (hdest : disk (GetDbName temp) = some dest) :
    ∃ dest1,
      (UserDictManager.Restore M ok user_id true (some temp) disk).2 (GetDbName temp) =
        some dest1 ∧
      ((∀ db k v, ok db k v = true) → 0 < mergeCount temp →
        (∀ rec ∈ temp, ∀ k, mergeKey rec.1 = some k → Fetch dest1 k ≠ none) ∧
        Fetch dest1 tickKey = some (showNat (max (GetTickCount dest) (GetTickCount temp))) ∧
        GetTickCount dest1 = max (GetTickCount dest) (GetTickCount temp) ∧
        Fetch dest1 userIdKey = some user_id) ∧
      ((mergeCount temp = 0 ∨
          ∀ db k v, k ≠ tickKey → k ≠ userIdKey → ok db k v = false) →
        dest1 = dest ∧ (merge M ok user_id temp dest).2 = 0) ∧
      (merge M ok user_id temp dest).2 ≤ mergeCount temp ∧
      ((∀ db k v, ok db k v = true) → (merge M ok user_id temp dest).2 = mergeCount temp) ∧
      (0 < (merge M ok user_id temp dest).2 →
        (∀ db v, ok db tickKey v = true) → (∀ db v, ok db userIdKey v = true) →
        Fetch dest1 tickKey = some (showNat (max (GetTickCount dest) (GetTickCount temp))) ∧
        GetTickCount dest1 = max (GetTickCount dest) (GetTickCount temp) ∧
        Fetch dest1 userIdKey = some user_id) ∧
      ((merge M ok user_id temp dest).2 = 0 →
        Fetch dest1 tickKey = Fetch dest tickKey ∧
        Fetch dest1 userIdKey = Fetch dest userIdKey) ∧
      GetTickCount dest ≤ GetTickCount dest1 ∧
      (∀ db : Store,
        (Fetch db tickKey = none ∨ ∃ s, Fetch db tickKey = some s ∧ parseTick s = none) →
        GetTickCount db = 1) := by
  refine ⟨(merge M ok user_id temp dest).1, ?_, ?_, ?_, merge_count_le M ok user_id temp dest,
    fun hok => merge_count M ok hok user_id temp dest, ?_⟩
  · rw [Restore_success M ok user_id temp dest disk hvalid hname hdest]
    simp
  · intro hok hpos
    obtain ⟨h1, _, _⟩ := merge_metadata M ok user_id temp dest
    rw [merge_count M ok hok] at h1
    exact ⟨fun rec hrec k hk => merge_written M ok hok user_id temp dest rec hrec k hk,
      h1 hpos (fun db v => hok db _ v) (fun db v => hok db _ v)⟩
  · intro h
    rw [merge_unwritten M ok user_id temp dest h]
    exact ⟨rfl, rfl⟩
  · obtain ⟨h1, h2, h3⟩ := merge_metadata M ok user_id temp dest
    refine ⟨h1, h2, h3, ?_⟩
    intro db h
    unfold GetTickCount
    rcases h with h | ⟨s, hs, hp⟩
    · rw [h]
    · rw [hs]
      simp only [hp]

/-- Scenario A, whose snapshot at tick 3 holds one record, restored by user `B` into
the destination at tick 1: the record is written, the tick becomes 3 and the user id
`B`.  The snapshot `skipped_src` at tick 9, which holds no record with a merge key,
restored into a destination at tick 1 of user `B`: the destination is as before. -/
theorem Restore_metadata_witness :
    (mergeCount scenarioA_src = 1 ∧
      ∃ dest1,
        (UserDictManager.Restore wholeModel okAll "B".toList true (some scenarioA_src)
          (diskOf "X".toList scenarioA_dest)).2 "X".toList = some dest1 ∧
        Fetch dest1 "ni hao \tyou are".toList ≠ none ∧
        Fetch scenarioA_dest tickKey = some "1".toList ∧
        Fetch dest1 tickKey = some "3".toList ∧
        GetTickCount dest1 = 3 ∧
        Fetch scenarioA_dest userIdKey = some "B".toList ∧
        Fetch scenarioA_src userIdKey = some "A".toList ∧
        Fetch dest1 userIdKey = some "B".toList) ∧
    (mergeCount skipped_src = 0 ∧ GetTickCount skipped_src = 9 ∧
      (UserDictManager.Restore wholeModel okAll "B".toList true (some skipped_src)
        (diskOf "X".toList tombstone_dest)).2 "X".toList = some tombstone_dest) := by
  obtain ⟨d1, h1, h2, _⟩ := Restore_metadata wholeModel okAll "B".toList scenarioA_src
    scenarioA_dest (diskOf "X".toList scenarioA_dest) (by decide) (by decide) (by decide)
  obtain ⟨hw, ht, hg, hu⟩ := h2 okAll_ok (by decide)
  obtain ⟨d2, g1, _, g3, _⟩ := Restore_metadata wholeModel okAll "B".toList skipped_src
    tombstone_dest (diskOf "X".toList tombstone_dest) (by decide) (by decide) (by decide)
  refine ⟨⟨by decide, d1, h1, ?_, by decide, ht, hg, by decide, by decide, hu⟩,
    by decide, by decide, ?_⟩
  · exact hw ("ni hao\tyou are".toList, "c=5 d=2.0 t=2".toList) (by decide) _ (by decide)
  · have e := (g3 (Or.inl (by decide))).1
    rw [e] at g1
    exact g1

end rime
